import Mathlib

/-!
Verification of the scope model (src/scope/scope.ts) and the literal-array
inlining pass (src/modifications/arrays/arrayUnpacker.ts) of the
javascript-deobfuscator repository.

Shallow embedding conventions:
* A Shift AST node is embedded as a `Node` carrying a numeric `id` that stands
  for the JavaScript object identity of that node.  Two nodes denote the same
  runtime object exactly when they carry the same id; a freshly parsed tree
  has pairwise distinct ids.  Only the node kinds inspected by the two source
  files are distinguished; every other kind is collapsed into `Node.other`
  (an ordered list of child slots, which is all the traversal engine sees).
* The numeric value of a `LiteralNumericExpression` is embedded as a `Nat`;
  the two source files only ever use such values as array indices, where any
  non-canonical JavaScript number (negative, fractional) behaves exactly like
  an index at or beyond the element count, which the embedding expresses by
  an out-of-range `Nat`.
* Mutation of the shared tree is embedded as state passing: every traversal
  returns the rewritten tree (and the updated pass state) instead of mutating
  in place.
-/

/-- Shift AST nodes, restricted to the kinds the two source files inspect
(by their `type` string): `Block` / `FunctionBody` (the members of
`ArrayUnpacker.scopeTypes`), `VariableDeclarator`, `BindingIdentifier`,
`ArrayExpression` (whose `elements` entries may be `null` holes, hence
`Option`), `ComputedMemberExpression`, `IdentifierExpression`,
`LiteralNumericExpression`, the remaining `Literal*` kinds (collapsed into
`literalOther`), and every other kind (collapsed into `other`). -/
inductive Node where
  | block (id : Nat) (statements : List Node)
  | functionBody (id : Nat) (statements : List Node)
  | variableDeclarator (id : Nat) (binding : Node) (init : Option Node)
  | bindingIdentifier (id : Nat) (name : String)
  | arrayExpression (id : Nat) (elements : List (Option Node))
  | computedMemberExpression (id : Nat) (object : Node) (expression : Node)
  | identifierExpression (id : Nat) (name : String)
  | literalNumericExpression (id : Nat) (value : Nat)
  | literalOther (id : Nat)
  | other (id : Nat) (children : List Node)

/-- The identity of a node (the JavaScript object reference). -/
def Node.getId : Node → Nat
  | .block i _ => i
  | .functionBody i _ => i
  | .variableDeclarator i _ _ => i
  | .bindingIdentifier i _ => i
  | .arrayExpression i _ => i
  | .computedMemberExpression i _ _ => i
  | .identifierExpression i _ => i
  | .literalNumericExpression i _ => i
  | .literalOther i => i
  | .other i _ => i

/-- Whether the node's `type` is in `ArrayUnpacker.scopeTypes`, i.e. the set
holding the strings Block and FunctionBody. -/
def isScopeNodeType : Node → Bool
  | .block _ _ => true
  | .functionBody _ _ => true
  | _ => false

/-- Whether the node's `type` string starts with Literal (the test
the source applies to array elements). -/
def isLiteralExprType : Node → Bool
  | .literalNumericExpression _ _ => true
  | .literalOther _ => true
  | _ => false

/-- The element check inside `ArrayUnpacker.isLiteralArrayDeclaration`:
`elements.find(e => e && !e.type.startsWith('Literal')) == undefined`, i.e.
every element is either a hole (`null`) or of a `Literal*` kind. -/
def elementsAllLiteralish (elements : List (Option Node)) : Bool :=
  elements.all (fun e => match e with
    | none => true
    | some n => isLiteralExprType n)

/-- `ArrayUnpacker.isLiteralArrayDeclaration`: a `VariableDeclarator` whose
binding is a `BindingIdentifier`, whose initializer is an `ArrayExpression`,
and whose elements are all holes or literals. -/
def isLiteralArrayDeclaration : Node → Bool
  | .variableDeclarator _ (.bindingIdentifier _ _) (some (.arrayExpression _ elements)) =>
      elementsAllLiteralish elements
  | _ => false

/-- `ArrayUnpacker.isSimpleArrayAccess`: a `ComputedMemberExpression` whose
object is an `IdentifierExpression` and whose expression is a
`LiteralNumericExpression`. -/
def isSimpleArrayAccess : Node → Bool
  | .computedMemberExpression _ (.identifierExpression _ _) (.literalNumericExpression _ _) =>
      true
  | _ => false

/-- The name and literal index of a simple array access, when the node has
that exact shape (`none` otherwise). -/
def accessParts : Node → Option (String × Nat)
  | .computedMemberExpression _ (.identifierExpression _ name)
      (.literalNumericExpression _ value) => some (name, value)
  | _ => none

mutual
/-- Ids of all nodes of a tree whose kind satisfies `f`, in depth-first
order (a node before its children, children in structural slot order). -/
def kindIds (f : Node → Bool) : Node → List Nat
  | .block i statements =>
      (if f (.block i statements) then [i] else []) ++ kindIdsList f statements
  | .functionBody i statements =>
      (if f (.functionBody i statements) then [i] else []) ++ kindIdsList f statements
  | .variableDeclarator i binding init =>
      (if f (.variableDeclarator i binding init) then [i] else []) ++
        kindIds f binding ++ kindIdsOpt f init
  | .bindingIdentifier i name =>
      if f (.bindingIdentifier i name) then [i] else []
  | .arrayExpression i elements =>
      (if f (.arrayExpression i elements) then [i] else []) ++ kindIdsOptList f elements
  | .computedMemberExpression i object expression =>
      (if f (.computedMemberExpression i object expression) then [i] else []) ++
        kindIds f object ++ kindIds f expression
  | .identifierExpression i name =>
      if f (.identifierExpression i name) then [i] else []
  | .literalNumericExpression i value =>
      if f (.literalNumericExpression i value) then [i] else []
  | .literalOther i =>
      if f (.literalOther i) then [i] else []
  | .other i children =>
      (if f (.other i children) then [i] else []) ++ kindIdsList f children
  termination_by structural n => n

def kindIdsList (f : Node → Bool) : List Node → List Nat
  | [] => []
  | n :: ns => kindIds f n ++ kindIdsList f ns
  termination_by structural l => l

def kindIdsOpt (f : Node → Bool) : Option Node → List Nat
  | none => []
  | some n => kindIds f n
  termination_by structural o => o

def kindIdsOptList (f : Node → Bool) : List (Option Node) → List Nat
  | [] => []
  | e :: es => kindIdsOpt f e ++ kindIdsOptList f es
  termination_by structural l => l
end

/-- Ids of all nodes of the tree. -/
def nodeIds : Node → List Nat := kindIds (fun _ => true)

/-- Ids of all `VariableDeclarator` nodes of the tree. -/
def declNodeIds : Node → List Nat :=
  kindIds (fun n => match n with
    | .variableDeclarator _ _ _ => true
    | _ => false)

/-- Ids of all nodes satisfying `isLiteralArrayDeclaration`. -/
def ladNodeIds : Node → List Nat := kindIds isLiteralArrayDeclaration

/-- Ids of all non-`Literal*` nodes. -/
def nonLitIds : Node → List Nat := kindIds (fun n => !isLiteralExprType n)

/-- Ids of all `ArrayExpression` nodes. -/
def arrayExprIds : Node → List Nat :=
  kindIds (fun n => match n with
    | .arrayExpression _ _ => true
    | _ => false)

/-- Ids of all nodes that are neither of a `Literal*` kind nor an
`ArrayExpression`. -/
def nonLitNonArrayIds : Node → List Nat :=
  kindIds (fun n => !isLiteralExprType n &&
    (match n with
     | .arrayExpression _ _ => false
     | _ => true))

mutual
/-- The number of occurrences of the id `x` in the tree: how many tree
positions hold a node with that identity.  In a freshly parsed tree this is
at most 1 for every id (each node object sits in exactly one parent slot). -/
def countId (x : Nat) : Node → Nat
  | .block i statements => (if i = x then 1 else 0) + countIdList x statements
  | .functionBody i statements => (if i = x then 1 else 0) + countIdList x statements
  | .variableDeclarator i binding init =>
      (if i = x then 1 else 0) + countId x binding + countIdOpt x init
  | .bindingIdentifier i _ => if i = x then 1 else 0
  | .arrayExpression i elements => (if i = x then 1 else 0) + countIdOptList x elements
  | .computedMemberExpression i object expression =>
      (if i = x then 1 else 0) + countId x object + countId x expression
  | .identifierExpression i _ => if i = x then 1 else 0
  | .literalNumericExpression i _ => if i = x then 1 else 0
  | .literalOther i => if i = x then 1 else 0
  | .other i children => (if i = x then 1 else 0) + countIdList x children
  termination_by structural n => n

def countIdList (x : Nat) : List Node → Nat
  | [] => 0
  | n :: ns => countId x n + countIdList x ns
  termination_by structural l => l

def countIdOpt (x : Nat) : Option Node → Nat
  | none => 0
  | some n => countId x n
  termination_by structural o => o

def countIdOptList (x : Nat) : List (Option Node) → Nat
  | [] => 0
  | e :: es => countIdOpt x e + countIdOptList x es
  termination_by structural l => l
end

mutual
/-- Parent/child identity pairs of the tree: `(p, c)` is listed when some
node with id `p` holds, in one of its child slots, a node with id `c`. -/
def childPairs : Node → List (Nat × Nat)
  | .block i statements =>
      statements.map (fun c => (i, c.getId)) ++ childPairsList statements
  | .functionBody i statements =>
      statements.map (fun c => (i, c.getId)) ++ childPairsList statements
  | .variableDeclarator i binding init =>
      ((i, binding.getId) :: (match init with
        | some c => [(i, c.getId)]
        | none => [])) ++ childPairs binding ++ childPairsOpt init
  | .bindingIdentifier _ _ => []
  | .arrayExpression i elements =>
      (elements.filterMap (fun e => e.map (fun c => (i, c.getId)))) ++
        childPairsOptList elements
  | .computedMemberExpression i object expression =>
      [(i, object.getId), (i, expression.getId)] ++
        childPairs object ++ childPairs expression
  | .identifierExpression _ _ => []
  | .literalNumericExpression _ _ => []
  | .literalOther _ => []
  | .other i children =>
      children.map (fun c => (i, c.getId)) ++ childPairsList children
  termination_by structural n => n

def childPairsList : List Node → List (Nat × Nat)
  | [] => []
  | n :: ns => childPairs n ++ childPairsList ns
  termination_by structural l => l

def childPairsOpt : Option Node → List (Nat × Nat)
  | none => []
  | some n => childPairs n
  termination_by structural o => o

def childPairsOptList : List (Option Node) → List (Nat × Nat)
  | [] => []
  | e :: es => childPairsOpt e ++ childPairsOptList es
  termination_by structural l => l
end

mutual
/-- Whether no `ArrayExpression` element slot of the tree directly holds a
`VariableDeclarator`.  Every tree produced by the external parser satisfies
this: in the Shift grammar, array elements are expressions and a
`VariableDeclarator` is not an expression. -/
def noDeclInArrayElems : Node → Bool
  | .block _ statements => noDeclInArrayElemsList statements
  | .functionBody _ statements => noDeclInArrayElemsList statements
  | .variableDeclarator _ binding init =>
      noDeclInArrayElems binding && noDeclInArrayElemsOpt init
  | .bindingIdentifier _ _ => true
  | .arrayExpression _ elements =>
      elements.all (fun e => match e with
        | some (.variableDeclarator _ _ _) => false
        | _ => true) && noDeclInArrayElemsOptList elements
  | .computedMemberExpression _ object expression =>
      noDeclInArrayElems object && noDeclInArrayElems expression
  | .identifierExpression _ _ => true
  | .literalNumericExpression _ _ => true
  | .literalOther _ => true
  | .other _ children => noDeclInArrayElemsList children
  termination_by structural n => n

def noDeclInArrayElemsList : List Node → Bool
  | [] => true
  | n :: ns => noDeclInArrayElems n && noDeclInArrayElemsList ns
  termination_by structural l => l

def noDeclInArrayElemsOpt : Option Node → Bool
  | none => true
  | some n => noDeclInArrayElems n
  termination_by structural o => o

def noDeclInArrayElemsOptList : List (Option Node) → Bool
  | [] => true
  | e :: es => noDeclInArrayElemsOpt e && noDeclInArrayElemsOptList es
  termination_by structural l => l
end

/-! ## The scope model (src/scope/scope.ts)

The `Scope<T>` class is a mutable object graph: every scope holds a `node`,
a `type`, an optional `parent` reference, a `children` map (opening node to
child scope) and an `elements` map (binding name to payload).  The embedding
represents the graph as an arena: a list of scope records addressed by their
position, with references (`parent`, `children` values) being positions.
The constructor appends a record, so a parent's position is always strictly
below its child's; the parent walks of `get` and `findScope` therefore
strictly decrease the position, which the embedding makes structural by
running them on a fuel of `sid + 1` (enough for the longest possible strictly
decreasing chain from position `sid`). -/

/-- The `ScopeType` enum of the source. -/
inductive ScopeType where
  | Global
  | Function
  | Other
  deriving DecidableEq, Repr

/-- The `VariableType` union of the source: the strings var, const, let and
global.  (`letKind` stands for the string let, which is a reserved word in
Lean.)  Note the `add` method's switch has cases for const, let, var and for
the value `undefined`, but none for global. -/
inductive VariableType where
  | varKind
  | constKind
  | letKind
  | globalKind
  deriving DecidableEq, Repr

/-- One `Scope<T>` object: its fields as in the source, with object
references replaced by arena positions. -/
structure Scope (T : Type) where
  node : Nat
  type : ScopeType
  parent : Option Nat
  children : List (Nat × Nat)
  elements : List (String × T)
  deriving DecidableEq, Repr

/-- The heap of scope objects; a scope reference is a position in this list. -/
abbrev ScopeArena (T : Type) := List (Scope T)

/-- Lookup in a JavaScript `Map` (first entry with the key; keys are unique
because `mapSet` replaces in place). -/
def mapGet {κ β : Type} [DecidableEq κ] : List (κ × β) → κ → Option β
  | [], _ => none
  | (k, v) :: rest, key => if k = key then some v else mapGet rest key

/-- `Map.set`: replace the value at an existing key in place, otherwise
append the new entry (JavaScript maps preserve insertion order). -/
def mapSet {κ β : Type} [DecidableEq κ] : List (κ × β) → κ → β → List (κ × β)
  | [], key, value => [(key, value)]
  | (k, v) :: rest, key, value =>
      if k = key then (key, value) :: rest else (k, v) :: mapSet rest key value

/-- Apply `f` to the scope at position `sid` (the arena analogue of mutating
one object of the graph). -/
def arenaUpdate {T : Type} (arena : ScopeArena T) (sid : Nat) (f : Scope T → Scope T) :
    ScopeArena T :=
  match arena.get? sid with
  | some s => arena.set sid (f s)
  | none => arena

/-- The `Scope` constructor: record the node, type and parent, start with
empty `children` and `elements`, and, when a parent is given, register the
new scope in the parent's `children` map under the opening node
(`this.parent.children.set(this.node, this)`).  Returns the extended arena
and the new scope's reference. -/
def scopeConstruct {T : Type} (arena : ScopeArena T) (node : Nat) (type : ScopeType)
    (parent : Option Nat) : ScopeArena T × Nat :=
  let sid := arena.length
  let arena' := arena ++ [{ node := node, type := type, parent := parent,
                            children := [], elements := [] }]
  match parent with
  | some p => (arenaUpdate arena' p (fun s => { s with children := mapSet s.children node sid }), sid)
  | none => (arena', sid)

/-- The parent walk of `Scope.get`, fueled: check the current scope's
elements, on a miss delegate to the parent, return `none` at the root.  The
guard `p < sid` holds in every arena built by `scopeConstruct` (a parent is
constructed before its children); it bounds the walk by the fuel `sid + 1`,
keeping the recursion structural. -/
def scopeGetAux {T : Type} (arena : ScopeArena T) : Nat → Nat → String → Option T
  | 0, _, _ => none
  | fuel + 1, sid, name =>
      match arena.get? sid with
      | none => none
      | some s =>
          match mapGet s.elements name with
          | some v => some v
          | none =>
              match s.parent with
              | none => none
              | some p => if p < sid then scopeGetAux arena fuel p name else none

/-- `Scope.get(name)`: the value of the nearest enclosing binding of `name`,
walking from the scope `sid` towards the root; `none` on a root miss.  A pure
read: the arena is not modified. -/
def scopeGet {T : Type} (arena : ScopeArena T) (sid : Nat) (name : String) : Option T :=
  scopeGetAux arena (sid + 1) sid name

/-- The walk of the private `Scope.findScope(types)`, fueled like
`scopeGetAux`: walk from `sid` (inclusive) towards the root and return the
first scope whose type is in `types`, or `none` when the chain is exhausted. -/
def findScopeAux {T : Type} (arena : ScopeArena T) (types : List ScopeType) :
    Nat → Nat → Option Nat
  | 0, _ => none
  | fuel + 1, sid =>
      match arena.get? sid with
      | none => none
      | some s =>
          if s.type ∈ types then some sid
          else
            match s.parent with
            | none => none
            | some p => if p < sid then findScopeAux arena types fuel p else none

/-- `Scope.findScope(types)`. -/
def findScope {T : Type} (arena : ScopeArena T) (sid : Nat) (types : List ScopeType) :
    Option Nat :=
  findScopeAux arena types (sid + 1) sid

/-- The chain of scope references from `sid` (inclusive) to the root, in walk
order, fueled like `scopeGetAux`.  This is the specification-side notion of
the chain from the current Scope to the root, against which the walks of
`get`, `add` and `findScope` are characterised. -/
def scopeChainAux {T : Type} (arena : ScopeArena T) : Nat → Nat → List Nat
  | 0, _ => []
  | fuel + 1, sid =>
      match arena.get? sid with
      | none => []
      | some s =>
          sid :: (match s.parent with
            | none => []
            | some p => if p < sid then scopeChainAux arena fuel p else [])

/-- The chain of scope references from `sid` to the root. -/
def scopeChain {T : Type} (arena : ScopeArena T) (sid : Nat) : List Nat :=
  scopeChainAux arena (sid + 1) sid

/-- The type of the scope at reference `j`, if the reference is live. -/
def scopeTypeAt {T : Type} (arena : ScopeArena T) (j : Nat) : Option ScopeType :=
  (arena.get? j).map Scope.type

/-- The elements map of the scope at reference `j` (empty for a dead
reference). -/
def scopeElementsAt {T : Type} (arena : ScopeArena T) (j : Nat) : List (String × T) :=
  match arena.get? j with
  | some s => s.elements
  | none => []

/-- `Scope.add(name, element, type)`.  The switch of the source:
const and let store into the current scope's elements; var finds the nearest
scope (current included) of type Function or Global via `findScope` and
throws when there is none; global matches no case (the only remaining case
of the switch is for the value `undefined`, which the type parameter can
never hold because its default is const), so the switch falls through and
the arena is unchanged.  Throwing is embedded as `Except.error` with the
source's message. -/
def scopeAdd {T : Type} (arena : ScopeArena T) (sid : Nat) (name : String) (element : T)
    (type : VariableType) : Except String (ScopeArena T) :=
  match type with
  | .constKind =>
      .ok (arenaUpdate arena sid (fun s => { s with elements := mapSet s.elements name element }))
  | .letKind =>
      .ok (arenaUpdate arena sid (fun s => { s with elements := mapSet s.elements name element }))
  | .varKind =>
      match findScope arena sid [ScopeType.Function, ScopeType.Global] with
      | none => .error ("Failed to find scope for var " ++ name)
      | some t =>
          .ok (arenaUpdate arena t (fun s => { s with elements := mapSet s.elements name element }))
  | .globalKind => .ok arena

/-- A call `scope.add(name, element)` with the type argument omitted: the
parameter defaults to const in the source (`type: VariableType = 'const'`),
so the binding is stored in the current scope. -/
def scopeAddDefault {T : Type} (arena : ScopeArena T) (sid : Nat) (name : String)
    (element : T) : Except String (ScopeArena T) :=
  scopeAdd arena sid name element .constKind

/-! ## The literal-array inlining pass (src/modifications/arrays/arrayUnpacker.ts)

The pass builds, per discovery traversal, a tree of `Scope<Array>` objects.
Because the pass only ever navigates this tree from the current scope (down
into a child on entering a Block/FunctionBody node, back to the parent on
leaving it, and upwards through parents for `get`), the embedding represents
it as a pure tree (`ScopeTree`) navigated with an explicit ancestor stack
(the zipper of the traversal).  Scope creation pushes a fresh empty scope;
the constructor's registration of the child in the parent's `children` map
becomes a `mapSet` on the parent when the traversal leaves the opening node
— between creation and that point the pass never reads the parent's
`children` map, so the two schedules are indistinguishable.  Descriptor
objects (`Array` of src/modifications/arrays/array.ts) are mutable (their
`replaceCount` field), so they live in an arena (`List ArrayDescr`) and a
scope's `elements` map stores arena positions. -/

/-- Modelled from the spec: the Discovered-Array descriptor of section 3
(the class `Array` of array.ts, which is not among the sources): the
originating declaration node and its owning parent node (kept as their
identities, which is all the cleanup's `removeNode` consumes), the bound
name, the ordered sequence of elements (holes included) and the usage
counter `replaceCount` starting at zero. -/
structure ArrayDescr where
  nodeId : Nat
  parentId : Nat
  name : String
  elements : List (Option Node)
  replaceCount : Nat

/-- One scope of the pass's scope tree: the opening node's identity, the
scope type, the `elements` map (binding name to descriptor arena position)
and the `children` map (opening node identity to child scope). -/
inductive ScopeTree where
  | mk (node : Nat) (stype : ScopeType) (elements : List (String × Nat))
      (children : List (Nat × ScopeTree))

/-- The opening node of the scope. -/
def ScopeTree.nodeOf : ScopeTree → Nat
  | .mk n _ _ _ => n

/-- The type of the scope. -/
def ScopeTree.stypeOf : ScopeTree → ScopeType
  | .mk _ t _ _ => t

/-- The elements map of the scope. -/
def ScopeTree.elementsOf : ScopeTree → List (String × Nat)
  | .mk _ _ e _ => e

/-- The children map of the scope. -/
def ScopeTree.childrenOf : ScopeTree → List (Nat × ScopeTree)
  | .mk _ _ _ c => c

/-- The whole state of one `ArrayUnpacker` object together with the shared
tree it mutates: the AST, the descriptor arena, the `arrayNodes` set (as the
list of ids of the declarators already seen), the persistent `globalScope`,
and the `shouldRemoveArrays` flag. -/
structure PassState where
  ast : Node
  arrays : List ArrayDescr
  seen : List Nat
  root : ScopeTree
  shouldRemoveArrays : Bool

/-- The `ArrayUnpacker` constructor: record the tree and the flag, create
`globalScope = new Scope(this.ast, ScopeType.Other)` (note: type Other, no
parent) and the empty `arrayNodes` set. -/
def arrayUnpackerInit (ast : Node) (removeArrays : Bool) : PassState :=
  { ast := ast, arrays := [], seen := [],
    root := .mk ast.getId ScopeType.Other [] [],
    shouldRemoveArrays := removeArrays }

/-- The running state of one discovery traversal (`findArrays`): the
descriptor arena, the seen set, the `foundArrays` flag, the scope the
traversal is currently inside (`cur`) and the stack of its unfinished
ancestors, outermost last (each as its fields minus the child being built). -/
structure FindSt where
  arrays : List ArrayDescr
  seen : List Nat
  found : Bool
  cur : ScopeTree
  ctx : List ScopeTree

/-- The enter callback of `findArrays`: on a Block/FunctionBody node, open a
child scope (`scope = new Scope(node, ScopeType.Other, scope)`); otherwise,
on a literal array declaration not yet in `arrayNodes`, build the descriptor
from the binding name, the traversal parent and the initializer's elements,
store it under the name in the current scope (`scope.add(name, array)`, the
type argument defaulting to const, hence the current scope's elements), add
the declarator to `arrayNodes` and set `foundArrays`. -/
def findEnter (node parent : Node) (st : FindSt) : FindSt :=
  if isScopeNodeType node then
    { st with cur := .mk node.getId ScopeType.Other [] [],
              ctx := st.cur :: st.ctx }
  else
    match node with
    | .variableDeclarator nid (.bindingIdentifier _ name) (some (.arrayExpression _ elements)) =>
        if elementsAllLiteralish elements && !st.seen.contains nid then
          { st with
            arrays := st.arrays ++
              [{ nodeId := nid, parentId := parent.getId, name := name,
                 elements := elements, replaceCount := 0 }],
            seen := nid :: st.seen,
            found := true,
            cur := .mk st.cur.nodeOf st.cur.stypeOf
              (mapSet st.cur.elementsOf name st.arrays.length) st.cur.childrenOf }
        else st
    | _ => st

/-- The leave callback of `findArrays`: when leaving the node that opened the
current scope and the current scope has a parent, move back to the parent;
the finished child is registered in the parent's `children` map under its
opening node (the `children.set` the constructor performed). -/
def findLeave (node : Node) (st : FindSt) : FindSt :=
  match st.ctx with
  | [] => st
  | parent :: rest =>
      if node.getId = st.cur.nodeOf then
        { st with
          cur := .mk parent.nodeOf parent.stypeOf parent.elementsOf
            (mapSet parent.childrenOf st.cur.nodeOf st.cur),
          ctx := rest }
      else st

mutual
/-- Modelled from the spec: the depth-first pre-order-enter /
post-order-leave walk of the traversal engine (traverse.ts is not among the
sources; section 4.2 of the spec fixes its contract), instantiated with the
enter/leave callbacks of `findArrays`: enter the node, walk its child slots
in structural order (each with the node as traversal parent), then leave it.
`parent` is the traversal parent passed to `enter`. -/
def findVisit (parent node : Node) (st : FindSt) : FindSt :=
  findLeave node
    (match node with
     | .block i statements =>
         findVisitList (.block i statements) statements
           (findEnter (.block i statements) parent st)
     | .functionBody i statements =>
         findVisitList (.functionBody i statements) statements
           (findEnter (.functionBody i statements) parent st)
     | .variableDeclarator i binding init =>
         findVisitOpt (.variableDeclarator i binding init) init
           (findVisit (.variableDeclarator i binding init) binding
             (findEnter (.variableDeclarator i binding init) parent st))
     | .bindingIdentifier i name => findEnter (.bindingIdentifier i name) parent st
     | .arrayExpression i elements =>
         findVisitOptList (.arrayExpression i elements) elements
           (findEnter (.arrayExpression i elements) parent st)
     | .computedMemberExpression i object expression =>
         findVisit (.computedMemberExpression i object expression) expression
           (findVisit (.computedMemberExpression i object expression) object
             (findEnter (.computedMemberExpression i object expression) parent st))
     | .identifierExpression i name => findEnter (.identifierExpression i name) parent st
     | .literalNumericExpression i value =>
         findEnter (.literalNumericExpression i value) parent st
     | .literalOther i => findEnter (.literalOther i) parent st
     | .other i children =>
         findVisitList (.other i children) children
           (findEnter (.other i children) parent st))
  termination_by structural node

def findVisitList (parent : Node) (nodes : List Node) (st : FindSt) : FindSt :=
  match nodes with
  | [] => st
  | n :: ns => findVisitList parent ns (findVisit parent n st)
  termination_by structural nodes

def findVisitOpt (parent : Node) (node : Option Node) (st : FindSt) : FindSt :=
  match node with
  | none => st
  | some n => findVisit parent n st
  termination_by structural node

def findVisitOptList (parent : Node) (nodes : List (Option Node)) (st : FindSt) : FindSt :=
  match nodes with
  | [] => st
  | e :: es => findVisitOptList parent es (findVisitOpt parent e st)
  termination_by structural nodes
end

/-- `ArrayUnpacker.findArrays()`: one discovery traversal from the AST root,
starting at the persistent `globalScope` with the `foundArrays` flag down.
Returns the updated pass state and the flag.  (The root's enter callback
never consults its traversal parent — the root is a Script or Module, never
a declarator — so the root is passed as its own parent.) -/
def findArrays (ps : PassState) : PassState × Bool :=
  let st := findVisit ps.ast ps.ast
    { arrays := ps.arrays, seen := ps.seen, found := false, cur := ps.root, ctx := [] }
  ({ ps with arrays := st.arrays, seen := st.seen, root := st.cur }, st.found)

/-- `Scope.get(name)` as used during the rewrite traversal: check the
current scope's elements and on a miss delegate to the parent, here the next
scope of the traversal's ancestor stack. -/
def scopeStackGet : List ScopeTree → String → Option Nat
  | [], _ => none
  | s :: rest, name =>
      match mapGet s.elementsOf name with
      | some v => some v
      | none => scopeStackGet rest name

/-- The `scope = scope.children.get(node) as Scope<Array>` step of
`unpackArrays`: look the entered Block/FunctionBody node up in the current
scope's children.  The cast is unchecked in the source; right after a
completed `findArrays` over the same tree the lookup always succeeds
(discovery registered a child scope for every Block/FunctionBody node), so
the default value only keeps the function total and is never consulted in a
reachable state. -/
def childScopeFor (stack : List ScopeTree) (i : Nat) : ScopeTree :=
  match stack with
  | s :: _ => (mapGet s.childrenOf i).getD (.mk i ScopeType.Other [] [])
  | [] => .mk i ScopeType.Other [] []

/-- The rewrite decision of the enter callback of `unpackArrays` at one
node: if the node is a simple array access, resolve its identifier through
the scope chain; on a hit, read `array.elements[index]`; if that is a node
(not `undefined` — out of range — and not `null` — a hole), increment the
descriptor's `replaceCount` and replace the access with that element
(`TraversalHelper.replaceNode(parent, node, replacement)`, whose contract —
section 4.2 of the spec, traversalHelper.ts is not among the sources — swaps
the very replacement node into the slot).  Returns the node standing at the
slot afterwards, the descriptor arena, and whether a replacement happened;
in every other case the node is left untouched and the arena unchanged. -/
def unpackEnter (stack : List ScopeTree) (arrays : List ArrayDescr) (node : Node) :
    Node × List ArrayDescr × Bool :=
  match node with
  | .computedMemberExpression i (.identifierExpression oi name)
      (.literalNumericExpression ei value) =>
      match scopeStackGet stack name with
      | none =>
          (.computedMemberExpression i (.identifierExpression oi name)
            (.literalNumericExpression ei value), arrays, false)
      | some ai =>
          match arrays.get? ai with
          | none =>
              (.computedMemberExpression i (.identifierExpression oi name)
                (.literalNumericExpression ei value), arrays, false)
          | some d =>
              match d.elements.get? value with
              | some (some replacement) =>
                  (replacement,
                   arrays.set ai { d with replaceCount := d.replaceCount + 1 },
                   true)
              | _ =>
                  (.computedMemberExpression i (.identifierExpression oi name)
                    (.literalNumericExpression ei value), arrays, false)
  | _ => (node, arrays, false)

mutual
/-- Modelled from the spec: the traversal engine's walk (section 4.2)
instantiated with the enter/leave callbacks of `unpackArrays`.  Entering a
Block/FunctionBody node descends into the child scope registered for it;
leaving it returns to the parent scope (the ancestor stack).  At every other
node the enter callback may replace the node (`unpackEnter`); the walk then
proceeds to the next sibling — the replaced access's former children (an
identifier and a literal, on which every callback is a no-op) are not
re-examined, and the replacement, a literal, has no children. -/
def unpackVisit (stack : List ScopeTree) (node : Node) (arrays : List ArrayDescr) :
    Node × List ArrayDescr :=
  match node with
  | .block i statements =>
      let r := unpackVisitList (childScopeFor stack i :: stack) statements arrays
      (.block i r.1, r.2)
  | .functionBody i statements =>
      let r := unpackVisitList (childScopeFor stack i :: stack) statements arrays
      (.functionBody i r.1, r.2)
  | .variableDeclarator i binding init =>
      let rb := unpackVisit stack binding arrays
      let ri := unpackVisitOpt stack init rb.2
      (.variableDeclarator i rb.1 ri.1, ri.2)
  | .bindingIdentifier i name => (.bindingIdentifier i name, arrays)
  | .arrayExpression i elements =>
      let r := unpackVisitOptList stack elements arrays
      (.arrayExpression i r.1, r.2)
  | .computedMemberExpression i object expression =>
      match unpackEnter stack arrays (.computedMemberExpression i object expression) with
      | (replacement, arrays', true) => (replacement, arrays')
      | (_, _, false) =>
          let ro := unpackVisit stack object arrays
          let re := unpackVisit stack expression ro.2
          (.computedMemberExpression i ro.1 re.1, re.2)
  | .identifierExpression i name => (.identifierExpression i name, arrays)
  | .literalNumericExpression i value => (.literalNumericExpression i value, arrays)
  | .literalOther i => (.literalOther i, arrays)
  | .other i children =>
      let r := unpackVisitList stack children arrays
      (.other i r.1, r.2)
  termination_by structural node

def unpackVisitList (stack : List ScopeTree) (nodes : List Node) (arrays : List ArrayDescr) :
    List Node × List ArrayDescr :=
  match nodes with
  | [] => ([], arrays)
  | n :: ns =>
      let r := unpackVisit stack n arrays
      let rs := unpackVisitList stack ns r.2
      (r.1 :: rs.1, rs.2)
  termination_by structural nodes

def unpackVisitOpt (stack : List ScopeTree) (node : Option Node) (arrays : List ArrayDescr) :
    Option Node × List ArrayDescr :=
  match node with
  | none => (none, arrays)
  | some n =>
      let r := unpackVisit stack n arrays
      (some r.1, r.2)
  termination_by structural node

def unpackVisitOptList (stack : List ScopeTree) (nodes : List (Option Node))
    (arrays : List ArrayDescr) : List (Option Node) × List ArrayDescr :=
  match nodes with
  | [] => ([], arrays)
  | e :: es =>
      let r := unpackVisitOpt stack e arrays
      let rs := unpackVisitOptList stack es r.2
      (r.1 :: rs.1, rs.2)
  termination_by structural nodes
end

/-- `ArrayUnpacker.unpackArrays()`: one rewrite traversal from the AST root,
starting the scope walk at the persistent `globalScope`. -/
def unpackArrays (ps : PassState) : PassState :=
  let r := unpackVisit [ps.root] ps.ast ps.arrays
  { ps with ast := r.1, arrays := r.2 }

/-- Splice the node with identity `n` out of an ordered child sequence of
the node with identity `i`, when `i` is the removal's parent `p` (the
sequence is left alone otherwise). -/
def pruneChildren (p n i : Nat) (children : List Node) : List Node :=
  if i = p then children.filter (fun c => c.getId ≠ n) else children

/-- Clear an optional child field of the node with identity `i` when it
holds the node with identity `n` and `i` is the removal's parent `p`. -/
def pruneInit (p n i : Nat) (init : Option Node) : Option Node :=
  if i = p then
    match init with
    | some c => if c.getId = n then none else some c
    | none => none
  else init

/-- Splice the element with identity `n` out of an array's element sequence
(holes are not nodes and stay) when `i` is the removal's parent `p`. -/
def pruneElements (p n i : Nat) (elements : List (Option Node)) : List (Option Node) :=
  if i = p then
    elements.filter (fun e => match e with
      | some c => c.getId ≠ n
      | none => true)
  else elements

mutual
/-- Modelled from the spec: `TraversalHelper.removeNode(parent, node)`
(traversalHelper.ts is not among the sources; section 4.2 of the spec fixes
its contract): remove the ownership slot of the node with identity `n` from
the node with identity `p` — splice it out of an ordered child sequence, or
clear an optional field.  A required single-child field cannot be spliced
and is left alone; a slot is matched by the identity of the node it holds. -/
def removeNode (p n : Nat) : Node → Node
  | .block i statements =>
      .block i (pruneChildren p n i (removeNodeList p n statements))
  | .functionBody i statements =>
      .functionBody i (pruneChildren p n i (removeNodeList p n statements))
  | .variableDeclarator i binding init =>
      .variableDeclarator i (removeNode p n binding)
        (pruneInit p n i (removeNodeOpt p n init))
  | .bindingIdentifier i name => .bindingIdentifier i name
  | .arrayExpression i elements =>
      .arrayExpression i (pruneElements p n i (removeNodeOptList p n elements))
  | .computedMemberExpression i object expression =>
      .computedMemberExpression i (removeNode p n object) (removeNode p n expression)
  | .identifierExpression i name => .identifierExpression i name
  | .literalNumericExpression i value => .literalNumericExpression i value
  | .literalOther i => .literalOther i
  | .other i children =>
      .other i (pruneChildren p n i (removeNodeList p n children))
  termination_by structural node => node

def removeNodeList (p n : Nat) : List Node → List Node
  | [] => []
  | c :: cs => removeNode p n c :: removeNodeList p n cs
  termination_by structural l => l

def removeNodeOpt (p n : Nat) : Option Node → Option Node
  | none => none
  | some c => some (removeNode p n c)
  termination_by structural o => o

def removeNodeOptList (p n : Nat) : List (Option Node) → List (Option Node)
  | [] => []
  | e :: es => removeNodeOpt p n e :: removeNodeOptList p n es
  termination_by structural l => l
end

/-- The body of the element loop of `ArrayUnpacker.removeArrays`: for the
descriptor at arena position `ai`, when its `replaceCount` is positive,
remove its declaration node from its recorded owning parent. -/
def applyRemoval (arrays : List ArrayDescr) (t : Node) (ai : Nat) : Node :=
  match arrays.get? ai with
  | some d => if 0 < d.replaceCount then removeNode d.parentId d.nodeId t else t
  | none => t

mutual
/-- `ArrayUnpacker.removeArrays(scope)`: walk the scope's elements in order,
removing the declaration of every descriptor whose counter is positive, then
recurse into the scope's children in order. -/
def removeArraysScope (arrays : List ArrayDescr) (s : ScopeTree) (t : Node) : Node :=
  match s with
  | .mk _ _ elements children =>
      removeArraysChildren arrays children
        (elements.foldl (fun t' e => applyRemoval arrays t' e.2) t)
  termination_by structural s

def removeArraysChildren (arrays : List ArrayDescr) (children : List (Nat × ScopeTree))
    (t : Node) : Node :=
  match children with
  | [] => t
  | (_, c) :: rest => removeArraysChildren arrays rest (removeArraysScope arrays c t)
  termination_by structural children
end

/-- `ArrayUnpacker.execute()`, its `while (this.findArrays()) {
this.unpackArrays(); }` loop run on an explicit round budget: a budget of
one more than the number of declarator nodes is proven sufficient (each
non-terminal discovery round permanently consumes at least one declarator
not seen before), so the bounded loop computes exactly what the unbounded
source loop computes.  `none` means the budget ran out before the fixpoint. -/
def executeLoop : Nat → PassState → Option PassState
  | 0, _ => none
  | fuel + 1, ps =>
      let fr := findArrays ps
      if fr.2 then executeLoop fuel (unpackArrays fr.1) else some fr.1

/-- The conditional cleanup step of `execute`: `removeArrays(globalScope)`. -/
def removeArraysPass (ps : PassState) : PassState :=
  { ps with ast := removeArraysScope ps.arrays ps.root ps.ast }

/-- `ArrayUnpacker.execute()`: the discovery/rewrite fixpoint loop, then,
when `shouldRemoveArrays` is set, the cleanup walk over the final scope
tree. -/
def execute (ps : PassState) : Option PassState :=
  (executeLoop ((declNodeIds ps.ast).length + 1) ps).map
    (fun s => if s.shouldRemoveArrays then removeArraysPass s else s)

mutual
/-- All descriptor arena positions recorded in a scope tree, in the order
`removeArrays` visits them: the scope's own elements first, then its
children recursively. -/
def scopeDescrs : ScopeTree → List Nat
  | .mk _ _ elements children => elements.map Prod.snd ++ scopeDescrsChildren children
  termination_by structural s => s

def scopeDescrsChildren : List (Nat × ScopeTree) → List Nat
  | [] => []
  | (_, c) :: rest => scopeDescrs c ++ scopeDescrsChildren rest
  termination_by structural l => l
end

/-- All descriptor arena positions reachable from a discovery-traversal
state: those of the current scope and of every unfinished ancestor. -/
def stateDescrs (st : FindSt) : List Nat :=
  scopeDescrs st.cur ++ (st.ctx.map scopeDescrs).flatten

/-- Unwrap an `Except` that is known to be `ok` (used only to name concrete
arenas in example statements). -/
def exceptGetD {ε α : Type} (e : Except ε α) (d : α) : α :=
  match e with
  | .ok a => a
  | .error _ => d

/-! ### Concrete example data

Each example tree is a parsed program with pairwise distinct node ids, as
the external parser produces.  Statements and declaration lists that the two
source files do not inspect are `Node.other` nodes. -/

/-- The program: const a = [42]; a[0]; a[0]; (top level). -/
def exAlias : Node :=
  .other 0 [
    .other 1 [.variableDeclarator 2 (.bindingIdentifier 3 "a")
      (some (.arrayExpression 4 [some (.literalNumericExpression 5 42)]))],
    .other 6 [.computedMemberExpression 7 (.identifierExpression 8 "a")
      (.literalNumericExpression 9 0)],
    .other 10 [.computedMemberExpression 11 (.identifierExpression 12 "a")
      (.literalNumericExpression 13 0)]]

/-- The program: { const a = [7]; a[0]; } (inside a block). -/
def exBlock : Node :=
  .other 0 [
    .block 1 [
      .other 2 [.variableDeclarator 3 (.bindingIdentifier 4 "a")
        (some (.arrayExpression 5 [some (.literalNumericExpression 6 7)]))],
      .other 7 [.computedMemberExpression 8 (.identifierExpression 9 "a")
        (.literalNumericExpression 10 0)]]]

/-- The program: const a = [1, 2]; a[5]; (top level, out-of-range access). -/
def exRange : Node :=
  .other 0 [
    .other 1 [.variableDeclarator 2 (.bindingIdentifier 3 "a")
      (some (.arrayExpression 4 [some (.literalNumericExpression 5 1),
                                  some (.literalNumericExpression 6 2)]))],
    .other 7 [.computedMemberExpression 8 (.identifierExpression 9 "a")
      (.literalNumericExpression 10 5)]]

/-- The program: const a = [1, , 3]; a[1]; a[2]; (a hole at index 1). -/
def exHole : Node :=
  .other 0 [
    .other 1 [.variableDeclarator 2 (.bindingIdentifier 3 "a")
      (some (.arrayExpression 4 [some (.literalNumericExpression 5 1), none,
                                  some (.literalNumericExpression 6 3)]))],
    .other 7 [.computedMemberExpression 8 (.identifierExpression 9 "a")
      (.literalNumericExpression 10 1)],
    .other 11 [.computedMemberExpression 12 (.identifierExpression 13 "a")
      (.literalNumericExpression 14 2)]]

/-- An arena with a Global root scope (reference 0, opening node 0) and an
Other child scope (reference 1, opening node 1). -/
def arGlobChild : ScopeArena Nat :=
  (scopeConstruct (scopeConstruct ([] : ScopeArena Nat) 0 .Global none).1 1 .Other (some 0)).1

/-- An arena with an Other root (reference 0) and an Other child
(reference 1): no Function or Global scope anywhere on the chain. -/
def arNoFunGlob : ScopeArena Nat :=
  (scopeConstruct (scopeConstruct ([] : ScopeArena Nat) 0 .Other none).1 1 .Other (some 0)).1

/-- An arena for the shadowing scenario: scope A (reference 0, Global root)
binds x = 1, its child B (reference 1) binds x = 2, and B has a sibling
(reference 2) under A that binds nothing. -/
def arShadow : ScopeArena Nat :=
  exceptGetD
    (scopeAdd
      (exceptGetD
        (scopeAdd
          (scopeConstruct
            (scopeConstruct
              (scopeConstruct ([] : ScopeArena Nat) 0 .Global none).1
              1 .Other (some 0)).1
            2 .Other (some 0)).1
          0 "x" 1 .constKind) [])
      1 "x" 2 .constKind) []

/-- A one-scope rewrite stack binding a to descriptor 0, and a descriptor
arena holding one two-element descriptor, for the witness instances of the
rewrite-site theorems. -/
def exStack : List ScopeTree := [.mk 0 ScopeType.Other [("a", 0)] []]

/-- A descriptor of two elements: the literal 1 and a hole. -/
def exDescrArrays : List ArrayDescr :=
  [{ nodeId := 2, parentId := 1, name := "a",
     elements := [some (.literalNumericExpression 5 1), none], replaceCount := 0 }]

/-- Whether the scope at reference `j` exists and has its type in `types`
(the test `findScope` applies at each step of its walk). -/
def chainQualifies {T : Type} (arena : ScopeArena T) (types : List ScopeType) (j : Nat) : Bool :=
  match arena.get? j with
  | some s => decide (s.type ∈ types)
  | none => false

/-- The children map of the scope at reference `j` (empty for a dead
reference). -/
def scopeChildrenAt {T : Type} (arena : ScopeArena T) (j : Nat) : List (Nat × Nat) :=
  match arena.get? j with
  | some s => s.children
  | none => []

/-- The bound name of a literal array declaration (`node.binding.name`). -/
def ladName : Node → String
  | .variableDeclarator _ (.bindingIdentifier _ name) _ => name
  | _ => ""

/-- The elements of a literal array declaration (`node.init.elements`). -/
def ladElements : Node → List (Option Node)
  | .variableDeclarator _ _ (some (.arrayExpression _ elements)) => elements
  | _ => []

/-- Whether the node is a `VariableDeclarator` (by kind alone). -/
def isDeclaratorKind : Node → Bool
  | .variableDeclarator _ _ _ => true
  | _ => false

mutual
/-- Ids of all nodes of the tree holding a `VariableDeclarator` in one of
their child slots. -/
def declParentIds : Node → List Nat
  | .block i statements =>
      (if statements.any isDeclaratorKind then [i] else []) ++ declParentIdsList statements
  | .functionBody i statements =>
      (if statements.any isDeclaratorKind then [i] else []) ++ declParentIdsList statements
  | .variableDeclarator i binding init =>
      (if isDeclaratorKind binding ||
          (match init with
           | some c => isDeclaratorKind c
           | none => false) then [i] else []) ++
        declParentIds binding ++ declParentIdsOpt init
  | .bindingIdentifier _ _ => []
  | .arrayExpression i elements =>
      (if elements.any (fun e => match e with
          | some c => isDeclaratorKind c
          | none => false) then [i] else []) ++ declParentIdsOptList elements
  | .computedMemberExpression i object expression =>
      (if isDeclaratorKind object || isDeclaratorKind expression then [i] else []) ++
        declParentIds object ++ declParentIds expression
  | .identifierExpression _ _ => []
  | .literalNumericExpression _ _ => []
  | .literalOther _ => []
  | .other i children =>
      (if children.any isDeclaratorKind then [i] else []) ++ declParentIdsList children
  termination_by structural n => n

def declParentIdsList : List Node → List Nat
  | [] => []
  | n :: ns => declParentIds n ++ declParentIdsList ns
  termination_by structural l => l

def declParentIdsOpt : Option Node → List Nat
  | none => []
  | some n => declParentIds n
  termination_by structural o => o

def declParentIdsOptList : List (Option Node) → List Nat
  | [] => []
  | e :: es => declParentIdsOpt e ++ declParentIdsOptList es
  termination_by structural l => l
end

/-- The descriptor the discovery enter callback records for a literal array
declaration `node` with traversal parent `parent`. -/
def ladDescriptor (node parent : Node) : ArrayDescr :=
  { nodeId := node.getId, parentId := parent.getId, name := ladName node,
    elements := ladElements node, replaceCount := 0 }

/-- Whether the node is an `ArrayExpression` (by kind alone). -/
def arrKind : Node → Bool
  | .arrayExpression _ _ => true
  | _ => false

/-- Whether the node is not of a `Literal*` kind. -/
def nonLitKind (n : Node) : Bool := !isLiteralExprType n

/-- Whether the node is neither of a `Literal*` kind nor an
`ArrayExpression`. -/
def nonLitNonArrKind (n : Node) : Bool :=
  !isLiteralExprType n &&
    (match n with
     | .arrayExpression _ _ => false
     | _ => true)

/-- The immutable part of a descriptor: everything except the
`replaceCount` counter. -/
def descrCore (d : ArrayDescr) : Nat × Nat × String × List (Option Node) :=
  (d.nodeId, d.parentId, d.name, d.elements)

/-- Every descriptor of the arena stores an all-literalish element list (the
guard of the discovery enter callback establishes this at recording time). -/
def descrsLit (arrays : List ArrayDescr) : Prop :=
  ∀ d ∈ arrays, elementsAllLiteralish d.elements = true

/-- The number of declarator nodes of the pass's tree not yet in the seen
set: the fixpoint loop's termination measure. -/
def unseenDeclCount (ps : PassState) : Nat :=
  ((declNodeIds ps.ast).filter (fun i => !ps.seen.contains i)).length

/-- The pass invariant threaded through the fixpoint loop: the non-literal
node ids of the tree are pairwise distinct (literal nodes may be aliased by
earlier rewrites, non-literal nodes never are), no array element slot
directly holds a declarator (the parser grammar guarantees this), the root
is not itself a declarator, and every recorded descriptor has an
all-literalish element list and an owning parent that is not an
`ArrayExpression` of the current tree. -/
def passInv (ps : PassState) : Prop :=
  (nonLitIds ps.ast).Nodup ∧ noDeclInArrayElems ps.ast = true ∧
    isDeclaratorKind ps.ast = false ∧
    ∀ d ∈ ps.arrays, elementsAllLiteralish d.elements = true ∧
      d.parentId ∉ arrayExprIds ps.ast

/-- The pass state produced by one full `execute` run on the aliasing
example program (the fixpoint output used to witness idempotence). -/
def exRun1 : PassState :=
  (execute (arrayUnpackerInit exAlias true)).getD (arrayUnpackerInit exAlias true)

/-! ## Lemmas about the scope model -/

theorem scopeGetAux_eq_chain {T : Type} (arena : ScopeArena T) :
    ∀ (fuel sid : Nat) (name : String),
      scopeGetAux arena fuel sid name =
        (scopeChainAux arena fuel sid).findSome?
          (fun j => mapGet (scopeElementsAt arena j) name) := by
  intro fuel
  induction fuel with
  | zero => intro sid name; rfl
  | succ f ih =>
      intro sid name
      simp only [scopeGetAux, scopeChainAux]
      cases h : arena.get? sid with
      | none => rfl
      | some s =>
          have he : scopeElementsAt arena sid = s.elements := by
            simp only [scopeElementsAt, h]
          simp only [List.findSome?_cons, he]
          cases hm : mapGet s.elements name with
          | some v => rfl
          | none =>
              cases hp : s.parent with
              | none => rfl
              | some p =>
                  by_cases hlt : p < sid
                  · simp only [if_pos hlt, ih]
                  · simp only [if_neg hlt]; rfl

/-- `Scope.get` returns the first binding of the name along the chain from
the current scope to the root. -/
theorem scopeGet_eq_chain {T : Type} (arena : ScopeArena T) (sid : Nat) (name : String) :
    scopeGet arena sid name =
      (scopeChain arena sid).findSome? (fun j => mapGet (scopeElementsAt arena j) name) :=
  scopeGetAux_eq_chain arena (sid + 1) sid name

theorem findScopeAux_eq_chain {T : Type} (arena : ScopeArena T) (types : List ScopeType) :
    ∀ (fuel sid : Nat),
      findScopeAux arena types fuel sid =
        (scopeChainAux arena fuel sid).find? (chainQualifies arena types) := by
  intro fuel
  induction fuel with
  | zero => intro sid; rfl
  | succ f ih =>
      intro sid
      simp only [findScopeAux, scopeChainAux]
      cases h : arena.get? sid with
      | none => rfl
      | some s =>
          have hq : chainQualifies arena types sid = decide (s.type ∈ types) := by
            simp only [chainQualifies, h]
          simp only [List.find?_cons, hq]
          by_cases ht : s.type ∈ types
          · simp only [if_pos ht, decide_eq_true ht]
          · simp only [if_neg ht, decide_eq_false ht]
            cases hp : s.parent with
            | none => rfl
            | some p =>
                by_cases hlt : p < sid
                · simp only [if_pos hlt, ih]
                · simp only [if_neg hlt]; rfl

/-- `Scope.findScope` returns the first scope along the chain from the
current scope to the root whose type is among the requested ones. -/
theorem findScope_eq_chain {T : Type} (arena : ScopeArena T) (sid : Nat)
    (types : List ScopeType) :
    findScope arena sid types = (scopeChain arena sid).find? (chainQualifies arena types) :=
  findScopeAux_eq_chain arena types (sid + 1) sid

theorem mapGet_mapSet_self {κ β : Type} [DecidableEq κ] (m : List (κ × β)) (k : κ) (v : β) :
    mapGet (mapSet m k v) k = some v := by
  induction m with
  | nil => simp [mapSet, mapGet]
  | cons e rest ih =>
      by_cases h : e.1 = k
      · simp [mapSet, mapGet, h]
      · cases e with
        | mk k' v' =>
            simp only [] at h
            simp [mapSet, mapGet, h, ih]

theorem chainQualifies_eq_false_iff {T : Type} (arena : ScopeArena T) (j : Nat) :
    chainQualifies arena [ScopeType.Function, ScopeType.Global] j = false ↔
      scopeTypeAt arena j ≠ some ScopeType.Function ∧
      scopeTypeAt arena j ≠ some ScopeType.Global := by
  simp only [chainQualifies, scopeTypeAt]
  cases h : arena.get? j with
  | none => simp
  | some s => cases hs : s.type <;> simp

/-- C7: `get(name)` returns the value of the nearest enclosing binding of
the name, walking from the current Scope upward (the first scope along the
chain whose elements bind the name), and returns not-found on a root miss
(the model is a pure function of the arena, so the read has no side
effects).  The second half instantiates the shadowing scenario: scope A
(reference 0) binds x = 1, its child B (reference 1) binds x = 2; lookup
from B yields 2, lookup from B's sibling (reference 2, also under A) yields
1, lookup from A itself yields 1, and a root miss yields none. -/
theorem C7_get_nearest_binding :
    (∀ (T : Type) (arena : ScopeArena T) (sid : Nat) (name : String),
       scopeGet arena sid name =
         (scopeChain arena sid).findSome? (fun j => mapGet (scopeElementsAt arena j) name)) ∧
    scopeGet arShadow 1 "x" = some 2 ∧
    scopeGet arShadow 2 "x" = some 1 ∧
    scopeGet arShadow 0 "x" = some 1 ∧
    scopeGet arShadow 0 "y" = none :=
  ⟨fun _ arena sid name => scopeGet_eq_chain arena sid name, rfl, rfl, rfl, rfl⟩

/-- C6: `add` with kind var fails (with the structural error the source
throws) exactly when no scope of type Function or Global exists on the chain
from the current scope to the root; when one exists, the binding is stored
in the nearest one (the first qualifying scope in chain order) and no error
is raised. -/
theorem C6_var_add_error_iff :
    ∀ (T : Type) (arena : ScopeArena T) (sid : Nat) (name : String) (el : T),
      ((∃ msg, scopeAdd arena sid name el .varKind = .error msg) ↔
        ∀ j ∈ scopeChain arena sid,
          scopeTypeAt arena j ≠ some ScopeType.Function ∧
          scopeTypeAt arena j ≠ some ScopeType.Global) ∧
      (∀ t, findScope arena sid [ScopeType.Function, ScopeType.Global] = some t →
        scopeAdd arena sid name el .varKind =
          .ok (arenaUpdate arena t
            (fun s => { s with elements := mapSet s.elements name el })) ∧
        (scopeChain arena sid).find?
          (chainQualifies arena [ScopeType.Function, ScopeType.Global]) = some t) := by
  intro T arena sid name el
  constructor
  · constructor
    · intro hex
      obtain ⟨msg, hmsg⟩ := hex
      have hnone : findScope arena sid [ScopeType.Function, ScopeType.Global] = none := by
        cases hf : findScope arena sid [ScopeType.Function, ScopeType.Global] with
        | none => rfl
        | some t =>
            simp only [scopeAdd, hf] at hmsg
            exact Except.noConfusion hmsg
      rw [findScope_eq_chain] at hnone
      intro j hj
      have := List.find?_eq_none.mp hnone j hj
      exact (chainQualifies_eq_false_iff arena j).mp (by simpa using this)
    · intro hall
      have hnone : (scopeChain arena sid).find?
          (chainQualifies arena [ScopeType.Function, ScopeType.Global]) = none := by
        apply List.find?_eq_none.mpr
        intro j hj
        have := (chainQualifies_eq_false_iff arena j).mpr (hall j hj)
        simp [this]
      refine ⟨"Failed to find scope for var " ++ name, ?_⟩
      simp only [scopeAdd, findScope_eq_chain, hnone]
  · intro t ht
    refine ⟨?_, ?_⟩
    · simp only [scopeAdd, ht]
    · rw [← findScope_eq_chain]; exact ht

/-- C6 witness: in the arena with a Global root (reference 0) and an Other
child (reference 1), adding y with kind var from the child succeeds and
stores into the root; in the arena whose two scopes are both of type Other,
the same call raises the structural error. -/
theorem C6_var_add_error_iff_witness :
    scopeAdd arGlobChild 1 "y" (5 : Nat) .varKind =
      .ok (arenaUpdate arGlobChild 0
        (fun s => { s with elements := mapSet s.elements "y" 5 })) ∧
    (∃ msg, scopeAdd arNoFunGlob 1 "y" (5 : Nat) .varKind = .error msg) :=
  ⟨((C6_var_add_error_iff Nat arGlobChild 1 "y" 5).2 0 (by decide)).1,
   (C6_var_add_error_iff Nat arNoFunGlob 1 "y" 5).1.mpr (by decide)⟩

/-- C1 counterexample.  In the arena with a Global root (reference 0) and an
Other child (reference 1) — so the nearest (indeed only) Global ancestor of
scope 1 is scope 0 — the claim predicts that `add` with kind global and
`add` with the kind left unspecified both store the binding into scope 0.
In fact: the global call matches no case of the switch and changes nothing
(the binding is stored nowhere), and the unspecified call stores into the
current scope 1 (the parameter defaults to const), not into scope 0. -/
theorem C1_counterexample :
    scopeTypeAt arGlobChild 0 = some ScopeType.Global ∧
    scopeChain arGlobChild 1 = [1, 0] ∧
    scopeAdd arGlobChild 1 "x" (7 : Nat) .globalKind = .ok arGlobChild ∧
    mapGet (scopeElementsAt arGlobChild 0) "x" = none ∧
    mapGet (scopeElementsAt (exceptGetD (scopeAddDefault arGlobChild 1 "x" 7) []) 0) "x" =
      none ∧
    mapGet (scopeElementsAt (exceptGetD (scopeAddDefault arGlobChild 1 "x" 7) []) 1) "x" =
      some 7 :=
  ⟨rfl, rfl, rfl, rfl, rfl, rfl⟩

/-- C1 amended: `add` with the binding kind left unspecified places the
binding in the current Scope (the type parameter defaults to const), and
`add` with the explicit kind global matches no case of the switch, leaving
every scope unchanged — the binding is placed nowhere.  Neither call places
the binding in the nearest Global ancestor. -/
theorem C1_amended {T : Type} (arena : ScopeArena T) (sid : Nat) (name : String) (el : T)
    (s : Scope T) (h : arena.get? sid = some s) :
    scopeAdd arena sid name el .globalKind = .ok arena ∧
    scopeAddDefault arena sid name el =
      .ok (arena.set sid { s with elements := mapSet s.elements name el }) := by
  refine ⟨rfl, ?_⟩
  simp only [scopeAddDefault, scopeAdd, arenaUpdate, h]

/-- C1 amended, witness at the concrete two-scope arena. -/
theorem C1_amended_witness :
    scopeAdd arGlobChild 1 "x" (7 : Nat) .globalKind = .ok arGlobChild ∧
    scopeAddDefault arGlobChild 1 "x" (7 : Nat) =
      .ok (arGlobChild.set 1
        { node := 1, type := .Other, parent := some 0, children := [],
          elements := [("x", 7)] }) :=
  C1_amended arGlobChild 1 "x" 7
    { node := 1, type := .Other, parent := some 0, children := [], elements := [] } rfl

/-- C4 counterexample.  The Scope tree built by a run of the literal-array
pass is rooted at the scope the `ArrayUnpacker` constructor creates, and
that root has kind Other — not Global as the claim states (the constructor
passes `ScopeType.Other` explicitly). -/
theorem C4_counterexample :
    (arrayUnpackerInit (Node.other 0 []) true).root.stypeOf = ScopeType.Other ∧
    ScopeType.Other ≠ ScopeType.Global := by
  exact ⟨rfl, by decide⟩

/-- C4 amended: every Scope except the root has exactly one parent — the one
passed to the constructor — and constructing a Scope with a parent
automatically registers it in that parent's children mapping under the
opening node; the root Scope of the tree built by a pass run has no parent
but kind Other (the `ArrayUnpacker` constructor creates
`new Scope(this.ast, ScopeType.Other)`), not Global. -/
theorem C4_amended {T : Type} :
    (∀ (arena : ScopeArena T) (node : Nat) (ty : ScopeType) (p : Nat),
       p < arena.length →
       ((scopeConstruct arena node ty (some p)).1.get?
           (scopeConstruct arena node ty (some p)).2).map Scope.parent = some (some p) ∧
       mapGet (scopeChildrenAt (scopeConstruct arena node ty (some p)).1 p) node =
         some (scopeConstruct arena node ty (some p)).2) ∧
    (∀ (arena : ScopeArena T) (node : Nat) (ty : ScopeType),
       ((scopeConstruct arena node ty none).1.get?
           (scopeConstruct arena node ty none).2).map Scope.parent = some none) ∧
    (∀ (ast : Node) (rm : Bool),
       (arrayUnpackerInit ast rm).root.stypeOf = ScopeType.Other ∧
       (arrayUnpackerInit ast rm).root.nodeOf = ast.getId) := by
  refine ⟨?_, ?_, ?_⟩
  · intro arena node ty p hp
    obtain ⟨s, hs⟩ : ∃ s, arena.get? p = some s := by
      rw [List.get?_eq_get hp]; exact ⟨_, rfl⟩
    have hget : ∀ (x : Scope T), (arena ++ [x]).get? p = some s := by
      intro x
      rw [List.get?_append hp]; exact hs
    have hlen : ∀ (x : Scope T), p < (arena ++ [x]).length := by
      intro x
      simp only [List.length_append, List.length_singleton]
      omega
    constructor
    · simp only [scopeConstruct, arenaUpdate, hget]
      have hne : p ≠ arena.length := by omega
      rw [List.get?_set_ne _ _ hne, List.get?_concat_length]
      rfl
    · simp only [scopeConstruct, arenaUpdate, hget, scopeChildrenAt]
      rw [List.get?_set_eq_of_lt _ (hlen _)]
      exact mapGet_mapSet_self _ _ _
  · intro arena node ty
    simp only [scopeConstruct]
    rw [List.get?_concat_length]
    rfl
  · intro ast rm
    exact ⟨rfl, rfl⟩

/-- C4 amended, witness: registering a child under the root of a one-scope
arena. -/
theorem C4_amended_witness :
    ((scopeConstruct (scopeConstruct ([] : ScopeArena Nat) 0 .Global none).1
        1 .Other (some 0)).1.get?
      (scopeConstruct (scopeConstruct ([] : ScopeArena Nat) 0 .Global none).1
        1 .Other (some 0)).2).map Scope.parent = some (some 0) ∧
    mapGet (scopeChildrenAt (scopeConstruct (scopeConstruct ([] : ScopeArena Nat) 0
        .Global none).1 1 .Other (some 0)).1 0) 1 =
      some (scopeConstruct (scopeConstruct ([] : ScopeArena Nat) 0 .Global none).1
        1 .Other (some 0)).2 :=
  (C4_amended.1 (scopeConstruct ([] : ScopeArena Nat) 0 .Global none).1 1 .Other 0
    (by decide))

/-- C8: at a rewrite site, a node that is not of the exact simple-access
shape, or whose identifier does not resolve through the scope chain, or
whose literal index is at or beyond the descriptor's element count, is
returned unchanged with the descriptor arena unchanged and no replacement
flagged (the enter callback is total: no error path exists for these
cases). -/
theorem C8_ineligible_sites_untouched (stack : List ScopeTree) (arrays : List ArrayDescr) :
    ∀ (node : Node),
      (accessParts node = none ↔ isSimpleArrayAccess node = false) ∧
      (accessParts node = none → unpackEnter stack arrays node = (node, arrays, false)) ∧
      (∀ (name : String) (value : Nat), accessParts node = some (name, value) →
        (scopeStackGet stack name = none →
          unpackEnter stack arrays node = (node, arrays, false)) ∧
        (∀ (ai : Nat) (d : ArrayDescr), scopeStackGet stack name = some ai →
          arrays.get? ai = some d → d.elements.length ≤ value →
          unpackEnter stack arrays node = (node, arrays, false))) := by
  intro node
  cases node
  case computedMemberExpression i o e =>
    cases o
    case identifierExpression oi nm =>
      cases e
      case literalNumericExpression ei v =>
        refine ⟨by simp [accessParts, isSimpleArrayAccess], ?_, ?_⟩
        · intro h; simp [accessParts] at h
        · intro name value hav
          simp only [accessParts, Option.some.injEq, Prod.mk.injEq] at hav
          obtain ⟨hn, hv⟩ := hav
          subst hn; subst hv
          constructor
          · intro hres
            simp [unpackEnter, hres]
          · intro ai d hres hd hlen
            have hnone : d.elements.get? v = none := List.get?_eq_none.mpr hlen
            rw [List.get?_eq_getElem?] at hd hnone
            simp [unpackEnter, hres, hd, hnone]
      all_goals
        exact ⟨by simp [accessParts, isSimpleArrayAccess], fun _ => rfl,
          fun name value h => by simp [accessParts] at h⟩
    all_goals
      exact ⟨by simp [accessParts, isSimpleArrayAccess], fun _ => rfl,
        fun name value h => by simp [accessParts] at h⟩
  all_goals
    exact ⟨by simp [accessParts, isSimpleArrayAccess], fun _ => rfl,
      fun name value h => by simp [accessParts] at h⟩

/-- C8 witness: the out-of-range access a[5] against a two-element
descriptor, and an access to an unresolvable name, are left unchanged. -/
theorem C8_ineligible_sites_untouched_witness :
    unpackEnter exStack exDescrArrays
      (.computedMemberExpression 20 (.identifierExpression 21 "a")
        (.literalNumericExpression 22 5)) =
      (.computedMemberExpression 20 (.identifierExpression 21 "a")
        (.literalNumericExpression 22 5), exDescrArrays, false) ∧
    unpackEnter exStack exDescrArrays
      (.computedMemberExpression 23 (.identifierExpression 24 "b")
        (.literalNumericExpression 25 0)) =
      (.computedMemberExpression 23 (.identifierExpression 24 "b")
        (.literalNumericExpression 25 0), exDescrArrays, false) :=
  ⟨(((C8_ineligible_sites_untouched exStack exDescrArrays
        (.computedMemberExpression 20 (.identifierExpression 21 "a")
          (.literalNumericExpression 22 5))).2.2 "a" 5 rfl).2 0
      { nodeId := 2, parentId := 1, name := "a",
        elements := [some (.literalNumericExpression 5 1), none], replaceCount := 0 }
      rfl rfl (by decide)),
   (((C8_ineligible_sites_untouched exStack exDescrArrays
        (.computedMemberExpression 23 (.identifierExpression 24 "b")
          (.literalNumericExpression 25 0))).2.2 "b" 0 rfl).1 rfl)⟩

/-- C10: a declarator whose array-literal initializer mixes holes and
literal elements passes `isLiteralArrayDeclaration` (holes do not block
discovery), and the discovery enter callback records such an unseen
declarator (raising the found flag and appending its descriptor, elements
including the holes); at a rewrite site, an access whose literal index hits
a hole — an index strictly within the element count — is left unchanged
with no counter increment. -/
theorem C10_holes_discovered_access_skipped :
    (∀ (i bi ai : Nat) (bname : String) (elems : List (Option Node)),
       elementsAllLiteralish elems = true →
       isLiteralArrayDeclaration (.variableDeclarator i (.bindingIdentifier bi bname)
         (some (.arrayExpression ai elems))) = true) ∧
    (∀ (parent : Node) (st : FindSt) (i bi ai : Nat) (bname : String)
       (elems : List (Option Node)),
       elementsAllLiteralish elems = true → st.seen.contains i = false →
       (findEnter (.variableDeclarator i (.bindingIdentifier bi bname)
           (some (.arrayExpression ai elems))) parent st).found = true ∧
       (findEnter (.variableDeclarator i (.bindingIdentifier bi bname)
           (some (.arrayExpression ai elems))) parent st).arrays =
         st.arrays ++ [{ nodeId := i, parentId := parent.getId, name := bname,
                         elements := elems, replaceCount := 0 }]) ∧
    (∀ (stack : List ScopeTree) (arrays : List ArrayDescr)
       (i oi ei value ai : Nat) (name : String) (d : ArrayDescr),
       scopeStackGet stack name = some ai → arrays.get? ai = some d →
       d.elements.get? value = some none →
       value < d.elements.length ∧
       unpackEnter stack arrays
         (.computedMemberExpression i (.identifierExpression oi name)
           (.literalNumericExpression ei value)) =
         (.computedMemberExpression i (.identifierExpression oi name)
           (.literalNumericExpression ei value), arrays, false)) := by
  refine ⟨?_, ?_, ?_⟩
  · intro i bi ai bname elems h
    simp [isLiteralArrayDeclaration, h]
  · intro parent st i bi ai bname elems h1 h2
    have h2' : i ∉ st.seen := by simpa using h2
    constructor
    · simp [findEnter, isScopeNodeType, h1, h2']
    · simp [findEnter, isScopeNodeType, h1, h2']
  · intro stack arrays i oi ei value ai name d h1 h2 h3
    constructor
    · by_contra hge
      have : d.elements.get? value = none := List.get?_eq_none.mpr (by omega)
      rw [this] at h3
      exact Option.noConfusion h3
    · rw [List.get?_eq_getElem?] at h2 h3
      simp [unpackEnter, h1, h2, h3]

/-- C10 witness: the descriptor with elements the literal 1 and a hole is a
literal array declaration, and the access a[1] hitting the hole is left
unchanged. -/
theorem C10_holes_discovered_access_skipped_witness :
    isLiteralArrayDeclaration (.variableDeclarator 2 (.bindingIdentifier 3 "a")
      (some (.arrayExpression 4 [some (.literalNumericExpression 5 1), none]))) = true ∧
    (1 < 2 ∧
     unpackEnter exStack exDescrArrays
       (.computedMemberExpression 30 (.identifierExpression 31 "a")
         (.literalNumericExpression 32 1)) =
       (.computedMemberExpression 30 (.identifierExpression 31 "a")
         (.literalNumericExpression 32 1), exDescrArrays, false)) :=
  ⟨C10_holes_discovered_access_skipped.1 2 3 4 "a"
      [some (.literalNumericExpression 5 1), none] rfl,
   C10_holes_discovered_access_skipped.2.2 exStack exDescrArrays 30 31 32 1 0 "a"
      { nodeId := 2, parentId := 1, name := "a",
        elements := [some (.literalNumericExpression 5 1), none], replaceCount := 0 }
      rfl rfl rfl⟩

/-- C2 counterexample.  In the program const a = [42]; a[0]; a[0]; the
literal 42 is one node (id 5) sitting at one position of the parsed tree.
The claim predicts that each of the two inlinings inserts a fresh copy, so
that after the pass no node occupies two positions (id 5 would still occur
once, with copies carrying fresh identities).  In fact the pass inserts the
descriptor's element node itself at both use sites, so after the pass the
single node with id 5 occupies three tree positions — one node with three
parents. -/
theorem C2_counterexample :
    countId 5 exAlias = 1 ∧
    (execute (arrayUnpackerInit exAlias false)).map (fun s => countId 5 s.ast) = some 3 :=
  ⟨rfl, rfl⟩

/-- C2 amended: every replacement performed by the rewrite traversal inserts
the descriptor's element node itself — the original node instance, not a
copy — and changes nothing in the arena besides that descriptor's counter;
consequently, when the same element is inlined at two distinct use sites
(and while the declaration itself remains in the tree), that one node
occupies several tree positions at once. -/
theorem C2_amended :
    ∀ (stack : List ScopeTree) (arrays : List ArrayDescr) (node n' : Node)
      (a' : List ArrayDescr),
      unpackEnter stack arrays node = (n', a', true) →
      ∃ (name : String) (value ai : Nat) (d : ArrayDescr),
        accessParts node = some (name, value) ∧
        scopeStackGet stack name = some ai ∧
        arrays.get? ai = some d ∧
        d.elements.get? value = some (some n') ∧
        a' = arrays.set ai { d with replaceCount := d.replaceCount + 1 } := by
  intro stack arrays node n' a' h
  cases node
  case computedMemberExpression i o e =>
    cases o
    case identifierExpression oi nm =>
      cases e
      case literalNumericExpression ei v =>
        simp only [unpackEnter] at h
        split at h
        · simp at h
        · split at h
          · simp at h
          · split at h
            · rename_i x1 pvar hres x2 dvar hd x3 replvar hel
              simp only [Prod.mk.injEq] at h
              obtain ⟨h1, h2, _⟩ := h
              exact ⟨nm, v, pvar, dvar, rfl, hres, hd, by rw [hel, h1], h2.symm⟩
            · simp at h
      all_goals simp [unpackEnter] at h
    all_goals simp [unpackEnter] at h
  all_goals simp [unpackEnter] at h

/-- C2 amended, witness: inlining a[0] against the two-element descriptor
inserts the stored literal node itself and bumps the counter. -/
theorem C2_amended_witness :
    ∃ (name : String) (value ai : Nat) (d : ArrayDescr),
      accessParts (.computedMemberExpression 40 (.identifierExpression 41 "a")
        (.literalNumericExpression 42 0)) = some (name, value) ∧
      scopeStackGet exStack name = some ai ∧
      exDescrArrays.get? ai = some d ∧
      d.elements.get? value = some (some (.literalNumericExpression 5 1)) ∧
      ([{ nodeId := 2, parentId := 1, name := "a",
          elements := [some (.literalNumericExpression 5 1), none], replaceCount := 1 }]
        : List ArrayDescr) =
        exDescrArrays.set ai { d with replaceCount := d.replaceCount + 1 } :=
  C2_amended exStack exDescrArrays
    (.computedMemberExpression 40 (.identifierExpression 41 "a")
      (.literalNumericExpression 42 0))
    (.literalNumericExpression 5 1)
    [{ nodeId := 2, parentId := 1, name := "a",
       elements := [some (.literalNumericExpression 5 1), none], replaceCount := 1 }]
    rfl

/-! ## Lemmas about node removal -/

theorem removeNode_getId (p n : Nat) (t : Node) : (removeNode p n t).getId = t.getId := by
  cases t <;> rfl

theorem removeNodeList_eq_map (p n : Nat) (l : List Node) :
    removeNodeList p n l = l.map (removeNode p n) := by
  induction l with
  | nil => rfl
  | cons c cs ih => simp [removeNodeList, ih]

theorem removeNodeOpt_eq_map (p n : Nat) (o : Option Node) :
    removeNodeOpt p n o = o.map (removeNode p n) := by
  cases o <;> rfl

theorem removeNodeOptList_eq_map (p n : Nat) (l : List (Option Node)) :
    removeNodeOptList p n l = l.map (removeNodeOpt p n) := by
  induction l with
  | nil => rfl
  | cons e es ih => simp [removeNodeOptList, ih]

theorem filter_self_idem {α : Type} (q : α → Bool) (l : List α) :
    (l.filter q).filter q = l.filter q := by
  induction l with
  | nil => rfl
  | cons a as ih =>
      by_cases h : q a = true
      · simp [List.filter_cons, h, ih]
      · simp only [Bool.not_eq_true] at h
        simp [List.filter_cons, h, ih]

theorem filter_swap {α : Type} (q r : α → Bool) (l : List α) :
    (l.filter q).filter r = (l.filter r).filter q := by
  induction l with
  | nil => rfl
  | cons a as ih =>
      by_cases hq : q a = true <;> by_cases hr : r a = true <;>
        simp [List.filter_cons, hq, hr, ih]

theorem map_filter_pres {α : Type} (f : α → α) (q : α → Bool) (hq : ∀ a, q (f a) = q a) :
    ∀ (l : List α), (l.filter q).map f = (l.map f).filter q := by
  intro l
  induction l with
  | nil => rfl
  | cons a as ih =>
      by_cases h : q a = true
      · rw [List.filter_cons, if_pos h, List.map_cons, List.map_cons, List.filter_cons,
          if_pos (by rw [hq]; exact h), ih]
      · simp only [Bool.not_eq_true] at h
        rw [List.filter_cons, if_neg (by simp [h]), List.map_cons, List.filter_cons,
          if_neg (by simp [hq, h]), ih]

theorem removeNodeList_pruneChildren (p n p' n' i : Nat) (l : List Node) :
    removeNodeList p n (pruneChildren p' n' i l) =
      pruneChildren p' n' i (removeNodeList p n l) := by
  by_cases h : i = p'
  · simp only [pruneChildren, if_pos h, removeNodeList_eq_map]
    exact map_filter_pres (removeNode p n) _ (fun a => by simp [removeNode_getId]) l
  · simp only [pruneChildren, if_neg h]

theorem removeNodeOpt_pruneInit (p n p' n' i : Nat) (o : Option Node) :
    removeNodeOpt p n (pruneInit p' n' i o) = pruneInit p' n' i (removeNodeOpt p n o) := by
  by_cases h : i = p'
  · cases o with
    | none => simp only [pruneInit, if_pos h, removeNodeOpt]
    | some c =>
        by_cases hc : c.getId = n'
        · simp only [pruneInit, if_pos h, if_pos hc, removeNodeOpt,
            removeNode_getId, if_pos hc]
        · simp only [pruneInit, if_pos h, if_neg hc, removeNodeOpt,
            removeNode_getId, if_neg hc]
  · simp only [pruneInit, if_neg h]

theorem removeNodeOptList_pruneElements (p n p' n' i : Nat) (l : List (Option Node)) :
    removeNodeOptList p n (pruneElements p' n' i l) =
      pruneElements p' n' i (removeNodeOptList p n l) := by
  by_cases h : i = p'
  · simp only [pruneElements, if_pos h, removeNodeOptList_eq_map]
    refine map_filter_pres (removeNodeOpt p n) _ (fun a => ?_) l
    cases a with
    | none => rfl
    | some c => simp [removeNodeOpt, removeNode_getId]
  · simp only [pruneElements, if_neg h]

theorem pruneChildren_idem (p n i : Nat) (l : List Node) :
    pruneChildren p n i (pruneChildren p n i l) = pruneChildren p n i l := by
  by_cases h : i = p
  · simp only [pruneChildren, if_pos h, filter_self_idem]
  · simp only [pruneChildren, if_neg h]

theorem pruneChildren_swap (p n p' n' i : Nat) (l : List Node) :
    pruneChildren p n i (pruneChildren p' n' i l) =
      pruneChildren p' n' i (pruneChildren p n i l) := by
  by_cases h : i = p <;> by_cases h' : i = p'
  · simp only [pruneChildren, if_pos h, if_pos h']
    exact filter_swap _ _ l
  · simp only [pruneChildren, if_pos h, if_neg h']
  · simp only [pruneChildren, if_neg h, if_pos h']
  · simp only [pruneChildren, if_neg h, if_neg h']

theorem pruneInit_idem (p n i : Nat) (o : Option Node) :
    pruneInit p n i (pruneInit p n i o) = pruneInit p n i o := by
  by_cases h : i = p
  · cases o with
    | none => simp only [pruneInit, if_pos h]
    | some c =>
        by_cases hc : c.getId = n
        · simp only [pruneInit, if_pos h, if_pos hc]
        · simp only [pruneInit, if_pos h, if_neg hc]
  · simp only [pruneInit, if_neg h]

theorem pruneInit_swap (p n p' n' i : Nat) (o : Option Node) :
    pruneInit p n i (pruneInit p' n' i o) = pruneInit p' n' i (pruneInit p n i o) := by
  by_cases h : i = p <;> by_cases h' : i = p'
  · cases o with
    | none => simp only [pruneInit, if_pos h, if_pos h']
    | some c =>
        by_cases hc : c.getId = n <;> by_cases hc' : c.getId = n'
        · simp only [pruneInit, if_pos h, if_pos h', if_pos hc, if_pos hc']
        · simp only [pruneInit, if_pos h, if_pos h', if_pos hc, if_neg hc']
        · simp only [pruneInit, if_pos h, if_pos h', if_neg hc, if_pos hc']
        · simp only [pruneInit, if_pos h, if_pos h', if_neg hc, if_neg hc']
  · cases o with
    | none => simp only [pruneInit, if_pos h, if_neg h']
    | some c =>
        by_cases hc : c.getId = n
        · simp only [pruneInit, if_pos h, if_neg h', if_pos hc]
        · simp only [pruneInit, if_pos h, if_neg h', if_neg hc]
  · cases o with
    | none => simp only [pruneInit, if_neg h, if_pos h']
    | some c =>
        by_cases hc' : c.getId = n'
        · simp only [pruneInit, if_neg h, if_pos h', if_pos hc']
        · simp only [pruneInit, if_neg h, if_pos h', if_neg hc']
  · simp only [pruneInit, if_neg h, if_neg h']

theorem pruneElements_idem (p n i : Nat) (l : List (Option Node)) :
    pruneElements p n i (pruneElements p n i l) = pruneElements p n i l := by
  by_cases h : i = p
  · simp only [pruneElements, if_pos h, filter_self_idem]
  · simp only [pruneElements, if_neg h]

theorem pruneElements_swap (p n p' n' i : Nat) (l : List (Option Node)) :
    pruneElements p n i (pruneElements p' n' i l) =
      pruneElements p' n' i (pruneElements p n i l) := by
  by_cases h : i = p <;> by_cases h' : i = p'
  · simp only [pruneElements, if_pos h, if_pos h']
    exact filter_swap _ _ l
  · simp only [pruneElements, if_pos h, if_neg h']
  · simp only [pruneElements, if_neg h, if_pos h']
  · simp only [pruneElements, if_neg h, if_neg h']

mutual
theorem removeNode_swap (p n p' n' : Nat) : ∀ (t : Node),
    removeNode p n (removeNode p' n' t) = removeNode p' n' (removeNode p n t)
  | .block i statements => by
      simp only [removeNode, removeNodeList_pruneChildren]
      rw [removeNodeList_swap p n p' n' statements, pruneChildren_swap]
  | .functionBody i statements => by
      simp only [removeNode, removeNodeList_pruneChildren]
      rw [removeNodeList_swap p n p' n' statements, pruneChildren_swap]
  | .variableDeclarator i binding init => by
      simp only [removeNode, removeNodeOpt_pruneInit]
      rw [removeNode_swap p n p' n' binding, removeNodeOpt_swap p n p' n' init,
        pruneInit_swap]
  | .bindingIdentifier i name => rfl
  | .arrayExpression i elements => by
      simp only [removeNode, removeNodeOptList_pruneElements]
      rw [removeNodeOptList_swap p n p' n' elements, pruneElements_swap]
  | .computedMemberExpression i object expression => by
      simp only [removeNode]
      rw [removeNode_swap p n p' n' object, removeNode_swap p n p' n' expression]
  | .identifierExpression i name => rfl
  | .literalNumericExpression i value => rfl
  | .literalOther i => rfl
  | .other i children => by
      simp only [removeNode, removeNodeList_pruneChildren]
      rw [removeNodeList_swap p n p' n' children, pruneChildren_swap]
  termination_by structural t => t

theorem removeNodeList_swap (p n p' n' : Nat) : ∀ (l : List Node),
    removeNodeList p n (removeNodeList p' n' l) = removeNodeList p' n' (removeNodeList p n l)
  | [] => rfl
  | c :: cs => by
      simp only [removeNodeList]
      rw [removeNode_swap p n p' n' c, removeNodeList_swap p n p' n' cs]
  termination_by structural l => l

theorem removeNodeOpt_swap (p n p' n' : Nat) : ∀ (o : Option Node),
    removeNodeOpt p n (removeNodeOpt p' n' o) = removeNodeOpt p' n' (removeNodeOpt p n o)
  | none => rfl
  | some c => by
      simp only [removeNodeOpt]
      rw [removeNode_swap p n p' n' c]
  termination_by structural o => o

theorem removeNodeOptList_swap (p n p' n' : Nat) : ∀ (l : List (Option Node)),
    removeNodeOptList p n (removeNodeOptList p' n' l) =
      removeNodeOptList p' n' (removeNodeOptList p n l)
  | [] => rfl
  | e :: es => by
      simp only [removeNodeOptList]
      rw [removeNodeOpt_swap p n p' n' e, removeNodeOptList_swap p n p' n' es]
  termination_by structural l => l
end

mutual
theorem removeNode_idem (p n : Nat) : ∀ (t : Node),
    removeNode p n (removeNode p n t) = removeNode p n t
  | .block i statements => by
      simp only [removeNode, removeNodeList_pruneChildren]
      rw [removeNodeList_idem p n statements, pruneChildren_idem]
  | .functionBody i statements => by
      simp only [removeNode, removeNodeList_pruneChildren]
      rw [removeNodeList_idem p n statements, pruneChildren_idem]
  | .variableDeclarator i binding init => by
      simp only [removeNode, removeNodeOpt_pruneInit]
      rw [removeNode_idem p n binding, removeNodeOpt_idem p n init, pruneInit_idem]
  | .bindingIdentifier i name => rfl
  | .arrayExpression i elements => by
      simp only [removeNode, removeNodeOptList_pruneElements]
      rw [removeNodeOptList_idem p n elements, pruneElements_idem]
  | .computedMemberExpression i object expression => by
      simp only [removeNode]
      rw [removeNode_idem p n object, removeNode_idem p n expression]
  | .identifierExpression i name => rfl
  | .literalNumericExpression i value => rfl
  | .literalOther i => rfl
  | .other i children => by
      simp only [removeNode, removeNodeList_pruneChildren]
      rw [removeNodeList_idem p n children, pruneChildren_idem]
  termination_by structural t => t

theorem removeNodeList_idem (p n : Nat) : ∀ (l : List Node),
    removeNodeList p n (removeNodeList p n l) = removeNodeList p n l
  | [] => rfl
  | c :: cs => by
      simp only [removeNodeList]
      rw [removeNode_idem p n c, removeNodeList_idem p n cs]
  termination_by structural l => l

theorem removeNodeOpt_idem (p n : Nat) : ∀ (o : Option Node),
    removeNodeOpt p n (removeNodeOpt p n o) = removeNodeOpt p n o
  | none => rfl
  | some c => by
      simp only [removeNodeOpt]
      rw [removeNode_idem p n c]
  termination_by structural o => o

theorem removeNodeOptList_idem (p n : Nat) : ∀ (l : List (Option Node)),
    removeNodeOptList p n (removeNodeOptList p n l) = removeNodeOptList p n l
  | [] => rfl
  | e :: es => by
      simp only [removeNodeOptList]
      rw [removeNodeOpt_idem p n e, removeNodeOptList_idem p n es]
  termination_by structural l => l
end

theorem applyRemoval_swap (arrays : List ArrayDescr) (t : Node) (a b : Nat) :
    applyRemoval arrays (applyRemoval arrays t a) b =
      applyRemoval arrays (applyRemoval arrays t b) a := by
  cases ha : arrays.get? a with
  | none =>
      cases hb : arrays.get? b with
      | none => simp only [applyRemoval]; rw [ha, hb]
      | some d' => simp only [applyRemoval]; rw [ha, hb]
  | some d =>
      cases hb : arrays.get? b with
      | none => simp only [applyRemoval]; rw [ha, hb]
      | some d' =>
          simp only [applyRemoval]
          rw [ha, hb]
          by_cases hda : 0 < d.replaceCount <;> by_cases hdb : 0 < d'.replaceCount
          · simp only [if_pos hda, if_pos hdb]
            exact removeNode_swap d'.parentId d'.nodeId d.parentId d.nodeId t
          · simp only [if_pos hda, if_neg hdb]
          · simp only [if_neg hda, if_pos hdb]
          · simp only [if_neg hda, if_neg hdb]

theorem applyRemoval_idem (arrays : List ArrayDescr) (t : Node) (a : Nat) :
    applyRemoval arrays (applyRemoval arrays t a) a = applyRemoval arrays t a := by
  cases ha : arrays.get? a with
  | none => simp only [applyRemoval]; rw [ha]
  | some d =>
      simp only [applyRemoval]
      rw [ha]
      by_cases hda : 0 < d.replaceCount
      · simp only [if_pos hda]
        exact removeNode_idem d.parentId d.nodeId t
      · simp only [if_neg hda]

theorem foldl_applyRemoval_out (arrays : List ArrayDescr) (a : Nat) :
    ∀ (L : List Nat) (t : Node),
      applyRemoval arrays (L.foldl (applyRemoval arrays) t) a =
        L.foldl (applyRemoval arrays) (applyRemoval arrays t a) := by
  intro L
  induction L with
  | nil => intro t; rfl
  | cons c cs ih =>
      intro t
      simp only [List.foldl_cons]
      rw [ih, applyRemoval_swap]

theorem foldl_applyRemoval_absorb (arrays : List ArrayDescr) (a : Nat) :
    ∀ (L : List Nat) (t : Node), a ∈ L →
      applyRemoval arrays (L.foldl (applyRemoval arrays) t) a =
        L.foldl (applyRemoval arrays) t := by
  intro L
  induction L with
  | nil => intro t h; exact absurd h (List.not_mem_nil a)
  | cons c cs ih =>
      intro t h
      simp only [List.foldl_cons]
      rcases List.mem_cons.mp h with hc | hcs
      · subst hc
        rw [foldl_applyRemoval_out, applyRemoval_idem]
      · exact ih _ hcs

theorem foldl_applyRemoval_subset (arrays : List ArrayDescr) :
    ∀ (L' L : List Nat) (t : Node), (∀ x ∈ L', x ∈ L) →
      L'.foldl (applyRemoval arrays) (L.foldl (applyRemoval arrays) t) =
        L.foldl (applyRemoval arrays) t := by
  intro L'
  induction L' with
  | nil => intro L t _; rfl
  | cons x xs ih =>
      intro L t h
      simp only [List.foldl_cons]
      rw [foldl_applyRemoval_absorb arrays x L t (h x (List.mem_cons_self x xs))]
      exact ih L t (fun y hy => h y (List.mem_cons_of_mem x hy))

mutual
theorem removeArraysScope_eq_foldl (arrays : List ArrayDescr) :
    ∀ (s : ScopeTree) (t : Node),
      removeArraysScope arrays s t = (scopeDescrs s).foldl (applyRemoval arrays) t
  | .mk nodeI ty elements children => by
      intro t
      simp only [removeArraysScope, scopeDescrs, List.foldl_append]
      rw [removeArraysChildren_eq_foldl arrays children]
      congr 1
      rw [List.foldl_map]
  termination_by structural s => s

theorem removeArraysChildren_eq_foldl (arrays : List ArrayDescr) :
    ∀ (children : List (Nat × ScopeTree)) (t : Node),
      removeArraysChildren arrays children t =
        (scopeDescrsChildren children).foldl (applyRemoval arrays) t
  | [] => fun _ => rfl
  | (k, c) :: rest => by
      intro t
      simp only [removeArraysChildren, scopeDescrsChildren, List.foldl_append]
      rw [removeArraysScope_eq_foldl arrays c, removeArraysChildren_eq_foldl arrays rest]
  termination_by structural l => l
end

/-- C9 counterexample.  In the program with a block: braces around
const a = [7]; a[0]; — cleanup enabled — the access is inlined, so the
descriptor of a ends with usage counter 1 (positive), yet its declaration
node (id 3) is still present in the final tree: the final discovery round
rebuilt the block's scope with an empty element map, so the cleanup walk of
the final Scope tree never reaches the descriptor and its declaration is not
removed, contradicting the claim that every positive-counter descriptor has
its declaration removed. -/
theorem C9_counterexample :
    (execute (arrayUnpackerInit exBlock true)).map
      (fun s => (countId 3 s.ast, s.arrays.map ArrayDescr.replaceCount)) =
      some (1, [1]) :=
  rfl

/-- C9 amended: when cleanup is enabled, the walk after the fixpoint loop is
exactly the conditional-removal fold over the descriptors recorded in the
final Scope tree (elements of a scope first, then its children): every such
descriptor with a positive counter has its declaration removed from its
recorded owning parent there, so re-applying the removal of any recorded
descriptor afterwards changes nothing, and zero-counter descriptors are
never passed to the removal at all.  Descriptors no longer recorded in the
final Scope tree (those a later discovery round's scope rebuilding orphaned
— every block-scoped one) are not visited, and their declarations stay even
with a positive counter.  Concretely: in const a = [1, 2]; a[5]; the counter
stays 0 and the declaration (node 2) is retained even with cleanup enabled;
in const a = [42]; a[0]; a[0]; the counter is 2 and the declaration is
removed. -/
theorem C9_cleanup_amended :
    (∀ (arrays : List ArrayDescr) (s : ScopeTree) (t : Node),
       removeArraysScope arrays s t = (scopeDescrs s).foldl (applyRemoval arrays) t) ∧
    (∀ (arrays : List ArrayDescr) (s : ScopeTree) (t : Node) (ai : Nat),
       ai ∈ scopeDescrs s →
       applyRemoval arrays (removeArraysScope arrays s t) ai =
         removeArraysScope arrays s t) ∧
    (execute (arrayUnpackerInit exRange true)).map
      (fun st => (countId 2 st.ast, st.arrays.map ArrayDescr.replaceCount)) =
      some (1, [0]) ∧
    (execute (arrayUnpackerInit exAlias true)).map
      (fun st => (countId 2 st.ast, st.arrays.map ArrayDescr.replaceCount)) =
      some (0, [2]) := by
  refine ⟨removeArraysScope_eq_foldl, ?_, rfl, rfl⟩
  intro arrays s t ai hai
  rw [removeArraysScope_eq_foldl]
  exact foldl_applyRemoval_absorb arrays ai (scopeDescrs s) t hai

/-- C9 amended, witness: one scope recording the hot two-element descriptor;
re-applying its removal after the cleanup walk changes nothing. -/
theorem C9_cleanup_amended_witness :
    applyRemoval
      [{ nodeId := 2, parentId := 1, name := "a",
         elements := [some (.literalNumericExpression 5 1), none], replaceCount := 1 }]
      (removeArraysScope
        [{ nodeId := 2, parentId := 1, name := "a",
           elements := [some (.literalNumericExpression 5 1), none], replaceCount := 1 }]
        (.mk 0 ScopeType.Other [("a", 0)] []) exRange) 0 =
      removeArraysScope
        [{ nodeId := 2, parentId := 1, name := "a",
           elements := [some (.literalNumericExpression 5 1), none], replaceCount := 1 }]
        (.mk 0 ScopeType.Other [("a", 0)] []) exRange :=
  C9_cleanup_amended.2.1
    [{ nodeId := 2, parentId := 1, name := "a",
       elements := [some (.literalNumericExpression 5 1), none], replaceCount := 1 }]
    (.mk 0 ScopeType.Other [("a", 0)] []) exRange 0 (by decide)

/-! ## Lemmas about the discovery traversal -/

theorem findLeave_parts (node : Node) (st : FindSt) :
    (findLeave node st).arrays = st.arrays ∧ (findLeave node st).seen = st.seen ∧
    (findLeave node st).found = st.found := by
  cases st with
  | mk arrays seen found cur ctx =>
      cases ctx with
      | nil => exact ⟨rfl, rfl, rfl⟩
      | cons parent rest =>
          by_cases h : node.getId = cur.nodeOf
          · simp [findLeave, h]
          · simp [findLeave, h]

theorem findEnter_scope (node parent : Node) (st : FindSt)
    (h : isScopeNodeType node = true) :
    findEnter node parent st =
      { st with cur := .mk node.getId ScopeType.Other [] [], ctx := st.cur :: st.ctx } := by
  simp [findEnter, h]

theorem findEnter_nonscope (node parent : Node) (st : FindSt)
    (h : isScopeNodeType node = false) :
    findEnter node parent st =
      if isLiteralArrayDeclaration node && !st.seen.contains node.getId then
        { st with
          arrays := st.arrays ++ [ladDescriptor node parent],
          seen := node.getId :: st.seen,
          found := true,
          cur := .mk st.cur.nodeOf st.cur.stypeOf
            (mapSet st.cur.elementsOf (ladName node) st.arrays.length) st.cur.childrenOf }
      else st := by
  cases node
  case block i statements => simp [isScopeNodeType] at h
  case functionBody i statements => simp [isScopeNodeType] at h
  case variableDeclarator i b init =>
      cases b <;> try rfl
      case bindingIdentifier bi name =>
          cases init <;> try rfl
          case some c => cases c <;> rfl
  all_goals rfl

mutual
theorem findVisit_seen (parent node : Node) (st : FindSt) (i : Nat) :
    i ∈ (findVisit parent node st).seen ↔ i ∈ st.seen ∨ i ∈ ladNodeIds node := by
  cases node
  case block bi statements =>
      simp only [findVisit]
      rw [(findLeave_parts _ _).2.1,
        findVisitList_seen (.block bi statements) statements _ i,
        findEnter_scope (.block bi statements) parent st rfl]
      simp [ladNodeIds, kindIds, isLiteralArrayDeclaration]
  case functionBody bi statements =>
      simp only [findVisit]
      rw [(findLeave_parts _ _).2.1,
        findVisitList_seen (.functionBody bi statements) statements _ i,
        findEnter_scope (.functionBody bi statements) parent st rfl]
      simp [ladNodeIds, kindIds, isLiteralArrayDeclaration]
  case variableDeclarator di b init =>
      simp only [findVisit]
      rw [(findLeave_parts _ _).2.1,
        findVisitOpt_seen (.variableDeclarator di b init) init _ i,
        findVisit_seen (.variableDeclarator di b init) b _ i,
        findEnter_nonscope (.variableDeclarator di b init) parent st rfl]
      by_cases hg : (isLiteralArrayDeclaration (.variableDeclarator di b init) &&
          !st.seen.contains (Node.getId (.variableDeclarator di b init))) = true
      · rw [if_pos hg]
        have hLAD : isLiteralArrayDeclaration (.variableDeclarator di b init) = true := by
          rw [Bool.and_eq_true] at hg
          exact hg.1
        simp only [ladNodeIds, kindIds, hLAD, if_true, List.mem_append, List.mem_cons,
          Node.getId, List.mem_singleton, List.not_mem_nil, false_or, or_false]
        tauto
      · rw [if_neg hg]
        by_cases hLAD : isLiteralArrayDeclaration (.variableDeclarator di b init) = true
        · have hdi : di ∈ st.seen := by
            by_contra hnc
            apply hg
            rw [Bool.and_eq_true]
            refine ⟨hLAD, ?_⟩
            simp [hnc, Node.getId]
          have hbridge : i = di → i ∈ st.seen := fun h => h ▸ hdi
          simp only [ladNodeIds, kindIds, hLAD, if_true, List.mem_append, List.mem_cons,
            List.mem_singleton, List.not_mem_nil, false_or, or_false]
          tauto
        · simp only [Bool.not_eq_true] at hLAD
          simp only [ladNodeIds, kindIds, hLAD, if_false, List.mem_append, List.nil_append]
          tauto
  case bindingIdentifier bi name =>
      simp only [findVisit]
      rw [(findLeave_parts _ _).2.1,
        findEnter_nonscope (.bindingIdentifier bi name) parent st rfl]
      simp [isLiteralArrayDeclaration, ladNodeIds, kindIds]
  case arrayExpression ai elements =>
      simp only [findVisit]
      rw [(findLeave_parts _ _).2.1,
        findVisitOptList_seen (.arrayExpression ai elements) elements _ i,
        findEnter_nonscope (.arrayExpression ai elements) parent st rfl]
      simp [isLiteralArrayDeclaration, ladNodeIds, kindIds]
  case computedMemberExpression ci o e =>
      simp only [findVisit]
      rw [(findLeave_parts _ _).2.1,
        findVisit_seen (.computedMemberExpression ci o e) e _ i,
        findVisit_seen (.computedMemberExpression ci o e) o _ i,
        findEnter_nonscope (.computedMemberExpression ci o e) parent st rfl]
      simp [isLiteralArrayDeclaration, ladNodeIds, kindIds, or_assoc]
  case identifierExpression ii name =>
      simp only [findVisit]
      rw [(findLeave_parts _ _).2.1,
        findEnter_nonscope (.identifierExpression ii name) parent st rfl]
      simp [isLiteralArrayDeclaration, ladNodeIds, kindIds]
  case literalNumericExpression li v =>
      simp only [findVisit]
      rw [(findLeave_parts _ _).2.1,
        findEnter_nonscope (.literalNumericExpression li v) parent st rfl]
      simp [isLiteralArrayDeclaration, ladNodeIds, kindIds]
  case literalOther li =>
      simp only [findVisit]
      rw [(findLeave_parts _ _).2.1,
        findEnter_nonscope (.literalOther li) parent st rfl]
      simp [isLiteralArrayDeclaration, ladNodeIds, kindIds]
  case other oi children =>
      simp only [findVisit]
      rw [(findLeave_parts _ _).2.1,
        findVisitList_seen (.other oi children) children _ i,
        findEnter_nonscope (.other oi children) parent st rfl]
      simp [isLiteralArrayDeclaration, ladNodeIds, kindIds]
  termination_by sizeOf node

theorem findVisitList_seen (parent : Node) (nodes : List Node) (st : FindSt) (i : Nat) :
    i ∈ (findVisitList parent nodes st).seen ↔
      i ∈ st.seen ∨ i ∈ kindIdsList isLiteralArrayDeclaration nodes := by
  cases nodes with
  | nil => simp [findVisitList, kindIdsList]
  | cons n ns =>
      simp only [findVisitList]
      rw [findVisitList_seen parent ns _ i, findVisit_seen parent n st i]
      simp [kindIdsList, ladNodeIds, or_assoc]
  termination_by sizeOf nodes

theorem findVisitOpt_seen (parent : Node) (node : Option Node) (st : FindSt) (i : Nat) :
    i ∈ (findVisitOpt parent node st).seen ↔
      i ∈ st.seen ∨ i ∈ kindIdsOpt isLiteralArrayDeclaration node := by
  cases node with
  | none => simp [findVisitOpt, kindIdsOpt]
  | some n =>
      simp only [findVisitOpt]
      rw [findVisit_seen parent n st i]
      simp [kindIdsOpt, ladNodeIds]
  termination_by sizeOf node

theorem findVisitOptList_seen (parent : Node) (nodes : List (Option Node)) (st : FindSt)
    (i : Nat) :
    i ∈ (findVisitOptList parent nodes st).seen ↔
      i ∈ st.seen ∨ i ∈ kindIdsOptList isLiteralArrayDeclaration nodes := by
  cases nodes with
  | nil => simp [findVisitOptList, kindIdsOptList]
  | cons e es =>
      simp only [findVisitOptList]
      rw [findVisitOptList_seen parent es _ i, findVisitOpt_seen parent e st i]
      simp [kindIdsOptList, or_assoc]
  termination_by sizeOf nodes
end

theorem findEnter_found_mono (node parent : Node) (st : FindSt) (h : st.found = true) :
    (findEnter node parent st).found = true := by
  by_cases hs : isScopeNodeType node = true
  · rw [findEnter_scope node parent st hs]; exact h
  · rw [findEnter_nonscope node parent st (by simpa using hs)]
    by_cases hg : (isLiteralArrayDeclaration node && !st.seen.contains node.getId) = true
    · rw [if_pos hg]
    · rw [if_neg hg]; exact h

mutual
theorem findVisit_found_mono (parent node : Node) (st : FindSt) (h : st.found = true) :
    (findVisit parent node st).found = true := by
  cases node
  case block bi statements =>
      simp only [findVisit]
      rw [(findLeave_parts _ _).2.2]
      exact findVisitList_found_mono _ statements _ (findEnter_found_mono _ parent st h)
  case functionBody bi statements =>
      simp only [findVisit]
      rw [(findLeave_parts _ _).2.2]
      exact findVisitList_found_mono _ statements _ (findEnter_found_mono _ parent st h)
  case variableDeclarator di b init =>
      simp only [findVisit]
      rw [(findLeave_parts _ _).2.2]
      exact findVisitOpt_found_mono _ init _
        (findVisit_found_mono _ b _ (findEnter_found_mono _ parent st h))
  case bindingIdentifier bi name =>
      simp only [findVisit]
      rw [(findLeave_parts _ _).2.2]
      exact findEnter_found_mono _ parent st h
  case arrayExpression ai elements =>
      simp only [findVisit]
      rw [(findLeave_parts _ _).2.2]
      exact findVisitOptList_found_mono _ elements _ (findEnter_found_mono _ parent st h)
  case computedMemberExpression ci o e =>
      simp only [findVisit]
      rw [(findLeave_parts _ _).2.2]
      exact findVisit_found_mono _ e _
        (findVisit_found_mono _ o _ (findEnter_found_mono _ parent st h))
  case identifierExpression ii name =>
      simp only [findVisit]
      rw [(findLeave_parts _ _).2.2]
      exact findEnter_found_mono _ parent st h
  case literalNumericExpression li v =>
      simp only [findVisit]
      rw [(findLeave_parts _ _).2.2]
      exact findEnter_found_mono _ parent st h
  case literalOther li =>
      simp only [findVisit]
      rw [(findLeave_parts _ _).2.2]
      exact findEnter_found_mono _ parent st h
  case other oi children =>
      simp only [findVisit]
      rw [(findLeave_parts _ _).2.2]
      exact findVisitList_found_mono _ children _ (findEnter_found_mono _ parent st h)
  termination_by sizeOf node

theorem findVisitList_found_mono (parent : Node) (nodes : List Node) (st : FindSt)
    (h : st.found = true) : (findVisitList parent nodes st).found = true := by
  cases nodes with
  | nil => exact h
  | cons n ns =>
      simp only [findVisitList]
      exact findVisitList_found_mono parent ns _ (findVisit_found_mono parent n st h)
  termination_by sizeOf nodes

theorem findVisitOpt_found_mono (parent : Node) (node : Option Node) (st : FindSt)
    (h : st.found = true) : (findVisitOpt parent node st).found = true := by
  cases node with
  | none => exact h
  | some n => exact findVisit_found_mono parent n st h
  termination_by sizeOf node

theorem findVisitOptList_found_mono (parent : Node) (nodes : List (Option Node)) (st : FindSt)
    (h : st.found = true) : (findVisitOptList parent nodes st).found = true := by
  cases nodes with
  | nil => exact h
  | cons e es =>
      simp only [findVisitOptList]
      exact findVisitOptList_found_mono parent es _ (findVisitOpt_found_mono parent e st h)
  termination_by sizeOf nodes
end

theorem findEnter_seen_mono (node parent : Node) (st : FindSt) (i : Nat)
    (h : i ∈ st.seen) : i ∈ (findEnter node parent st).seen := by
  by_cases hs : isScopeNodeType node = true
  · rw [findEnter_scope node parent st hs]; exact h
  · rw [findEnter_nonscope node parent st (by simpa using hs)]
    by_cases hg : (isLiteralArrayDeclaration node && !st.seen.contains node.getId) = true
    · rw [if_pos hg]; exact List.mem_cons_of_mem _ h
    · rw [if_neg hg]; exact h

theorem findEnter_growth (node parent : Node) (st : FindSt) (i : Nat)
    (hin : i ∈ (findEnter node parent st).seen) (hout : i ∉ st.seen) :
    (findEnter node parent st).found = true := by
  by_cases hs : isScopeNodeType node = true
  · rw [findEnter_scope node parent st hs] at hin
    exact absurd hin hout
  · rw [findEnter_nonscope node parent st (by simpa using hs)] at hin ⊢
    by_cases hg : (isLiteralArrayDeclaration node && !st.seen.contains node.getId) = true
    · rw [if_pos hg]
    · rw [if_neg hg] at hin
      exact absurd hin hout

theorem findVisit_seen_mono (parent node : Node) (st : FindSt) (i : Nat)
    (h : i ∈ st.seen) : i ∈ (findVisit parent node st).seen :=
  (findVisit_seen parent node st i).mpr (Or.inl h)

theorem findVisitList_seen_mono (parent : Node) (nodes : List Node) (st : FindSt) (i : Nat)
    (h : i ∈ st.seen) : i ∈ (findVisitList parent nodes st).seen :=
  (findVisitList_seen parent nodes st i).mpr (Or.inl h)

theorem findVisitOpt_seen_mono (parent : Node) (node : Option Node) (st : FindSt) (i : Nat)
    (h : i ∈ st.seen) : i ∈ (findVisitOpt parent node st).seen :=
  (findVisitOpt_seen parent node st i).mpr (Or.inl h)

mutual
theorem findVisit_growth (parent node : Node) (st : FindSt) (i : Nat)
    (hin : i ∈ (findVisit parent node st).seen) (hout : i ∉ st.seen) :
    (findVisit parent node st).found = true := by
  cases node
  case block bi statements =>
      simp only [findVisit] at hin ⊢
      rw [(findLeave_parts _ _).2.1] at hin
      rw [(findLeave_parts _ _).2.2]
      refine findVisitList_growth _ statements _ i hin ?_
      rw [findEnter_scope (.block bi statements) parent st rfl]
      exact hout
  case functionBody bi statements =>
      simp only [findVisit] at hin ⊢
      rw [(findLeave_parts _ _).2.1] at hin
      rw [(findLeave_parts _ _).2.2]
      refine findVisitList_growth _ statements _ i hin ?_
      rw [findEnter_scope (.functionBody bi statements) parent st rfl]
      exact hout
  case variableDeclarator di b init =>
      simp only [findVisit] at hin ⊢
      rw [(findLeave_parts _ _).2.1] at hin
      rw [(findLeave_parts _ _).2.2]
      by_cases h2 : i ∈ (findVisit (.variableDeclarator di b init) b
          (findEnter (.variableDeclarator di b init) parent st)).seen
      · by_cases h1 : i ∈ (findEnter (.variableDeclarator di b init) parent st).seen
        · exact findVisitOpt_found_mono _ init _
            (findVisit_found_mono _ b _ (findEnter_growth _ parent st i h1 hout))
        · exact findVisitOpt_found_mono _ init _ (findVisit_growth _ b _ i h2 h1)
      · exact findVisitOpt_growth _ init _ i hin h2
  case bindingIdentifier bi name =>
      simp only [findVisit] at hin ⊢
      rw [(findLeave_parts _ _).2.1] at hin
      rw [(findLeave_parts _ _).2.2]
      exact findEnter_growth _ parent st i hin hout
  case arrayExpression ai elements =>
      simp only [findVisit] at hin ⊢
      rw [(findLeave_parts _ _).2.1] at hin
      rw [(findLeave_parts _ _).2.2]
      refine findVisitOptList_growth _ elements _ i hin ?_
      rw [findEnter_nonscope (.arrayExpression ai elements) parent st rfl]
      simpa [isLiteralArrayDeclaration] using hout
  case computedMemberExpression ci o e =>
      simp only [findVisit] at hin ⊢
      rw [(findLeave_parts _ _).2.1] at hin
      rw [(findLeave_parts _ _).2.2]
      by_cases h1 : i ∈ (findVisit (.computedMemberExpression ci o e) o
          (findEnter (.computedMemberExpression ci o e) parent st)).seen
      · by_cases h0 : i ∈ (findEnter (.computedMemberExpression ci o e) parent st).seen
        · exact findVisit_found_mono _ e _
            (findVisit_found_mono _ o _ (findEnter_growth _ parent st i h0 hout))
        · exact findVisit_found_mono _ e _ (findVisit_growth _ o _ i h1 h0)
      · exact findVisit_growth _ e _ i hin h1
  case identifierExpression ii name =>
      simp only [findVisit] at hin ⊢
      rw [(findLeave_parts _ _).2.1] at hin
      rw [(findLeave_parts _ _).2.2]
      exact findEnter_growth _ parent st i hin hout
  case literalNumericExpression li v =>
      simp only [findVisit] at hin ⊢
      rw [(findLeave_parts _ _).2.1] at hin
      rw [(findLeave_parts _ _).2.2]
      exact findEnter_growth _ parent st i hin hout
  case literalOther li =>
      simp only [findVisit] at hin ⊢
      rw [(findLeave_parts _ _).2.1] at hin
      rw [(findLeave_parts _ _).2.2]
      exact findEnter_growth _ parent st i hin hout
  case other oi children =>
      simp only [findVisit] at hin ⊢
      rw [(findLeave_parts _ _).2.1] at hin
      rw [(findLeave_parts _ _).2.2]
      by_cases h0 : i ∈ (findEnter (.other oi children) parent st).seen
      · exact findVisitList_found_mono _ children _ (findEnter_growth _ parent st i h0 hout)
      · exact findVisitList_growth _ children _ i hin h0
  termination_by sizeOf node

theorem findVisitList_growth (parent : Node) (nodes : List Node) (st : FindSt) (i : Nat)
    (hin : i ∈ (findVisitList parent nodes st).seen) (hout : i ∉ st.seen) :
    (findVisitList parent nodes st).found = true := by
  cases nodes with
  | nil => exact absurd hin hout
  | cons n ns =>
      simp only [findVisitList] at hin ⊢
      by_cases h1 : i ∈ (findVisit parent n st).seen
      · exact findVisitList_found_mono parent ns _ (findVisit_growth parent n st i h1 hout)
      · exact findVisitList_growth parent ns _ i hin h1
  termination_by sizeOf nodes

theorem findVisitOpt_growth (parent : Node) (node : Option Node) (st : FindSt) (i : Nat)
    (hin : i ∈ (findVisitOpt parent node st).seen) (hout : i ∉ st.seen) :
    (findVisitOpt parent node st).found = true := by
  cases node with
  | none => exact absurd hin hout
  | some n => exact findVisit_growth parent n st i hin hout
  termination_by sizeOf node

theorem findVisitOptList_growth (parent : Node) (nodes : List (Option Node)) (st : FindSt)
    (i : Nat) (hin : i ∈ (findVisitOptList parent nodes st).seen) (hout : i ∉ st.seen) :
    (findVisitOptList parent nodes st).found = true := by
  cases nodes with
  | nil => exact absurd hin hout
  | cons e es =>
      simp only [findVisitOptList] at hin ⊢
      by_cases h1 : i ∈ (findVisitOpt parent e st).seen
      · exact findVisitOptList_found_mono parent es _ (findVisitOpt_growth parent e st i h1 hout)
      · exact findVisitOptList_growth parent es _ i hin h1
  termination_by sizeOf nodes
end

mutual
theorem findVisit_found_of_unseen (parent node : Node) (st : FindSt) (i : Nat)
    (hlad : i ∈ ladNodeIds node) (hunseen : i ∉ st.seen) :
    (findVisit parent node st).found = true := by
  cases node
  case block bi statements =>
      simp only [findVisit]
      rw [(findLeave_parts _ _).2.2]
      simp only [ladNodeIds, kindIds, isLiteralArrayDeclaration, if_false,
        List.nil_append, Bool.false_eq_true] at hlad
      refine findVisitList_found_of_unseen _ statements _ i hlad ?_
      rw [findEnter_scope (.block bi statements) parent st rfl]
      exact hunseen
  case functionBody bi statements =>
      simp only [findVisit]
      rw [(findLeave_parts _ _).2.2]
      simp only [ladNodeIds, kindIds, isLiteralArrayDeclaration, if_false,
        List.nil_append, Bool.false_eq_true] at hlad
      refine findVisitList_found_of_unseen _ statements _ i hlad ?_
      rw [findEnter_scope (.functionBody bi statements) parent st rfl]
      exact hunseen
  case variableDeclarator di b init =>
      simp only [findVisit]
      rw [(findLeave_parts _ _).2.2]
      simp only [ladNodeIds, kindIds, List.mem_append] at hlad
      rcases hlad with (hlad | hlad) | hlad
      · have hLAD : isLiteralArrayDeclaration (.variableDeclarator di b init) = true := by
          by_contra hc
          simp only [Bool.not_eq_true] at hc
          rw [hc] at hlad
          simp at hlad
        have hi : i = di := by
          rw [hLAD] at hlad
          simpa using hlad
        have hdi : di ∉ st.seen := hi ▸ hunseen
        refine findVisitOpt_found_mono _ init _ (findVisit_found_mono _ b _ ?_)
        rw [findEnter_nonscope (.variableDeclarator di b init) parent st rfl]
        rw [if_pos]
        rw [Bool.and_eq_true]
        refine ⟨hLAD, ?_⟩
        simp [Node.getId, hdi]
      · by_cases h1 : i ∈ (findEnter (.variableDeclarator di b init) parent st).seen
        · exact findVisitOpt_found_mono _ init _ (findVisit_found_mono _ b _
            (findEnter_growth _ parent st i h1 hunseen))
        · exact findVisitOpt_found_mono _ init _
            (findVisit_found_of_unseen _ b _ i hlad h1)
      · by_cases h2 : i ∈ (findVisit (.variableDeclarator di b init) b
            (findEnter (.variableDeclarator di b init) parent st)).seen
        · by_cases h1 : i ∈ (findEnter (.variableDeclarator di b init) parent st).seen
          · exact findVisitOpt_found_mono _ init _ (findVisit_found_mono _ b _
              (findEnter_growth _ parent st i h1 hunseen))
          · exact findVisitOpt_found_mono _ init _ (findVisit_growth _ b _ i h2 h1)
        · exact findVisitOpt_found_of_unseen _ init _ i hlad h2
  case bindingIdentifier bi name =>
      simp [ladNodeIds, kindIds, isLiteralArrayDeclaration] at hlad
  case arrayExpression ai elements =>
      simp only [findVisit]
      rw [(findLeave_parts _ _).2.2]
      simp only [ladNodeIds, kindIds, isLiteralArrayDeclaration, if_false,
        List.nil_append, Bool.false_eq_true] at hlad
      refine findVisitOptList_found_of_unseen _ elements _ i hlad ?_
      rw [findEnter_nonscope (.arrayExpression ai elements) parent st rfl]
      simpa [isLiteralArrayDeclaration] using hunseen
  case computedMemberExpression ci o e =>
      simp only [findVisit]
      rw [(findLeave_parts _ _).2.2]
      simp only [ladNodeIds, kindIds, isLiteralArrayDeclaration, if_false,
        List.nil_append, Bool.false_eq_true, List.mem_append] at hlad
      rcases hlad with hlad | hlad
      · by_cases h1 : i ∈ (findEnter (.computedMemberExpression ci o e) parent st).seen
        · exact findVisit_found_mono _ e _ (findVisit_found_mono _ o _
            (findEnter_growth _ parent st i h1 hunseen))
        · exact findVisit_found_mono _ e _ (findVisit_found_of_unseen _ o _ i hlad h1)
      · by_cases h2 : i ∈ (findVisit (.computedMemberExpression ci o e) o
            (findEnter (.computedMemberExpression ci o e) parent st)).seen
        · by_cases h1 : i ∈ (findEnter (.computedMemberExpression ci o e) parent st).seen
          · exact findVisit_found_mono _ e _ (findVisit_found_mono _ o _
              (findEnter_growth _ parent st i h1 hunseen))
          · exact findVisit_found_mono _ e _ (findVisit_growth _ o _ i h2 h1)
        · exact findVisit_found_of_unseen _ e _ i hlad h2
  case identifierExpression ii name =>
      simp [ladNodeIds, kindIds, isLiteralArrayDeclaration] at hlad
  case literalNumericExpression li v =>
      simp [ladNodeIds, kindIds, isLiteralArrayDeclaration] at hlad
  case literalOther li =>
      simp [ladNodeIds, kindIds, isLiteralArrayDeclaration] at hlad
  case other oi children =>
      simp only [findVisit]
      rw [(findLeave_parts _ _).2.2]
      simp only [ladNodeIds, kindIds, isLiteralArrayDeclaration, if_false,
        List.nil_append, Bool.false_eq_true] at hlad
      refine findVisitList_found_of_unseen _ children _ i hlad ?_
      rw [findEnter_nonscope (.other oi children) parent st rfl]
      simpa [isLiteralArrayDeclaration] using hunseen
  termination_by sizeOf node

theorem findVisitList_found_of_unseen (parent : Node) (nodes : List Node) (st : FindSt)
    (i : Nat) (hlad : i ∈ kindIdsList isLiteralArrayDeclaration nodes)
    (hunseen : i ∉ st.seen) : (findVisitList parent nodes st).found = true := by
  cases nodes with
  | nil => simp [kindIdsList] at hlad
  | cons n ns =>
      simp only [findVisitList]
      simp only [kindIdsList, List.mem_append] at hlad
      rcases hlad with hlad | hlad
      · exact findVisitList_found_mono parent ns _
          (findVisit_found_of_unseen parent n st i hlad hunseen)
      · by_cases h1 : i ∈ (findVisit parent n st).seen
        · exact findVisitList_found_mono parent ns _
            (findVisit_growth parent n st i h1 hunseen)
        · exact findVisitList_found_of_unseen parent ns _ i hlad h1
  termination_by sizeOf nodes

theorem findVisitOpt_found_of_unseen (parent : Node) (node : Option Node) (st : FindSt)
    (i : Nat) (hlad : i ∈ kindIdsOpt isLiteralArrayDeclaration node)
    (hunseen : i ∉ st.seen) : (findVisitOpt parent node st).found = true := by
  cases node with
  | none => simp [kindIdsOpt] at hlad
  | some n => exact findVisit_found_of_unseen parent n st i hlad hunseen
  termination_by sizeOf node

theorem findVisitOptList_found_of_unseen (parent : Node) (nodes : List (Option Node))
    (st : FindSt) (i : Nat) (hlad : i ∈ kindIdsOptList isLiteralArrayDeclaration nodes)
    (hunseen : i ∉ st.seen) : (findVisitOptList parent nodes st).found = true := by
  cases nodes with
  | nil => simp [kindIdsOptList] at hlad
  | cons e es =>
      simp only [findVisitOptList]
      simp only [kindIdsOptList, List.mem_append] at hlad
      rcases hlad with hlad | hlad
      · exact findVisitOptList_found_mono parent es _
          (findVisitOpt_found_of_unseen parent e st i hlad hunseen)
      · by_cases h1 : i ∈ (findVisitOpt parent e st).seen
        · exact findVisitOptList_found_mono parent es _
            (findVisitOpt_growth parent e st i h1 hunseen)
        · exact findVisitOptList_found_of_unseen parent es _ i hlad h1
  termination_by sizeOf nodes
end

theorem findEnter_found_src (node parent : Node) (st : FindSt)
    (h : (findEnter node parent st).found = true) :
    st.found = true ∨ (isLiteralArrayDeclaration node = true ∧ node.getId ∉ st.seen) := by
  by_cases hs : isScopeNodeType node = true
  · rw [findEnter_scope node parent st hs] at h
    exact Or.inl h
  · rw [findEnter_nonscope node parent st (by simpa using hs)] at h
    by_cases hg : (isLiteralArrayDeclaration node && !st.seen.contains node.getId) = true
    · rw [Bool.and_eq_true] at hg
      refine Or.inr ⟨hg.1, ?_⟩
      have := hg.2
      simp only [Bool.not_eq_true'] at this
      simpa using this
    · rw [if_neg hg] at h
      exact Or.inl h

mutual
theorem findVisit_found_src (parent node : Node) (st : FindSt)
    (h : (findVisit parent node st).found = true) :
    st.found = true ∨ ∃ i, i ∈ ladNodeIds node ∧ i ∉ st.seen := by
  cases node
  case block bi statements =>
      simp only [findVisit] at h
      rw [(findLeave_parts _ _).2.2] at h
      rcases findVisitList_found_src _ statements _ h with h1 | ⟨i, hl, hs1⟩
      · rw [findEnter_scope (.block bi statements) parent st rfl] at h1
        exact Or.inl h1
      · refine Or.inr ⟨i, ?_, ?_⟩
        · simpa [ladNodeIds, kindIds, isLiteralArrayDeclaration] using hl
        · intro hc
          exact hs1 (findEnter_seen_mono _ parent st i hc)
  case functionBody bi statements =>
      simp only [findVisit] at h
      rw [(findLeave_parts _ _).2.2] at h
      rcases findVisitList_found_src _ statements _ h with h1 | ⟨i, hl, hs1⟩
      · rw [findEnter_scope (.functionBody bi statements) parent st rfl] at h1
        exact Or.inl h1
      · refine Or.inr ⟨i, ?_, ?_⟩
        · simpa [ladNodeIds, kindIds, isLiteralArrayDeclaration] using hl
        · intro hc
          exact hs1 (findEnter_seen_mono _ parent st i hc)
  case variableDeclarator di b init =>
      simp only [findVisit] at h
      rw [(findLeave_parts _ _).2.2] at h
      rcases findVisitOpt_found_src _ init _ h with h2 | ⟨i, hl, hs2⟩
      · rcases findVisit_found_src _ b _ h2 with h1 | ⟨i, hl, hs1⟩
        · rcases findEnter_found_src _ parent st h1 with h0 | ⟨hLAD, hni⟩
          · exact Or.inl h0
          · refine Or.inr ⟨di, ?_, hni⟩
            simp [ladNodeIds, kindIds, hLAD]
        · refine Or.inr ⟨i, ?_, ?_⟩
          · simp only [ladNodeIds, kindIds, List.mem_append]
            left; right
            exact hl
          · intro hc
            exact hs1 (findEnter_seen_mono _ parent st i hc)
      · refine Or.inr ⟨i, ?_, ?_⟩
        · simp only [ladNodeIds, kindIds, List.mem_append]
          right
          exact hl
        · intro hc
          exact hs2 (findVisit_seen_mono _ b _ i (findEnter_seen_mono _ parent st i hc))
  case bindingIdentifier bi name =>
      simp only [findVisit] at h
      rw [(findLeave_parts _ _).2.2] at h
      rcases findEnter_found_src _ parent st h with h0 | ⟨hLAD, hni⟩
      · exact Or.inl h0
      · simp [isLiteralArrayDeclaration] at hLAD
  case arrayExpression ai elements =>
      simp only [findVisit] at h
      rw [(findLeave_parts _ _).2.2] at h
      rcases findVisitOptList_found_src _ elements _ h with h1 | ⟨i, hl, hs1⟩
      · rw [findEnter_nonscope (.arrayExpression ai elements) parent st rfl] at h1
        simp only [isLiteralArrayDeclaration, Bool.false_and, Bool.false_eq_true,
          if_false] at h1
        exact Or.inl h1
      · refine Or.inr ⟨i, ?_, ?_⟩
        · simpa [ladNodeIds, kindIds, isLiteralArrayDeclaration] using hl
        · intro hc
          exact hs1 (findEnter_seen_mono _ parent st i hc)
  case computedMemberExpression ci o e =>
      simp only [findVisit] at h
      rw [(findLeave_parts _ _).2.2] at h
      rcases findVisit_found_src _ e _ h with h2 | ⟨i, hl, hs2⟩
      · rcases findVisit_found_src _ o _ h2 with h1 | ⟨i, hl, hs1⟩
        · rcases findEnter_found_src _ parent st h1 with h0 | ⟨hLAD, hni⟩
          · exact Or.inl h0
          · simp [isLiteralArrayDeclaration] at hLAD
        · refine Or.inr ⟨i, ?_, ?_⟩
          · simp only [ladNodeIds, kindIds, isLiteralArrayDeclaration, if_false,
              List.nil_append, List.mem_append, Bool.false_eq_true]
            left
            exact hl
          · intro hc
            exact hs1 (findEnter_seen_mono _ parent st i hc)
      · refine Or.inr ⟨i, ?_, ?_⟩
        · simp only [ladNodeIds, kindIds, isLiteralArrayDeclaration, if_false,
            List.nil_append, List.mem_append, Bool.false_eq_true]
          right
          exact hl
        · intro hc
          exact hs2 (findVisit_seen_mono _ o _ i (findEnter_seen_mono _ parent st i hc))
  case identifierExpression ii name =>
      simp only [findVisit] at h
      rw [(findLeave_parts _ _).2.2] at h
      rcases findEnter_found_src _ parent st h with h0 | ⟨hLAD, hni⟩
      · exact Or.inl h0
      · simp [isLiteralArrayDeclaration] at hLAD
  case literalNumericExpression li v =>
      simp only [findVisit] at h
      rw [(findLeave_parts _ _).2.2] at h
      rcases findEnter_found_src _ parent st h with h0 | ⟨hLAD, hni⟩
      · exact Or.inl h0
      · simp [isLiteralArrayDeclaration] at hLAD
  case literalOther li =>
      simp only [findVisit] at h
      rw [(findLeave_parts _ _).2.2] at h
      rcases findEnter_found_src _ parent st h with h0 | ⟨hLAD, hni⟩
      · exact Or.inl h0
      · simp [isLiteralArrayDeclaration] at hLAD
  case other oi children =>
      simp only [findVisit] at h
      rw [(findLeave_parts _ _).2.2] at h
      rcases findVisitList_found_src _ children _ h with h1 | ⟨i, hl, hs1⟩
      · rw [findEnter_nonscope (.other oi children) parent st rfl] at h1
        simp only [isLiteralArrayDeclaration, Bool.false_and, Bool.false_eq_true,
          if_false] at h1
        exact Or.inl h1
      · refine Or.inr ⟨i, ?_, ?_⟩
        · simpa [ladNodeIds, kindIds, isLiteralArrayDeclaration] using hl
        · intro hc
          exact hs1 (findEnter_seen_mono _ parent st i hc)
  termination_by sizeOf node

theorem findVisitList_found_src (parent : Node) (nodes : List Node) (st : FindSt)
    (h : (findVisitList parent nodes st).found = true) :
    st.found = true ∨ ∃ i, i ∈ kindIdsList isLiteralArrayDeclaration nodes ∧ i ∉ st.seen := by
  cases nodes with
  | nil => exact Or.inl h
  | cons n ns =>
      simp only [findVisitList] at h
      rcases findVisitList_found_src parent ns _ h with h1 | ⟨i, hl, hs1⟩
      · rcases findVisit_found_src parent n st h1 with h0 | ⟨i, hl, hs0⟩
        · exact Or.inl h0
        · refine Or.inr ⟨i, ?_, hs0⟩
          simp only [kindIdsList, List.mem_append]
          left
          exact hl
      · refine Or.inr ⟨i, ?_, ?_⟩
        · simp only [kindIdsList, List.mem_append]
          right
          exact hl
        · intro hc
          exact hs1 (findVisit_seen_mono parent n st i hc)
  termination_by sizeOf nodes

theorem findVisitOpt_found_src (parent : Node) (node : Option Node) (st : FindSt)
    (h : (findVisitOpt parent node st).found = true) :
    st.found = true ∨ ∃ i, i ∈ kindIdsOpt isLiteralArrayDeclaration node ∧ i ∉ st.seen := by
  cases node with
  | none => exact Or.inl h
  | some n =>
      rcases findVisit_found_src parent n st h with h0 | ⟨i, hl, hs0⟩
      · exact Or.inl h0
      · exact Or.inr ⟨i, hl, hs0⟩
  termination_by sizeOf node

theorem findVisitOptList_found_src (parent : Node) (nodes : List (Option Node)) (st : FindSt)
    (h : (findVisitOptList parent nodes st).found = true) :
    st.found = true ∨
      ∃ i, i ∈ kindIdsOptList isLiteralArrayDeclaration nodes ∧ i ∉ st.seen := by
  cases nodes with
  | nil => exact Or.inl h
  | cons e es =>
      simp only [findVisitOptList] at h
      rcases findVisitOptList_found_src parent es _ h with h1 | ⟨i, hl, hs1⟩
      · rcases findVisitOpt_found_src parent e st h1 with h0 | ⟨i, hl, hs0⟩
        · exact Or.inl h0
        · refine Or.inr ⟨i, ?_, hs0⟩
          simp only [kindIdsOptList, List.mem_append]
          left
          exact hl
      · refine Or.inr ⟨i, ?_, ?_⟩
        · simp only [kindIdsOptList, List.mem_append]
          right
          exact hl
        · intro hc
          exact hs1 (findVisitOpt_seen_mono parent e st i hc)
  termination_by sizeOf nodes
end

/-! ## Kind-predicate bookkeeping -/

theorem declNodeIds_eq_kindIds (t : Node) : declNodeIds t = kindIds isDeclaratorKind t := by
  have h : ∀ g : Node → Bool, g = isDeclaratorKind → kindIds g t = kindIds isDeclaratorKind t :=
    fun g hg => by rw [hg]
  exact h _ (by funext n; cases n <;> rfl)

theorem arrayExprIds_eq_kindIds (t : Node) : arrayExprIds t = kindIds arrKind t := by
  have h : ∀ g : Node → Bool, g = arrKind → kindIds g t = kindIds arrKind t :=
    fun g hg => by rw [hg]
  exact h _ (by funext n; cases n <;> rfl)

theorem nonLitIds_eq_kindIds (t : Node) : nonLitIds t = kindIds nonLitKind t := by
  have h : ∀ g : Node → Bool, g = nonLitKind → kindIds g t = kindIds nonLitKind t :=
    fun g hg => by rw [hg]
  exact h _ (by funext n; cases n <;> rfl)

theorem nonLitNonArrayIds_eq_kindIds (t : Node) :
    nonLitNonArrayIds t = kindIds nonLitNonArrKind t := by
  have h : ∀ g : Node → Bool, g = nonLitNonArrKind → kindIds g t = kindIds nonLitNonArrKind t :=
    fun g hg => by rw [hg]
  exact h _ (by funext n; cases n <;> rfl)

theorem contains_iff_mem (l : List Nat) (a : Nat) : l.contains a = true ↔ a ∈ l := by
  simp

theorem mem_if_singleton {x i : Nat} {b c : Bool} (h : b = true → c = true)
    (hx : x ∈ if b = true then [i] else ([] : List Nat)) :
    x ∈ if c = true then [i] else ([] : List Nat) := by
  by_cases hb : b = true
  · rw [if_pos hb] at hx
    rw [if_pos (h hb)]
    exact hx
  · rw [if_neg hb] at hx
    exact absurd hx (List.not_mem_nil x)

mutual
theorem kindIds_mono (f g : Node → Bool) (hfg : ∀ n, f n = true → g n = true) (t : Node)
    (x : Nat) (hx : x ∈ kindIds f t) : x ∈ kindIds g t := by
  cases t
  case block i statements =>
      simp only [kindIds, List.mem_append] at hx ⊢
      rcases hx with hx | hx
      · exact Or.inl (mem_if_singleton (hfg _) hx)
      · exact Or.inr (kindIdsList_mono f g hfg statements x hx)
  case functionBody i statements =>
      simp only [kindIds, List.mem_append] at hx ⊢
      rcases hx with hx | hx
      · exact Or.inl (mem_if_singleton (hfg _) hx)
      · exact Or.inr (kindIdsList_mono f g hfg statements x hx)
  case variableDeclarator i b init =>
      simp only [kindIds, List.mem_append] at hx ⊢
      rcases hx with (hx | hx) | hx
      · exact Or.inl (Or.inl (mem_if_singleton (hfg _) hx))
      · exact Or.inl (Or.inr (kindIds_mono f g hfg b x hx))
      · exact Or.inr (kindIdsOpt_mono f g hfg init x hx)
  case bindingIdentifier i name =>
      simp only [kindIds] at hx ⊢
      exact mem_if_singleton (hfg _) hx
  case arrayExpression i elements =>
      simp only [kindIds, List.mem_append] at hx ⊢
      rcases hx with hx | hx
      · exact Or.inl (mem_if_singleton (hfg _) hx)
      · exact Or.inr (kindIdsOptList_mono f g hfg elements x hx)
  case computedMemberExpression i o e =>
      simp only [kindIds, List.mem_append] at hx ⊢
      rcases hx with (hx | hx) | hx
      · exact Or.inl (Or.inl (mem_if_singleton (hfg _) hx))
      · exact Or.inl (Or.inr (kindIds_mono f g hfg o x hx))
      · exact Or.inr (kindIds_mono f g hfg e x hx)
  case identifierExpression i name =>
      simp only [kindIds] at hx ⊢
      exact mem_if_singleton (hfg _) hx
  case literalNumericExpression i v =>
      simp only [kindIds] at hx ⊢
      exact mem_if_singleton (hfg _) hx
  case literalOther i =>
      simp only [kindIds] at hx ⊢
      exact mem_if_singleton (hfg _) hx
  case other i children =>
      simp only [kindIds, List.mem_append] at hx ⊢
      rcases hx with hx | hx
      · exact Or.inl (mem_if_singleton (hfg _) hx)
      · exact Or.inr (kindIdsList_mono f g hfg children x hx)
  termination_by sizeOf t

theorem kindIdsList_mono (f g : Node → Bool) (hfg : ∀ n, f n = true → g n = true)
    (l : List Node) (x : Nat) (hx : x ∈ kindIdsList f l) : x ∈ kindIdsList g l := by
  cases l with
  | nil => simpa [kindIdsList] using hx
  | cons n ns =>
      simp only [kindIdsList, List.mem_append] at hx ⊢
      rcases hx with hx | hx
      · exact Or.inl (kindIds_mono f g hfg n x hx)
      · exact Or.inr (kindIdsList_mono f g hfg ns x hx)
  termination_by sizeOf l

theorem kindIdsOpt_mono (f g : Node → Bool) (hfg : ∀ n, f n = true → g n = true)
    (o : Option Node) (x : Nat) (hx : x ∈ kindIdsOpt f o) : x ∈ kindIdsOpt g o := by
  cases o with
  | none => simpa [kindIdsOpt] using hx
  | some n => exact kindIds_mono f g hfg n x hx
  termination_by sizeOf o

theorem kindIdsOptList_mono (f g : Node → Bool) (hfg : ∀ n, f n = true → g n = true)
    (l : List (Option Node)) (x : Nat) (hx : x ∈ kindIdsOptList f l) :
    x ∈ kindIdsOptList g l := by
  cases l with
  | nil => simpa [kindIdsOptList] using hx
  | cons e es =>
      simp only [kindIdsOptList, List.mem_append] at hx ⊢
      rcases hx with hx | hx
      · exact Or.inl (kindIdsOpt_mono f g hfg e x hx)
      · exact Or.inr (kindIdsOptList_mono f g hfg es x hx)
  termination_by sizeOf l
end

theorem kindIdsList_sublist (f : Node → Bool) {l₁ l₂ : List Node} (h : List.Sublist l₁ l₂) :
    List.Sublist (kindIdsList f l₁) (kindIdsList f l₂) := by
  induction h with
  | slnil => exact List.Sublist.refl _
  | cons a h ih => exact ih.trans (List.sublist_append_right _ _)
  | cons₂ a h ih => exact List.Sublist.append (List.Sublist.refl _) ih

theorem kindIdsOptList_sublist (f : Node → Bool) {l₁ l₂ : List (Option Node)} (h : List.Sublist l₁ l₂) :
    List.Sublist (kindIdsOptList f l₁) (kindIdsOptList f l₂) := by
  induction h with
  | slnil => exact List.Sublist.refl _
  | cons a h ih => exact ih.trans (List.sublist_append_right _ _)
  | cons₂ a h ih => exact List.Sublist.append (List.Sublist.refl _) ih

theorem pruneChildren_sublist (p n i : Nat) (l : List Node) :
    List.Sublist (pruneChildren p n i l) l := by
  unfold pruneChildren
  by_cases h : i = p
  · rw [if_pos h]
    exact List.filter_sublist _
  · rw [if_neg h]

theorem pruneElements_sublist (p n i : Nat) (l : List (Option Node)) :
    List.Sublist (pruneElements p n i l) l := by
  unfold pruneElements
  by_cases h : i = p
  · rw [if_pos h]
    exact List.filter_sublist _
  · rw [if_neg h]

theorem pruneInit_kindIds_sublist (f : Node → Bool) (p n i : Nat) (o : Option Node) :
    List.Sublist (kindIdsOpt f (pruneInit p n i o)) (kindIdsOpt f o) := by
  unfold pruneInit
  by_cases h : i = p
  · rw [if_pos h]
    cases o with
    | none => exact List.Sublist.refl _
    | some c =>
        show List.Sublist (kindIdsOpt f (if c.getId = n then none else some c))
          (kindIdsOpt f (some c))
        by_cases hc : c.getId = n
        · rw [if_pos hc]
          exact List.nil_sublist _
        · rw [if_neg hc]
  · rw [if_neg h]

theorem filter_mono_pred {α : Type} (p q : α → Bool) (h : ∀ a, p a = true → q a = true)
    (l : List α) : List.Sublist (l.filter p) (l.filter q) := by
  induction l with
  | nil => exact List.Sublist.refl _
  | cons a as ih =>
      by_cases hp : p a = true
      · rw [List.filter_cons_of_pos hp, List.filter_cons_of_pos (h a hp)]
        exact List.Sublist.cons₂ a ih
      · rw [List.filter_cons_of_neg (by simpa using hp)]
        by_cases hq : q a = true
        · rw [List.filter_cons_of_pos hq]
          exact ih.trans (List.sublist_cons_self a _)
        · rw [List.filter_cons_of_neg (by simpa using hq)]
          exact ih

theorem length_lt_of_sublist_missing {α : Type} {l₁ l₂ : List α} {x : α}
    (h : List.Sublist l₁ l₂)
    (hx : x ∈ l₂) (hnx : x ∉ l₁) : l₁.length < l₂.length := by
  rcases Nat.lt_or_ge l₁.length l₂.length with hlt | hge
  · exact hlt
  · have heq := h.eq_of_length_le hge
    subst heq
    exact absurd hx hnx

theorem isLiteralExprType_removeNode (p n : Nat) (c : Node) :
    isLiteralExprType (removeNode p n c) = isLiteralExprType c := by
  cases c <;> rfl

theorem elementsAllLiteralish_removeNodeOptList (p n : Nat) (l : List (Option Node)) :
    elementsAllLiteralish (removeNodeOptList p n l) = elementsAllLiteralish l := by
  induction l with
  | nil => rfl
  | cons e es ih =>
      cases e with
      | none =>
          simp only [removeNodeOptList, removeNodeOpt, elementsAllLiteralish,
            List.all_cons] at ih ⊢
          rw [ih]
      | some c =>
          simp only [removeNodeOptList, removeNodeOpt, elementsAllLiteralish,
            List.all_cons] at ih ⊢
          rw [ih, isLiteralExprType_removeNode]

mutual
theorem removeNode_kindIds (p n : Nat) (f : Node → Bool)
    (hb : ∀ (i : Nat) (l l' : List Node), f (.block i l) = f (.block i l'))
    (hfb : ∀ (i : Nat) (l l' : List Node), f (.functionBody i l) = f (.functionBody i l'))
    (hvd : ∀ (i : Nat) (b b' : Node) (o o' : Option Node),
      f (.variableDeclarator i b o) = f (.variableDeclarator i b' o'))
    (har : ∀ (i : Nat) (l l' : List (Option Node)),
      f (.arrayExpression i l) = f (.arrayExpression i l'))
    (hcm : ∀ (i : Nat) (a a' b b' : Node),
      f (.computedMemberExpression i a b) = f (.computedMemberExpression i a' b'))
    (hot : ∀ (i : Nat) (l l' : List Node), f (.other i l) = f (.other i l'))
    (t : Node) : List.Sublist (kindIds f (removeNode p n t)) (kindIds f t) := by
  cases t
  case block i statements =>
      simp only [removeNode, kindIds]
      rw [hb i (pruneChildren p n i (removeNodeList p n statements)) statements]
      exact List.Sublist.append (List.Sublist.refl _)
        ((kindIdsList_sublist f (pruneChildren_sublist p n i _)).trans
          (removeNodeList_kindIds p n f hb hfb hvd har hcm hot statements))
  case functionBody i statements =>
      simp only [removeNode, kindIds]
      rw [hfb i (pruneChildren p n i (removeNodeList p n statements)) statements]
      exact List.Sublist.append (List.Sublist.refl _)
        ((kindIdsList_sublist f (pruneChildren_sublist p n i _)).trans
          (removeNodeList_kindIds p n f hb hfb hvd har hcm hot statements))
  case variableDeclarator i b init =>
      simp only [removeNode, kindIds]
      rw [hvd i (removeNode p n b) b (pruneInit p n i (removeNodeOpt p n init)) init]
      exact List.Sublist.append
        (List.Sublist.append (List.Sublist.refl _)
          (removeNode_kindIds p n f hb hfb hvd har hcm hot b))
        ((pruneInit_kindIds_sublist f p n i _).trans
          (removeNodeOpt_kindIds p n f hb hfb hvd har hcm hot init))
  case bindingIdentifier i name =>
      simp only [removeNode]
      exact List.Sublist.refl _
  case arrayExpression i elements =>
      simp only [removeNode, kindIds]
      rw [har i (pruneElements p n i (removeNodeOptList p n elements)) elements]
      exact List.Sublist.append (List.Sublist.refl _)
        ((kindIdsOptList_sublist f (pruneElements_sublist p n i _)).trans
          (removeNodeOptList_kindIds p n f hb hfb hvd har hcm hot elements))
  case computedMemberExpression i o e =>
      simp only [removeNode, kindIds]
      rw [hcm i (removeNode p n o) o (removeNode p n e) e]
      exact List.Sublist.append
        (List.Sublist.append (List.Sublist.refl _)
          (removeNode_kindIds p n f hb hfb hvd har hcm hot o))
        (removeNode_kindIds p n f hb hfb hvd har hcm hot e)
  case identifierExpression i name =>
      simp only [removeNode]
      exact List.Sublist.refl _
  case literalNumericExpression i v =>
      simp only [removeNode]
      exact List.Sublist.refl _
  case literalOther i =>
      simp only [removeNode]
      exact List.Sublist.refl _
  case other i children =>
      simp only [removeNode, kindIds]
      rw [hot i (pruneChildren p n i (removeNodeList p n children)) children]
      exact List.Sublist.append (List.Sublist.refl _)
        ((kindIdsList_sublist f (pruneChildren_sublist p n i _)).trans
          (removeNodeList_kindIds p n f hb hfb hvd har hcm hot children))
  termination_by sizeOf t

theorem removeNodeList_kindIds (p n : Nat) (f : Node → Bool)
    (hb : ∀ (i : Nat) (l l' : List Node), f (.block i l) = f (.block i l'))
    (hfb : ∀ (i : Nat) (l l' : List Node), f (.functionBody i l) = f (.functionBody i l'))
    (hvd : ∀ (i : Nat) (b b' : Node) (o o' : Option Node),
      f (.variableDeclarator i b o) = f (.variableDeclarator i b' o'))
    (har : ∀ (i : Nat) (l l' : List (Option Node)),
      f (.arrayExpression i l) = f (.arrayExpression i l'))
    (hcm : ∀ (i : Nat) (a a' b b' : Node),
      f (.computedMemberExpression i a b) = f (.computedMemberExpression i a' b'))
    (hot : ∀ (i : Nat) (l l' : List Node), f (.other i l) = f (.other i l'))
    (l : List Node) :
    List.Sublist (kindIdsList f (removeNodeList p n l)) (kindIdsList f l) := by
  cases l with
  | nil => exact List.Sublist.refl _
  | cons c cs =>
      simp only [removeNodeList, kindIdsList]
      exact List.Sublist.append (removeNode_kindIds p n f hb hfb hvd har hcm hot c)
        (removeNodeList_kindIds p n f hb hfb hvd har hcm hot cs)
  termination_by sizeOf l

theorem removeNodeOpt_kindIds (p n : Nat) (f : Node → Bool)
    (hb : ∀ (i : Nat) (l l' : List Node), f (.block i l) = f (.block i l'))
    (hfb : ∀ (i : Nat) (l l' : List Node), f (.functionBody i l) = f (.functionBody i l'))
    (hvd : ∀ (i : Nat) (b b' : Node) (o o' : Option Node),
      f (.variableDeclarator i b o) = f (.variableDeclarator i b' o'))
    (har : ∀ (i : Nat) (l l' : List (Option Node)),
      f (.arrayExpression i l) = f (.arrayExpression i l'))
    (hcm : ∀ (i : Nat) (a a' b b' : Node),
      f (.computedMemberExpression i a b) = f (.computedMemberExpression i a' b'))
    (hot : ∀ (i : Nat) (l l' : List Node), f (.other i l) = f (.other i l'))
    (o : Option Node) :
    List.Sublist (kindIdsOpt f (removeNodeOpt p n o)) (kindIdsOpt f o) := by
  cases o with
  | none => exact List.Sublist.refl _
  | some c => exact removeNode_kindIds p n f hb hfb hvd har hcm hot c
  termination_by sizeOf o

theorem removeNodeOptList_kindIds (p n : Nat) (f : Node → Bool)
    (hb : ∀ (i : Nat) (l l' : List Node), f (.block i l) = f (.block i l'))
    (hfb : ∀ (i : Nat) (l l' : List Node), f (.functionBody i l) = f (.functionBody i l'))
    (hvd : ∀ (i : Nat) (b b' : Node) (o o' : Option Node),
      f (.variableDeclarator i b o) = f (.variableDeclarator i b' o'))
    (har : ∀ (i : Nat) (l l' : List (Option Node)),
      f (.arrayExpression i l) = f (.arrayExpression i l'))
    (hcm : ∀ (i : Nat) (a a' b b' : Node),
      f (.computedMemberExpression i a b) = f (.computedMemberExpression i a' b'))
    (hot : ∀ (i : Nat) (l l' : List Node), f (.other i l) = f (.other i l'))
    (l : List (Option Node)) :
    List.Sublist (kindIdsOptList f (removeNodeOptList p n l)) (kindIdsOptList f l) := by
  cases l with
  | nil => exact List.Sublist.refl _
  | cons e es =>
      simp only [removeNodeOptList, kindIdsOptList]
      exact List.Sublist.append (removeNodeOpt_kindIds p n f hb hfb hvd har hcm hot e)
        (removeNodeOptList_kindIds p n f hb hfb hvd har hcm hot es)
  termination_by sizeOf l
end

theorem removeNode_arrIds (p n : Nat) (t : Node) :
    List.Sublist (arrayExprIds (removeNode p n t)) (arrayExprIds t) := by
  rw [arrayExprIds_eq_kindIds, arrayExprIds_eq_kindIds]
  exact removeNode_kindIds p n arrKind (fun _ _ _ => rfl) (fun _ _ _ => rfl)
    (fun _ _ _ _ _ => rfl) (fun _ _ _ => rfl) (fun _ _ _ _ _ => rfl) (fun _ _ _ => rfl) t

mutual
theorem removeNode_lads (p n : Nat) (t : Node) (x : Nat)
    (hp : p ∉ kindIds arrKind t)
    (hx : x ∈ kindIds isLiteralArrayDeclaration (removeNode p n t)) :
    x ∈ kindIds isLiteralArrayDeclaration t := by
  cases t
  case block i statements =>
      have hpl : p ∉ kindIdsList arrKind statements := by
        intro hmem
        exact hp (by simp only [kindIds, List.mem_append]; exact Or.inr hmem)
      simp only [removeNode, kindIds, isLiteralArrayDeclaration, Bool.false_eq_true,
        if_false, List.nil_append] at hx ⊢
      exact removeNodeList_lads p n statements x hpl
        ((kindIdsList_sublist isLiteralArrayDeclaration
          (pruneChildren_sublist p n i _)).subset hx)
  case functionBody i statements =>
      have hpl : p ∉ kindIdsList arrKind statements := by
        intro hmem
        exact hp (by simp only [kindIds, List.mem_append]; exact Or.inr hmem)
      simp only [removeNode, kindIds, isLiteralArrayDeclaration, Bool.false_eq_true,
        if_false, List.nil_append] at hx ⊢
      exact removeNodeList_lads p n statements x hpl
        ((kindIdsList_sublist isLiteralArrayDeclaration
          (pruneChildren_sublist p n i _)).subset hx)
  case variableDeclarator i b init =>
      have hpb : p ∉ kindIds arrKind b := by
        intro hmem
        refine hp ?_
        simp only [kindIds, List.mem_append]
        exact Or.inl (Or.inr hmem)
      have hpo : p ∉ kindIdsOpt arrKind init := by
        intro hmem
        refine hp ?_
        simp only [kindIds, List.mem_append]
        exact Or.inr hmem
      simp only [removeNode, kindIds, List.mem_append] at hx ⊢
      rcases hx with (hx | hx) | hx
      · refine Or.inl (Or.inl (mem_if_singleton ?_ hx))
        intro hLAD
        have hcases : pruneInit p n i (removeNodeOpt p n init) = none ∨
            pruneInit p n i (removeNodeOpt p n init) = removeNodeOpt p n init := by
          unfold pruneInit
          by_cases hip : i = p
          · rw [if_pos hip]
            cases hro : removeNodeOpt p n init with
            | none => exact Or.inl rfl
            | some c =>
                show (if c.getId = n then none else some c) = none ∨
                  (if c.getId = n then none else some c) = some c
                by_cases hgn : c.getId = n
                · rw [if_pos hgn]
                  exact Or.inl rfl
                · rw [if_neg hgn]
                  exact Or.inr rfl
          · rw [if_neg hip]
            exact Or.inr rfl
        cases b
        case bindingIdentifier bi name =>
            rcases hcases with hcase | hcase
            · rw [hcase] at hLAD
              simp [isLiteralArrayDeclaration, removeNode] at hLAD
            · rw [hcase] at hLAD
              cases init with
              | none => simp [isLiteralArrayDeclaration, removeNodeOpt] at hLAD
              | some c =>
                  cases c
                  case arrayExpression ai els =>
                      have hne : ai ≠ p := by
                        intro heq
                        refine hpo ?_
                        rw [← heq]
                        simp [kindIdsOpt, kindIds, arrKind]
                      simp only [removeNodeOpt, removeNode, isLiteralArrayDeclaration] at hLAD
                      rw [pruneElements, if_neg hne,
                        elementsAllLiteralish_removeNodeOptList] at hLAD
                      simpa [isLiteralArrayDeclaration] using hLAD
                  all_goals simp [isLiteralArrayDeclaration, removeNodeOpt, removeNode] at hLAD
        all_goals simp [isLiteralArrayDeclaration, removeNode] at hLAD
      · exact Or.inl (Or.inr (removeNode_lads p n b x hpb hx))
      · refine Or.inr (removeNodeOpt_lads p n init x hpo ?_)
        exact (pruneInit_kindIds_sublist isLiteralArrayDeclaration p n i _).subset hx
  case bindingIdentifier i name =>
      simpa only [removeNode] using hx
  case arrayExpression i elements =>
      have hpl : p ∉ kindIdsOptList arrKind elements := by
        intro hmem
        exact hp (by simp only [kindIds, List.mem_append]; exact Or.inr hmem)
      simp only [removeNode, kindIds, isLiteralArrayDeclaration, Bool.false_eq_true,
        if_false, List.nil_append] at hx ⊢
      exact removeNodeOptList_lads p n elements x hpl
        ((kindIdsOptList_sublist isLiteralArrayDeclaration
          (pruneElements_sublist p n i _)).subset hx)
  case computedMemberExpression i o e =>
      have hpa : p ∉ kindIds arrKind o := by
        intro hmem
        refine hp ?_
        simp only [kindIds, List.mem_append]
        exact Or.inl (Or.inr hmem)
      have hpe : p ∉ kindIds arrKind e := by
        intro hmem
        refine hp ?_
        simp only [kindIds, List.mem_append]
        exact Or.inr hmem
      simp only [removeNode, kindIds, isLiteralArrayDeclaration, Bool.false_eq_true,
        if_false, List.nil_append, List.mem_append] at hx ⊢
      rcases hx with hx | hx
      · exact Or.inl (removeNode_lads p n o x hpa hx)
      · exact Or.inr (removeNode_lads p n e x hpe hx)
  case identifierExpression i name =>
      simpa only [removeNode] using hx
  case literalNumericExpression i v =>
      simpa only [removeNode] using hx
  case literalOther i =>
      simpa only [removeNode] using hx
  case other i children =>
      have hpl : p ∉ kindIdsList arrKind children := by
        intro hmem
        exact hp (by simp only [kindIds, List.mem_append]; exact Or.inr hmem)
      simp only [removeNode, kindIds, isLiteralArrayDeclaration, Bool.false_eq_true,
        if_false, List.nil_append] at hx ⊢
      exact removeNodeList_lads p n children x hpl
        ((kindIdsList_sublist isLiteralArrayDeclaration
          (pruneChildren_sublist p n i _)).subset hx)
  termination_by sizeOf t

theorem removeNodeList_lads (p n : Nat) (l : List Node) (x : Nat)
    (hp : p ∉ kindIdsList arrKind l)
    (hx : x ∈ kindIdsList isLiteralArrayDeclaration (removeNodeList p n l)) :
    x ∈ kindIdsList isLiteralArrayDeclaration l := by
  cases l with
  | nil => simpa [removeNodeList] using hx
  | cons c cs =>
      have hpc : p ∉ kindIds arrKind c := by
        intro hmem
        exact hp (by simp only [kindIdsList, List.mem_append]; exact Or.inl hmem)
      have hpcs : p ∉ kindIdsList arrKind cs := by
        intro hmem
        exact hp (by simp only [kindIdsList, List.mem_append]; exact Or.inr hmem)
      simp only [removeNodeList, kindIdsList, List.mem_append] at hx ⊢
      rcases hx with hx | hx
      · exact Or.inl (removeNode_lads p n c x hpc hx)
      · exact Or.inr (removeNodeList_lads p n cs x hpcs hx)
  termination_by sizeOf l

theorem removeNodeOpt_lads (p n : Nat) (o : Option Node) (x : Nat)
    (hp : p ∉ kindIdsOpt arrKind o)
    (hx : x ∈ kindIdsOpt isLiteralArrayDeclaration (removeNodeOpt p n o)) :
    x ∈ kindIdsOpt isLiteralArrayDeclaration o := by
  cases o with
  | none => simpa [removeNodeOpt] using hx
  | some c => exact removeNode_lads p n c x hp hx
  termination_by sizeOf o

theorem removeNodeOptList_lads (p n : Nat) (l : List (Option Node)) (x : Nat)
    (hp : p ∉ kindIdsOptList arrKind l)
    (hx : x ∈ kindIdsOptList isLiteralArrayDeclaration (removeNodeOptList p n l)) :
    x ∈ kindIdsOptList isLiteralArrayDeclaration l := by
  cases l with
  | nil => simpa [removeNodeOptList] using hx
  | cons e es =>
      have hpe : p ∉ kindIdsOpt arrKind e := by
        intro hmem
        exact hp (by simp only [kindIdsOptList, List.mem_append]; exact Or.inl hmem)
      have hpes : p ∉ kindIdsOptList arrKind es := by
        intro hmem
        exact hp (by simp only [kindIdsOptList, List.mem_append]; exact Or.inr hmem)
      simp only [removeNodeOptList, kindIdsOptList, List.mem_append] at hx ⊢
      rcases hx with hx | hx
      · exact Or.inl (removeNodeOpt_lads p n e x hpe hx)
      · exact Or.inr (removeNodeOptList_lads p n es x hpes hx)
  termination_by sizeOf l
end

theorem removeNode_ladNodeIds (p n : Nat) (t : Node) (x : Nat) (hp : p ∉ arrayExprIds t)
    (hx : x ∈ ladNodeIds (removeNode p n t)) : x ∈ ladNodeIds t := by
  rw [arrayExprIds_eq_kindIds] at hp
  exact removeNode_lads p n t x hp hx

theorem applyRemoval_arrIds (arrays : List ArrayDescr) (t : Node) (a x : Nat)
    (hx : x ∈ arrayExprIds (applyRemoval arrays t a)) : x ∈ arrayExprIds t := by
  unfold applyRemoval at hx
  cases hg : arrays.get? a with
  | none =>
      rw [hg] at hx
      exact hx
  | some d =>
      rw [hg] at hx
      have hx' : x ∈ arrayExprIds
          (if 0 < d.replaceCount then removeNode d.parentId d.nodeId t else t) := hx
      by_cases hc : 0 < d.replaceCount
      · rw [if_pos hc] at hx'
        exact (removeNode_arrIds d.parentId d.nodeId t).subset hx'
      · rw [if_neg hc] at hx'
        exact hx'

theorem applyRemoval_lads (arrays : List ArrayDescr) (t : Node) (a x : Nat)
    (hinv : ∀ d ∈ arrays, d.parentId ∉ arrayExprIds t)
    (hx : x ∈ ladNodeIds (applyRemoval arrays t a)) : x ∈ ladNodeIds t := by
  unfold applyRemoval at hx
  cases hg : arrays.get? a with
  | none =>
      rw [hg] at hx
      exact hx
  | some d =>
      rw [hg] at hx
      have hx' : x ∈ ladNodeIds
          (if 0 < d.replaceCount then removeNode d.parentId d.nodeId t else t) := hx
      by_cases hc : 0 < d.replaceCount
      · rw [if_pos hc] at hx'
        exact removeNode_ladNodeIds d.parentId d.nodeId t x
          (hinv d (List.get?_mem hg)) hx'
      · rw [if_neg hc] at hx'
        exact hx'

theorem foldl_removal_arrIds (arrays : List ArrayDescr) :
    ∀ (L : List Nat) (t : Node) (x : Nat),
      x ∈ arrayExprIds (L.foldl (applyRemoval arrays) t) → x ∈ arrayExprIds t := by
  intro L
  induction L with
  | nil => intro t x hx; exact hx
  | cons a as ih =>
      intro t x hx
      simp only [List.foldl_cons] at hx
      exact applyRemoval_arrIds arrays t a x (ih _ x hx)

theorem foldl_removal_lads (arrays : List ArrayDescr) :
    ∀ (L : List Nat) (t : Node) (x : Nat),
      (∀ d ∈ arrays, d.parentId ∉ arrayExprIds t) →
      x ∈ ladNodeIds (L.foldl (applyRemoval arrays) t) → x ∈ ladNodeIds t := by
  intro L
  induction L with
  | nil => intro t x _ hx; exact hx
  | cons a as ih =>
      intro t x hinv hx
      simp only [List.foldl_cons] at hx
      have hinv' : ∀ d ∈ arrays, d.parentId ∉ arrayExprIds (applyRemoval arrays t a) :=
        fun d hd hmem => hinv d hd (applyRemoval_arrIds arrays t a _ hmem)
      exact applyRemoval_lads arrays t a x hinv (ih _ x hinv' hx)

theorem map_set_eq_of_image {α β : Type} (f : α → β) :
    ∀ (l : List α) (i : Nat) (a b : α), l.get? i = some a → f b = f a →
      (l.set i b).map f = l.map f := by
  intro l
  induction l with
  | nil =>
      intro i a b h _
      simp at h
  | cons x xs ih =>
      intro i a b h hf
      cases i with
      | zero =>
          have hx : x = a := Option.some.inj h
          subst hx
          simp [List.set, hf]
      | succ j =>
          have hj : xs.get? j = some a := h
          simp only [List.set, List.map_cons]
          rw [ih j a b hj hf]

theorem unpackEnter_core (stack : List ScopeTree) (arrays : List ArrayDescr) (node : Node) :
    ((unpackEnter stack arrays node).2.1).map descrCore = arrays.map descrCore := by
  cases node <;> try rfl
  case computedMemberExpression i o e =>
      cases o <;> try rfl
      case identifierExpression oi name =>
        cases e <;> try rfl
        case literalNumericExpression ei value =>
          unfold unpackEnter
          repeat' split
          all_goals try rfl
          all_goals rename_i d hd x r he
          all_goals exact map_set_eq_of_image descrCore arrays _ d _ hd rfl

theorem unpackEnter_false (stack : List ScopeTree) (arrays : List ArrayDescr) (node : Node)
    (h : (unpackEnter stack arrays node).2.2 = false) :
    (unpackEnter stack arrays node).1 = node ∧ (unpackEnter stack arrays node).2.1 = arrays := by
  revert h
  cases node <;> try exact fun _ => ⟨rfl, rfl⟩
  case computedMemberExpression i o e =>
      cases o <;> try exact fun _ => ⟨rfl, rfl⟩
      case identifierExpression oi name =>
        cases e <;> try exact fun _ => ⟨rfl, rfl⟩
        case literalNumericExpression ei value =>
          unfold unpackEnter
          repeat' split
          all_goals intro h
          all_goals try simp at h
          all_goals injections
          all_goals subst_vars
          all_goals exact ⟨rfl, rfl⟩

theorem unpackEnter_lit (stack : List ScopeTree) (arrays : List ArrayDescr) (node : Node)
    (hlit : descrsLit arrays) (h : (unpackEnter stack arrays node).2.2 = true) :
    isLiteralExprType (unpackEnter stack arrays node).1 = true := by
  cases node
  case computedMemberExpression i o e =>
      cases o
      case identifierExpression oi name =>
        cases e
        case literalNumericExpression ei value =>
          revert h
          unfold unpackEnter
          repeat' split
          all_goals intro h
          all_goals injections
          all_goals subst_vars
          all_goals try simp at h
          all_goals try (rename_i hno x2 p hs x1 d hd x r he; exact absurd rfl (hno i oi name ei value))
          all_goals rename_i d hd x r he
          all_goals have hres := List.all_eq_true.mp (hlit d (List.get?_mem hd)) (some r) (List.get?_mem he)
          all_goals exact hres
        all_goals exact absurd h (by simp [unpackEnter])
      all_goals exact absurd h (by simp [unpackEnter])
  all_goals exact absurd h (by simp [unpackEnter])

mutual
theorem unpackVisit_core (stack : List ScopeTree) (node : Node) (arrays : List ArrayDescr) :
    ((unpackVisit stack node arrays).2).map descrCore = arrays.map descrCore := by
  cases node
  case block i statements =>
      simp only [unpackVisit]
      exact unpackVisitList_core _ statements arrays
  case functionBody i statements =>
      simp only [unpackVisit]
      exact unpackVisitList_core _ statements arrays
  case variableDeclarator i b init =>
      simp only [unpackVisit]
      rw [unpackVisitOpt_core stack init _, unpackVisit_core stack b arrays]
  case bindingIdentifier i name => rfl
  case arrayExpression i elements =>
      simp only [unpackVisit]
      exact unpackVisitOptList_core stack elements arrays
  case computedMemberExpression i o e =>
      simp only [unpackVisit]
      rcases hu : unpackEnter stack arrays (.computedMemberExpression i o e) with ⟨r, a2, flag⟩
      cases flag
      · show ((unpackVisit stack e (unpackVisit stack o arrays).2).2).map descrCore =
          arrays.map descrCore
        rw [unpackVisit_core stack e _, unpackVisit_core stack o arrays]
      · show a2.map descrCore = arrays.map descrCore
        have hc := unpackEnter_core stack arrays (.computedMemberExpression i o e)
        rw [hu] at hc
        exact hc
  case identifierExpression i name => rfl
  case literalNumericExpression i v => rfl
  case literalOther i => rfl
  case other i children =>
      simp only [unpackVisit]
      exact unpackVisitList_core stack children arrays
  termination_by sizeOf node

theorem unpackVisitList_core (stack : List ScopeTree) (nodes : List Node)
    (arrays : List ArrayDescr) :
    ((unpackVisitList stack nodes arrays).2).map descrCore = arrays.map descrCore := by
  cases nodes with
  | nil => rfl
  | cons n ns =>
      simp only [unpackVisitList]
      rw [unpackVisitList_core stack ns _, unpackVisit_core stack n arrays]
  termination_by sizeOf nodes

theorem unpackVisitOpt_core (stack : List ScopeTree) (node : Option Node)
    (arrays : List ArrayDescr) :
    ((unpackVisitOpt stack node arrays).2).map descrCore = arrays.map descrCore := by
  cases node with
  | none => rfl
  | some n =>
      simp only [unpackVisitOpt]
      exact unpackVisit_core stack n arrays
  termination_by sizeOf node

theorem unpackVisitOptList_core (stack : List ScopeTree) (nodes : List (Option Node))
    (arrays : List ArrayDescr) :
    ((unpackVisitOptList stack nodes arrays).2).map descrCore = arrays.map descrCore := by
  cases nodes with
  | nil => rfl
  | cons e es =>
      simp only [unpackVisitOptList]
      rw [unpackVisitOptList_core stack es _, unpackVisitOpt_core stack e arrays]
  termination_by sizeOf nodes
end

theorem core_mem (l l' : List ArrayDescr) (h : l'.map descrCore = l.map descrCore)
    (d' : ArrayDescr) (hd' : d' ∈ l') :
    ∃ d ∈ l, d.nodeId = d'.nodeId ∧ d.parentId = d'.parentId ∧ d.elements = d'.elements := by
  have hm : descrCore d' ∈ l.map descrCore := by
    rw [← h]
    exact List.mem_map_of_mem _ hd'
  rcases List.mem_map.mp hm with ⟨d, hd, hc⟩
  exact ⟨d, hd, congrArg Prod.fst hc, congrArg (fun q => q.2.1) hc,
    congrArg (fun q => q.2.2.2) hc⟩

theorem descrsLit_of_core (l l' : List ArrayDescr) (h : l'.map descrCore = l.map descrCore)
    (hl : descrsLit l) : descrsLit l' := by
  intro d' hd'
  rcases core_mem l l' h d' hd' with ⟨d, hd, _, _, he⟩
  rw [← he]
  exact hl d hd

theorem kindIds_lit_nil (f : Node → Bool)
    (hlitf : ∀ t, isLiteralExprType t = true → f t = false) (t : Node)
    (ht : isLiteralExprType t = true) : kindIds f t = [] := by
  cases t
  case literalNumericExpression i v =>
      simp [kindIds, hlitf (.literalNumericExpression i v) rfl]
  case literalOther i =>
      simp [kindIds, hlitf (.literalOther i) rfl]
  all_goals simp [isLiteralExprType] at ht

mutual
theorem unpackVisit_kindIds (f : Node → Bool)
    (hb : ∀ (i : Nat) (l l' : List Node), f (.block i l) = f (.block i l'))
    (hfb : ∀ (i : Nat) (l l' : List Node), f (.functionBody i l) = f (.functionBody i l'))
    (hvd : ∀ (i : Nat) (b b' : Node) (o o' : Option Node),
      f (.variableDeclarator i b o) = f (.variableDeclarator i b' o'))
    (har : ∀ (i : Nat) (l l' : List (Option Node)),
      f (.arrayExpression i l) = f (.arrayExpression i l'))
    (hcm : ∀ (i : Nat) (a a' b b' : Node),
      f (.computedMemberExpression i a b) = f (.computedMemberExpression i a' b'))
    (hot : ∀ (i : Nat) (l l' : List Node), f (.other i l) = f (.other i l'))
    (hlitf : ∀ t, isLiteralExprType t = true → f t = false)
    (stack : List ScopeTree) (node : Node) (arrays : List ArrayDescr)
    (hlit : descrsLit arrays) :
    List.Sublist (kindIds f (unpackVisit stack node arrays).1) (kindIds f node) := by
  cases node
  case block i statements =>
      simp only [unpackVisit, kindIds]
      rw [hb i _ statements]
      exact List.Sublist.append (List.Sublist.refl _)
        (unpackVisitList_kindIds f hb hfb hvd har hcm hot hlitf _ statements arrays hlit)
  case functionBody i statements =>
      simp only [unpackVisit, kindIds]
      rw [hfb i _ statements]
      exact List.Sublist.append (List.Sublist.refl _)
        (unpackVisitList_kindIds f hb hfb hvd har hcm hot hlitf _ statements arrays hlit)
  case variableDeclarator i b init =>
      simp only [unpackVisit, kindIds]
      rw [hvd i _ b _ init]
      exact List.Sublist.append
        (List.Sublist.append (List.Sublist.refl _)
          (unpackVisit_kindIds f hb hfb hvd har hcm hot hlitf stack b arrays hlit))
        (unpackVisitOpt_kindIds f hb hfb hvd har hcm hot hlitf stack init _
          (descrsLit_of_core _ _ (unpackVisit_core stack b arrays) hlit))
  case bindingIdentifier i name =>
      simp only [unpackVisit]
      exact List.Sublist.refl _
  case arrayExpression i elements =>
      simp only [unpackVisit, kindIds]
      rw [har i _ elements]
      exact List.Sublist.append (List.Sublist.refl _)
        (unpackVisitOptList_kindIds f hb hfb hvd har hcm hot hlitf stack elements arrays hlit)
  case computedMemberExpression i o e =>
      simp only [unpackVisit]
      rcases hu : unpackEnter stack arrays (.computedMemberExpression i o e) with ⟨r, a2, flag⟩
      cases flag
      · show List.Sublist
          (kindIds f (.computedMemberExpression i (unpackVisit stack o arrays).1
            (unpackVisit stack e (unpackVisit stack o arrays).2).1))
          (kindIds f (.computedMemberExpression i o e))
        simp only [kindIds]
        rw [hcm i _ o _ e]
        exact List.Sublist.append
          (List.Sublist.append (List.Sublist.refl _)
            (unpackVisit_kindIds f hb hfb hvd har hcm hot hlitf stack o arrays hlit))
          (unpackVisit_kindIds f hb hfb hvd har hcm hot hlitf stack e _
            (descrsLit_of_core _ _ (unpackVisit_core stack o arrays) hlit))
      · show List.Sublist (kindIds f r) (kindIds f (.computedMemberExpression i o e))
        have hl := unpackEnter_lit stack arrays (.computedMemberExpression i o e) hlit
          (by rw [hu])
        rw [hu] at hl
        rw [kindIds_lit_nil f hlitf r hl]
        exact List.nil_sublist _
  case identifierExpression i name =>
      simp only [unpackVisit]
      exact List.Sublist.refl _
  case literalNumericExpression i v =>
      simp only [unpackVisit]
      exact List.Sublist.refl _
  case literalOther i =>
      simp only [unpackVisit]
      exact List.Sublist.refl _
  case other i children =>
      simp only [unpackVisit, kindIds]
      rw [hot i _ children]
      exact List.Sublist.append (List.Sublist.refl _)
        (unpackVisitList_kindIds f hb hfb hvd har hcm hot hlitf stack children arrays hlit)
  termination_by sizeOf node

theorem unpackVisitList_kindIds (f : Node → Bool)
    (hb : ∀ (i : Nat) (l l' : List Node), f (.block i l) = f (.block i l'))
    (hfb : ∀ (i : Nat) (l l' : List Node), f (.functionBody i l) = f (.functionBody i l'))
    (hvd : ∀ (i : Nat) (b b' : Node) (o o' : Option Node),
      f (.variableDeclarator i b o) = f (.variableDeclarator i b' o'))
    (har : ∀ (i : Nat) (l l' : List (Option Node)),
      f (.arrayExpression i l) = f (.arrayExpression i l'))
    (hcm : ∀ (i : Nat) (a a' b b' : Node),
      f (.computedMemberExpression i a b) = f (.computedMemberExpression i a' b'))
    (hot : ∀ (i : Nat) (l l' : List Node), f (.other i l) = f (.other i l'))
    (hlitf : ∀ t, isLiteralExprType t = true → f t = false)
    (stack : List ScopeTree) (nodes : List Node) (arrays : List ArrayDescr)
    (hlit : descrsLit arrays) :
    List.Sublist (kindIdsList f (unpackVisitList stack nodes arrays).1) (kindIdsList f nodes) := by
  cases nodes with
  | nil => exact List.Sublist.refl _
  | cons n ns =>
      simp only [unpackVisitList, kindIdsList]
      exact List.Sublist.append
        (unpackVisit_kindIds f hb hfb hvd har hcm hot hlitf stack n arrays hlit)
        (unpackVisitList_kindIds f hb hfb hvd har hcm hot hlitf stack ns _
          (descrsLit_of_core _ _ (unpackVisit_core stack n arrays) hlit))
  termination_by sizeOf nodes

theorem unpackVisitOpt_kindIds (f : Node → Bool)
    (hb : ∀ (i : Nat) (l l' : List Node), f (.block i l) = f (.block i l'))
    (hfb : ∀ (i : Nat) (l l' : List Node), f (.functionBody i l) = f (.functionBody i l'))
    (hvd : ∀ (i : Nat) (b b' : Node) (o o' : Option Node),
      f (.variableDeclarator i b o) = f (.variableDeclarator i b' o'))
    (har : ∀ (i : Nat) (l l' : List (Option Node)),
      f (.arrayExpression i l) = f (.arrayExpression i l'))
    (hcm : ∀ (i : Nat) (a a' b b' : Node),
      f (.computedMemberExpression i a b) = f (.computedMemberExpression i a' b'))
    (hot : ∀ (i : Nat) (l l' : List Node), f (.other i l) = f (.other i l'))
    (hlitf : ∀ t, isLiteralExprType t = true → f t = false)
    (stack : List ScopeTree) (node : Option Node) (arrays : List ArrayDescr)
    (hlit : descrsLit arrays) :
    List.Sublist (kindIdsOpt f (unpackVisitOpt stack node arrays).1) (kindIdsOpt f node) := by
  cases node with
  | none => exact List.Sublist.refl _
  | some n =>
      simp only [unpackVisitOpt]
      exact unpackVisit_kindIds f hb hfb hvd har hcm hot hlitf stack n arrays hlit
  termination_by sizeOf node

theorem unpackVisitOptList_kindIds (f : Node → Bool)
    (hb : ∀ (i : Nat) (l l' : List Node), f (.block i l) = f (.block i l'))
    (hfb : ∀ (i : Nat) (l l' : List Node), f (.functionBody i l) = f (.functionBody i l'))
    (hvd : ∀ (i : Nat) (b b' : Node) (o o' : Option Node),
      f (.variableDeclarator i b o) = f (.variableDeclarator i b' o'))
    (har : ∀ (i : Nat) (l l' : List (Option Node)),
      f (.arrayExpression i l) = f (.arrayExpression i l'))
    (hcm : ∀ (i : Nat) (a a' b b' : Node),
      f (.computedMemberExpression i a b) = f (.computedMemberExpression i a' b'))
    (hot : ∀ (i : Nat) (l l' : List Node), f (.other i l) = f (.other i l'))
    (hlitf : ∀ t, isLiteralExprType t = true → f t = false)
    (stack : List ScopeTree) (nodes : List (Option Node)) (arrays : List ArrayDescr)
    (hlit : descrsLit arrays) :
    List.Sublist (kindIdsOptList f (unpackVisitOptList stack nodes arrays).1)
      (kindIdsOptList f nodes) := by
  cases nodes with
  | nil => exact List.Sublist.refl _
  | cons e es =>
      simp only [unpackVisitOptList, kindIdsOptList]
      exact List.Sublist.append
        (unpackVisitOpt_kindIds f hb hfb hvd har hcm hot hlitf stack e arrays hlit)
        (unpackVisitOptList_kindIds f hb hfb hvd har hcm hot hlitf stack es _
          (descrsLit_of_core _ _ (unpackVisitOpt_core stack e arrays) hlit))
  termination_by sizeOf nodes
end

theorem unpackVisit_nondecl (stack : List ScopeTree) (c : Node) (arrays : List ArrayDescr)
    (hlit : descrsLit arrays) (h : isDeclaratorKind c = false) :
    isDeclaratorKind (unpackVisit stack c arrays).1 = false := by
  cases c
  case variableDeclarator i b init => exact absurd h (by simp [isDeclaratorKind])
  case computedMemberExpression i o e =>
      simp only [unpackVisit]
      rcases hu : unpackEnter stack arrays (.computedMemberExpression i o e) with ⟨r, a2, flag⟩
      cases flag
      · rfl
      · show isDeclaratorKind r = false
        have hl := unpackEnter_lit stack arrays (.computedMemberExpression i o e) hlit
          (by rw [hu])
        rw [hu] at hl
        cases r <;> first | rfl | simp [isLiteralExprType] at hl
  all_goals simp only [unpackVisit]
  all_goals rfl

theorem unpackVisitOpt_elemNonDecl (stack : List ScopeTree) (e : Option Node)
    (arrays : List ArrayDescr) (hlit : descrsLit arrays)
    (he : (match e with
      | some (.variableDeclarator _ _ _) => false
      | _ => true) = true) :
    (match (unpackVisitOpt stack e arrays).1 with
      | some (.variableDeclarator _ _ _) => false
      | _ => true) = true := by
  cases e with
  | none => rfl
  | some c =>
      have hc : isDeclaratorKind c = false := by
        cases c <;> first | rfl | exact absurd he (by simp)
      have hres := unpackVisit_nondecl stack c arrays hlit hc
      show (match some (unpackVisit stack c arrays).1 with
        | some (.variableDeclarator _ _ _) => false
        | _ => true) = true
      cases hr : (unpackVisit stack c arrays).1 <;>
        first | rfl | (rw [hr] at hres; exact absurd hres (by simp [isDeclaratorKind]))

mutual
theorem unpackVisit_noDecl (stack : List ScopeTree) (node : Node) (arrays : List ArrayDescr)
    (hlit : descrsLit arrays) (h : noDeclInArrayElems node = true) :
    noDeclInArrayElems (unpackVisit stack node arrays).1 = true := by
  cases node
  case block i statements =>
      simp only [unpackVisit, noDeclInArrayElems] at h ⊢
      exact (unpackVisitList_noDecl _ statements arrays hlit h).1
  case functionBody i statements =>
      simp only [unpackVisit, noDeclInArrayElems] at h ⊢
      exact (unpackVisitList_noDecl _ statements arrays hlit h).1
  case variableDeclarator i b init =>
      simp only [unpackVisit, noDeclInArrayElems, Bool.and_eq_true] at h ⊢
      refine ⟨unpackVisit_noDecl stack b arrays hlit h.1, ?_⟩
      exact (unpackVisitOpt_noDecl stack init _
        (descrsLit_of_core _ _ (unpackVisit_core stack b arrays) hlit) h.2).1
  case bindingIdentifier i name => rfl
  case arrayExpression i elements =>
      simp only [unpackVisit, noDeclInArrayElems, Bool.and_eq_true] at h ⊢
      obtain ⟨h1, h2⟩ := h
      have hrec := unpackVisitOptList_noDecl stack elements arrays hlit h2
      exact ⟨hrec.2.2 h1, hrec.1⟩
  case computedMemberExpression i o e =>
      simp only [unpackVisit]
      rcases hu : unpackEnter stack arrays (.computedMemberExpression i o e) with ⟨r, a2, flag⟩
      cases flag
      · show noDeclInArrayElems (.computedMemberExpression i (unpackVisit stack o arrays).1
          (unpackVisit stack e (unpackVisit stack o arrays).2).1) = true
        simp only [noDeclInArrayElems, Bool.and_eq_true] at h ⊢
        exact ⟨unpackVisit_noDecl stack o arrays hlit h.1,
          unpackVisit_noDecl stack e _
            (descrsLit_of_core _ _ (unpackVisit_core stack o arrays) hlit) h.2⟩
      · show noDeclInArrayElems r = true
        have hl := unpackEnter_lit stack arrays (.computedMemberExpression i o e) hlit
          (by rw [hu])
        rw [hu] at hl
        cases r <;> first | rfl | simp [isLiteralExprType] at hl
  case identifierExpression i name => rfl
  case literalNumericExpression i v => rfl
  case literalOther i => rfl
  case other i children =>
      simp only [unpackVisit, noDeclInArrayElems] at h ⊢
      exact (unpackVisitList_noDecl stack children arrays hlit h).1
  termination_by sizeOf node

theorem unpackVisitList_noDecl (stack : List ScopeTree) (nodes : List Node)
    (arrays : List ArrayDescr) (hlit : descrsLit arrays)
    (h : noDeclInArrayElemsList nodes = true) :
    noDeclInArrayElemsList (unpackVisitList stack nodes arrays).1 = true ∧ True := by
  cases nodes with
  | nil => exact ⟨rfl, trivial⟩
  | cons n ns =>
      simp only [noDeclInArrayElemsList, Bool.and_eq_true] at h
      simp only [unpackVisitList, noDeclInArrayElemsList, Bool.and_eq_true]
      refine ⟨⟨unpackVisit_noDecl stack n arrays hlit h.1, ?_⟩, trivial⟩
      exact (unpackVisitList_noDecl stack ns _
        (descrsLit_of_core _ _ (unpackVisit_core stack n arrays) hlit) h.2).1
  termination_by sizeOf nodes

theorem unpackVisitOpt_noDecl (stack : List ScopeTree) (node : Option Node)
    (arrays : List ArrayDescr) (hlit : descrsLit arrays)
    (h : noDeclInArrayElemsOpt node = true) :
    noDeclInArrayElemsOpt (unpackVisitOpt stack node arrays).1 = true ∧ True := by
  cases node with
  | none => exact ⟨rfl, trivial⟩
  | some n =>
      simp only [unpackVisitOpt, noDeclInArrayElemsOpt] at h ⊢
      exact ⟨unpackVisit_noDecl stack n arrays hlit h, trivial⟩
  termination_by sizeOf node

theorem unpackVisitOptList_noDecl (stack : List ScopeTree) (nodes : List (Option Node))
    (arrays : List ArrayDescr) (hlit : descrsLit arrays)
    (h : noDeclInArrayElemsOptList nodes = true) :
    noDeclInArrayElemsOptList (unpackVisitOptList stack nodes arrays).1 = true ∧ True ∧
      ((nodes.all (fun e => match e with
        | some (.variableDeclarator _ _ _) => false
        | _ => true)) = true →
       (((unpackVisitOptList stack nodes arrays).1).all (fun e => match e with
        | some (.variableDeclarator _ _ _) => false
        | _ => true)) = true) := by
  cases nodes with
  | nil => exact ⟨rfl, trivial, fun _ => rfl⟩
  | cons e es =>
      simp only [noDeclInArrayElemsOptList, Bool.and_eq_true] at h
      have hlit2 : descrsLit (unpackVisitOpt stack e arrays).2 :=
        descrsLit_of_core _ _ (unpackVisitOpt_core stack e arrays) hlit
      have hrec := unpackVisitOptList_noDecl stack es _ hlit2 h.2
      refine ⟨?_, trivial, ?_⟩
      · simp only [unpackVisitOptList, noDeclInArrayElemsOptList, Bool.and_eq_true]
        exact ⟨(unpackVisitOpt_noDecl stack e arrays hlit h.1).1, hrec.1⟩
      · intro hall
        simp only [List.all_cons, Bool.and_eq_true] at hall
        simp only [unpackVisitOptList, List.all_cons, Bool.and_eq_true]
        exact ⟨unpackVisitOpt_elemNonDecl stack e arrays hlit hall.1,
          hrec.2.2 hall.2⟩
  termination_by sizeOf nodes
end

theorem isLAD_decl (n : Node) (h : isLiteralArrayDeclaration n = true) :
    isDeclaratorKind n = true := by
  cases n <;> first | rfl | simp [isLiteralArrayDeclaration] at h

theorem isLAD_elements (n : Node) (h : isLiteralArrayDeclaration n = true) :
    elementsAllLiteralish (ladElements n) = true := by
  cases n
  case variableDeclarator i b init =>
      cases b
      case bindingIdentifier bi name =>
          cases init with
          | none => simp [isLiteralArrayDeclaration] at h
          | some c =>
              cases c
              case arrayExpression ai els =>
                  simpa [isLiteralArrayDeclaration, ladElements] using h
              all_goals simp [isLiteralArrayDeclaration] at h
      all_goals simp [isLiteralArrayDeclaration] at h
  all_goals simp [isLiteralArrayDeclaration] at h

theorem findEnter_arrays_src (node parent : Node) (st : FindSt) (d : ArrayDescr)
    (hd : d ∈ (findEnter node parent st).arrays) :
    d ∈ st.arrays ∨ (elementsAllLiteralish d.elements = true ∧ isDeclaratorKind node = true ∧
      d.parentId = parent.getId) := by
  by_cases hs : isScopeNodeType node = true
  · rw [findEnter_scope node parent st hs] at hd
    exact Or.inl hd
  · rw [findEnter_nonscope node parent st (by simpa using hs)] at hd
    by_cases hg : (isLiteralArrayDeclaration node && !st.seen.contains node.getId) = true
    · rw [if_pos hg] at hd
      rcases List.mem_append.mp hd with hold | hnew
      · exact Or.inl hold
      · have hdl : d = ladDescriptor node parent := List.mem_singleton.mp hnew
        rw [Bool.and_eq_true] at hg
        subst hdl
        exact Or.inr ⟨isLAD_elements node hg.1, isLAD_decl node hg.1, rfl⟩
    · rw [if_neg hg] at hd
      exact Or.inl hd

mutual
theorem findVisit_arrays_src (parent node : Node) (st : FindSt) (d : ArrayDescr)
    (hd : d ∈ (findVisit parent node st).arrays) :
    d ∈ st.arrays ∨ (elementsAllLiteralish d.elements = true ∧
      ((isDeclaratorKind node = true ∧ d.parentId = parent.getId) ∨
        d.parentId ∈ declParentIds node)) := by
  cases node
  case block i statements =>
      simp only [findVisit] at hd
      rw [(findLeave_parts _ _).1] at hd
      rcases findVisitList_arrays_src (.block i statements) statements _ d hd with
        h1 | ⟨hlit, hloc⟩
      · rcases findEnter_arrays_src (.block i statements) parent st d h1 with
          h0 | ⟨_, hk, _⟩
        · exact Or.inl h0
        · exact absurd hk (by simp [isDeclaratorKind])
      · refine Or.inr ⟨hlit, Or.inr ?_⟩
        simp only [declParentIds, List.mem_append]
        rcases hloc with ⟨c, hc, hck, hcp⟩ | hmem
        · left
          rw [if_pos (List.any_eq_true.mpr ⟨c, hc, hck⟩), hcp]
          exact List.mem_singleton.mpr rfl
        · exact Or.inr hmem
  case functionBody i statements =>
      simp only [findVisit] at hd
      rw [(findLeave_parts _ _).1] at hd
      rcases findVisitList_arrays_src (.functionBody i statements) statements _ d hd with
        h1 | ⟨hlit, hloc⟩
      · rcases findEnter_arrays_src (.functionBody i statements) parent st d h1 with
          h0 | ⟨_, hk, _⟩
        · exact Or.inl h0
        · exact absurd hk (by simp [isDeclaratorKind])
      · refine Or.inr ⟨hlit, Or.inr ?_⟩
        simp only [declParentIds, List.mem_append]
        rcases hloc with ⟨c, hc, hck, hcp⟩ | hmem
        · left
          rw [if_pos (List.any_eq_true.mpr ⟨c, hc, hck⟩), hcp]
          exact List.mem_singleton.mpr rfl
        · exact Or.inr hmem
  case variableDeclarator i b init =>
      simp only [findVisit] at hd
      rw [(findLeave_parts _ _).1] at hd
      rcases findVisitOpt_arrays_src (.variableDeclarator i b init) init _ d hd with
        h2 | ⟨hlit, hloc2⟩
      · rcases findVisit_arrays_src (.variableDeclarator i b init) b _ d h2 with
          h1 | ⟨hlit, hloc1⟩
        · rcases findEnter_arrays_src (.variableDeclarator i b init) parent st d h1 with
            h0 | ⟨hl, hk, hp⟩
          · exact Or.inl h0
          · exact Or.inr ⟨hl, Or.inl ⟨hk, hp⟩⟩
        · refine Or.inr ⟨hlit, Or.inr ?_⟩
          simp only [declParentIds, List.mem_append]
          rcases hloc1 with ⟨hbk, hbp⟩ | hmem
          · left; left
            rw [if_pos (by rw [hbk]; rfl), hbp]
            exact List.mem_singleton.mpr rfl
          · exact Or.inl (Or.inr hmem)
      · refine Or.inr ⟨hlit, Or.inr ?_⟩
        simp only [declParentIds, List.mem_append]
        rcases hloc2 with ⟨⟨c, hceq, hck⟩, hp⟩ | hmem
        · left; left
          rw [if_pos (by simp [hceq, hck]), hp]
          exact List.mem_singleton.mpr rfl
        · exact Or.inr hmem
  case bindingIdentifier i name =>
      simp only [findVisit] at hd
      rw [(findLeave_parts _ _).1] at hd
      rcases findEnter_arrays_src (.bindingIdentifier i name) parent st d hd with
        h0 | ⟨_, hk, _⟩
      · exact Or.inl h0
      · exact absurd hk (by simp [isDeclaratorKind])
  case arrayExpression i elements =>
      simp only [findVisit] at hd
      rw [(findLeave_parts _ _).1] at hd
      rcases findVisitOptList_arrays_src (.arrayExpression i elements) elements _ d hd with
        h1 | ⟨hlit, hloc⟩
      · rcases findEnter_arrays_src (.arrayExpression i elements) parent st d h1 with
          h0 | ⟨_, hk, _⟩
        · exact Or.inl h0
        · exact absurd hk (by simp [isDeclaratorKind])
      · refine Or.inr ⟨hlit, Or.inr ?_⟩
        simp only [declParentIds, List.mem_append]
        rcases hloc with ⟨c, hcm, hck, hcp⟩ | hmem
        · left
          rw [if_pos (List.any_eq_true.mpr ⟨some c, hcm, hck⟩), hcp]
          exact List.mem_singleton.mpr rfl
        · exact Or.inr hmem
  case computedMemberExpression i o e =>
      simp only [findVisit] at hd
      rw [(findLeave_parts _ _).1] at hd
      rcases findVisit_arrays_src (.computedMemberExpression i o e) e _ d hd with
        h2 | ⟨hlit, hloc2⟩
      · rcases findVisit_arrays_src (.computedMemberExpression i o e) o _ d h2 with
          h1 | ⟨hlit, hloc1⟩
        · rcases findEnter_arrays_src (.computedMemberExpression i o e) parent st d h1 with
            h0 | ⟨_, hk, _⟩
          · exact Or.inl h0
          · exact absurd hk (by simp [isDeclaratorKind])
        · refine Or.inr ⟨hlit, Or.inr ?_⟩
          simp only [declParentIds, List.mem_append]
          rcases hloc1 with ⟨hok, hop⟩ | hmem
          · left; left
            rw [if_pos (by rw [hok]; rfl), hop]
            exact List.mem_singleton.mpr rfl
          · exact Or.inl (Or.inr hmem)
      · refine Or.inr ⟨hlit, Or.inr ?_⟩
        simp only [declParentIds, List.mem_append]
        rcases hloc2 with ⟨hek, hep⟩ | hmem
        · left; left
          rw [if_pos (by rw [hek]; simp), hep]
          exact List.mem_singleton.mpr rfl
        · exact Or.inr hmem
  case identifierExpression i name =>
      simp only [findVisit] at hd
      rw [(findLeave_parts _ _).1] at hd
      rcases findEnter_arrays_src (.identifierExpression i name) parent st d hd with
        h0 | ⟨_, hk, _⟩
      · exact Or.inl h0
      · exact absurd hk (by simp [isDeclaratorKind])
  case literalNumericExpression i v =>
      simp only [findVisit] at hd
      rw [(findLeave_parts _ _).1] at hd
      rcases findEnter_arrays_src (.literalNumericExpression i v) parent st d hd with
        h0 | ⟨_, hk, _⟩
      · exact Or.inl h0
      · exact absurd hk (by simp [isDeclaratorKind])
  case literalOther i =>
      simp only [findVisit] at hd
      rw [(findLeave_parts _ _).1] at hd
      rcases findEnter_arrays_src (.literalOther i) parent st d hd with h0 | ⟨_, hk, _⟩
      · exact Or.inl h0
      · exact absurd hk (by simp [isDeclaratorKind])
  case other i children =>
      simp only [findVisit] at hd
      rw [(findLeave_parts _ _).1] at hd
      rcases findVisitList_arrays_src (.other i children) children _ d hd with
        h1 | ⟨hlit, hloc⟩
      · rcases findEnter_arrays_src (.other i children) parent st d h1 with
          h0 | ⟨_, hk, _⟩
        · exact Or.inl h0
        · exact absurd hk (by simp [isDeclaratorKind])
      · refine Or.inr ⟨hlit, Or.inr ?_⟩
        simp only [declParentIds, List.mem_append]
        rcases hloc with ⟨c, hc, hck, hcp⟩ | hmem
        · left
          rw [if_pos (List.any_eq_true.mpr ⟨c, hc, hck⟩), hcp]
          exact List.mem_singleton.mpr rfl
        · exact Or.inr hmem
  termination_by sizeOf node

theorem findVisitList_arrays_src (parent : Node) (nodes : List Node) (st : FindSt)
    (d : ArrayDescr) (hd : d ∈ (findVisitList parent nodes st).arrays) :
    d ∈ st.arrays ∨ (elementsAllLiteralish d.elements = true ∧
      ((∃ c ∈ nodes, isDeclaratorKind c = true ∧ d.parentId = parent.getId) ∨
        d.parentId ∈ declParentIdsList nodes)) := by
  cases nodes with
  | nil => exact Or.inl hd
  | cons n ns =>
      simp only [findVisitList] at hd
      rcases findVisitList_arrays_src parent ns _ d hd with h1 | ⟨hlit, hloc⟩
      · rcases findVisit_arrays_src parent n st d h1 with h0 | ⟨hlit, hloc0⟩
        · exact Or.inl h0
        · refine Or.inr ⟨hlit, ?_⟩
          rcases hloc0 with ⟨hk, hp⟩ | hmem
          · exact Or.inl ⟨n, List.mem_cons_self n ns, hk, hp⟩
          · refine Or.inr ?_
            simp only [declParentIdsList, List.mem_append]
            exact Or.inl hmem
      · refine Or.inr ⟨hlit, ?_⟩
        rcases hloc with ⟨c, hc, hck, hcp⟩ | hmem
        · exact Or.inl ⟨c, List.mem_cons_of_mem n hc, hck, hcp⟩
        · refine Or.inr ?_
          simp only [declParentIdsList, List.mem_append]
          exact Or.inr hmem
  termination_by sizeOf nodes

theorem findVisitOpt_arrays_src (parent : Node) (node : Option Node) (st : FindSt)
    (d : ArrayDescr) (hd : d ∈ (findVisitOpt parent node st).arrays) :
    d ∈ st.arrays ∨ (elementsAllLiteralish d.elements = true ∧
      (((∃ c, node = some c ∧ isDeclaratorKind c = true) ∧ d.parentId = parent.getId) ∨
        d.parentId ∈ declParentIdsOpt node)) := by
  cases node with
  | none => exact Or.inl hd
  | some n =>
      rcases findVisit_arrays_src parent n st d hd with h0 | ⟨hlit, hloc⟩
      · exact Or.inl h0
      · refine Or.inr ⟨hlit, ?_⟩
        rcases hloc with ⟨hk, hp⟩ | hmem
        · exact Or.inl ⟨⟨n, rfl, hk⟩, hp⟩
        · exact Or.inr hmem
  termination_by sizeOf node

theorem findVisitOptList_arrays_src (parent : Node) (nodes : List (Option Node)) (st : FindSt)
    (d : ArrayDescr) (hd : d ∈ (findVisitOptList parent nodes st).arrays) :
    d ∈ st.arrays ∨ (elementsAllLiteralish d.elements = true ∧
      ((∃ c, some c ∈ nodes ∧ isDeclaratorKind c = true ∧ d.parentId = parent.getId) ∨
        d.parentId ∈ declParentIdsOptList nodes)) := by
  cases nodes with
  | nil => exact Or.inl hd
  | cons e es =>
      simp only [findVisitOptList] at hd
      rcases findVisitOptList_arrays_src parent es _ d hd with h1 | ⟨hlit, hloc⟩
      · rcases findVisitOpt_arrays_src parent e st d h1 with h0 | ⟨hlit, hloc0⟩
        · exact Or.inl h0
        · refine Or.inr ⟨hlit, ?_⟩
          rcases hloc0 with ⟨⟨c, hceq, hck⟩, hp⟩ | hmem
          · subst hceq
            exact Or.inl ⟨c, List.mem_cons_self _ es, hck, hp⟩
          · refine Or.inr ?_
            simp only [declParentIdsOptList, List.mem_append]
            exact Or.inl hmem
      · refine Or.inr ⟨hlit, ?_⟩
        rcases hloc with ⟨c, hc, hck, hcp⟩ | hmem
        · exact Or.inl ⟨c, List.mem_cons_of_mem e hc, hck, hcp⟩
        · refine Or.inr ?_
          simp only [declParentIdsOptList, List.mem_append]
          exact Or.inr hmem
  termination_by sizeOf nodes
end

theorem scopeDescrsChildren_mapSet (m : List (Nat × ScopeTree)) (k : Nat) (v : ScopeTree)
    (x : Nat) (hx : x ∈ scopeDescrsChildren (mapSet m k v)) :
    x ∈ scopeDescrsChildren m ∨ x ∈ scopeDescrs v := by
  induction m with
  | nil =>
      simp only [mapSet, scopeDescrsChildren, List.append_nil] at hx
      exact Or.inr hx
  | cons a rest ih =>
      rcases a with ⟨ak, ac⟩
      simp only [mapSet] at hx
      by_cases hak : ak = k
      · rw [if_pos hak] at hx
        simp only [scopeDescrsChildren, List.mem_append] at hx ⊢
        rcases hx with hx | hx
        · exact Or.inr hx
        · exact Or.inl (Or.inr hx)
      · rw [if_neg hak] at hx
        simp only [scopeDescrsChildren, List.mem_append] at hx ⊢
        rcases hx with hx | hx
        · exact Or.inl (Or.inl hx)
        · rcases ih hx with h | h
          · exact Or.inl (Or.inr h)
          · exact Or.inr h

theorem findEnter_inert (node parent : Node) (st : FindSt)
    (h : (findEnter node parent st).found = false) :
    (findEnter node parent st).arrays = st.arrays ∧ (findEnter node parent st).seen = st.seen ∧
      ∀ x ∈ stateDescrs (findEnter node parent st), x ∈ stateDescrs st := by
  by_cases hs : isScopeNodeType node = true
  · rw [findEnter_scope node parent st hs]
    refine ⟨rfl, rfl, ?_⟩
    intro x hx
    simpa [stateDescrs, scopeDescrs, scopeDescrsChildren] using hx
  · rw [findEnter_nonscope node parent st (by simpa using hs)] at h ⊢
    by_cases hg : (isLiteralArrayDeclaration node && !st.seen.contains node.getId) = true
    · rw [if_pos hg] at h
      simp at h
    · rw [if_neg hg]
      exact ⟨rfl, rfl, fun x hx => hx⟩

theorem findLeave_descr (node : Node) (st : FindSt) (x : Nat)
    (hx : x ∈ stateDescrs (findLeave node st)) : x ∈ stateDescrs st := by
  cases st with
  | mk arrays seen found cur ctx =>
      cases ctx with
      | nil => exact hx
      | cons parent rest =>
          by_cases h : node.getId = cur.nodeOf
          · simp only [findLeave, if_pos h] at hx
            simp only [stateDescrs, List.map_cons, List.flatten_cons, List.mem_append,
              scopeDescrs] at hx ⊢
            rcases hx with (hx | hx) | hx
            · exact Or.inr (Or.inl (by cases parent with
                | mk a b c dd => exact List.mem_append.mpr (Or.inl hx)))
            · rcases scopeDescrsChildren_mapSet _ _ _ x hx with hm | hm
              · refine Or.inr (Or.inl ?_)
                cases parent with
                | mk a b c dd => exact List.mem_append.mpr (Or.inr hm)
              · exact Or.inl (by cases cur with
                  | mk a b c dd => exact hm)
            · exact Or.inr (Or.inr hx)
          · simp only [findLeave, if_neg h] at hx
            exact hx

mutual
theorem findVisit_inert (parent node : Node) (st : FindSt)
    (h : (findVisit parent node st).found = false) :
    (findVisit parent node st).arrays = st.arrays ∧
      (findVisit parent node st).seen = st.seen ∧
      ∀ x ∈ stateDescrs (findVisit parent node st), x ∈ stateDescrs st := by
  cases node
  case block i statements =>
      simp only [findVisit] at h ⊢
      rw [(findLeave_parts _ _).2.2] at h
      have hE : (findEnter (.block i statements) parent st).found = false := by
        cases hf : (findEnter (.block i statements) parent st).found with
        | false => rfl
        | true =>
            rw [findVisitList_found_mono (.block i statements) statements _ hf] at h
            simp at h
      obtain ⟨ha1, hs1, hd1⟩ := findEnter_inert (.block i statements) parent st hE
      obtain ⟨ha2, hs2, hd2⟩ := findVisitList_inert (.block i statements) statements _ h
      refine ⟨?_, ?_, ?_⟩
      · rw [(findLeave_parts _ _).1, ha2, ha1]
      · rw [(findLeave_parts _ _).2.1, hs2, hs1]
      · intro x hx
        exact hd1 x (hd2 x (findLeave_descr _ _ x hx))
  case functionBody i statements =>
      simp only [findVisit] at h ⊢
      rw [(findLeave_parts _ _).2.2] at h
      have hE : (findEnter (.functionBody i statements) parent st).found = false := by
        cases hf : (findEnter (.functionBody i statements) parent st).found with
        | false => rfl
        | true =>
            rw [findVisitList_found_mono (.functionBody i statements) statements _ hf] at h
            simp at h
      obtain ⟨ha1, hs1, hd1⟩ := findEnter_inert (.functionBody i statements) parent st hE
      obtain ⟨ha2, hs2, hd2⟩ := findVisitList_inert (.functionBody i statements) statements _ h
      refine ⟨?_, ?_, ?_⟩
      · rw [(findLeave_parts _ _).1, ha2, ha1]
      · rw [(findLeave_parts _ _).2.1, hs2, hs1]
      · intro x hx
        exact hd1 x (hd2 x (findLeave_descr _ _ x hx))
  case variableDeclarator i b init =>
      simp only [findVisit] at h ⊢
      rw [(findLeave_parts _ _).2.2] at h
      have h2 : (findVisit (.variableDeclarator i b init) b
          (findEnter (.variableDeclarator i b init) parent st)).found = false := by
        cases hf : (findVisit (.variableDeclarator i b init) b
            (findEnter (.variableDeclarator i b init) parent st)).found with
        | false => rfl
        | true =>
            rw [findVisitOpt_found_mono (.variableDeclarator i b init) init _ hf] at h
            simp at h
      have h1 : (findEnter (.variableDeclarator i b init) parent st).found = false := by
        cases hf : (findEnter (.variableDeclarator i b init) parent st).found with
        | false => rfl
        | true =>
            rw [findVisit_found_mono (.variableDeclarator i b init) b _ hf] at h2
            simp at h2
      obtain ⟨ha1, hs1, hd1⟩ := findEnter_inert (.variableDeclarator i b init) parent st h1
      obtain ⟨ha2, hs2, hd2⟩ := findVisit_inert (.variableDeclarator i b init) b _ h2
      obtain ⟨ha3, hs3, hd3⟩ := findVisitOpt_inert (.variableDeclarator i b init) init _ h
      refine ⟨?_, ?_, ?_⟩
      · rw [(findLeave_parts _ _).1, ha3, ha2, ha1]
      · rw [(findLeave_parts _ _).2.1, hs3, hs2, hs1]
      · intro x hx
        exact hd1 x (hd2 x (hd3 x (findLeave_descr _ _ x hx)))
  case bindingIdentifier i name =>
      simp only [findVisit] at h ⊢
      rw [(findLeave_parts _ _).2.2] at h
      obtain ⟨ha1, hs1, hd1⟩ := findEnter_inert (.bindingIdentifier i name) parent st h
      refine ⟨?_, ?_, ?_⟩
      · rw [(findLeave_parts _ _).1, ha1]
      · rw [(findLeave_parts _ _).2.1, hs1]
      · intro x hx
        exact hd1 x (findLeave_descr _ _ x hx)
  case arrayExpression i elements =>
      simp only [findVisit] at h ⊢
      rw [(findLeave_parts _ _).2.2] at h
      have hE : (findEnter (.arrayExpression i elements) parent st).found = false := by
        cases hf : (findEnter (.arrayExpression i elements) parent st).found with
        | false => rfl
        | true =>
            rw [findVisitOptList_found_mono (.arrayExpression i elements) elements _ hf] at h
            simp at h
      obtain ⟨ha1, hs1, hd1⟩ := findEnter_inert (.arrayExpression i elements) parent st hE
      obtain ⟨ha2, hs2, hd2⟩ := findVisitOptList_inert (.arrayExpression i elements) elements _ h
      refine ⟨?_, ?_, ?_⟩
      · rw [(findLeave_parts _ _).1, ha2, ha1]
      · rw [(findLeave_parts _ _).2.1, hs2, hs1]
      · intro x hx
        exact hd1 x (hd2 x (findLeave_descr _ _ x hx))
  case computedMemberExpression i o e =>
      simp only [findVisit] at h ⊢
      rw [(findLeave_parts _ _).2.2] at h
      have h2 : (findVisit (.computedMemberExpression i o e) o
          (findEnter (.computedMemberExpression i o e) parent st)).found = false := by
        cases hf : (findVisit (.computedMemberExpression i o e) o
            (findEnter (.computedMemberExpression i o e) parent st)).found with
        | false => rfl
        | true =>
            rw [findVisit_found_mono (.computedMemberExpression i o e) e _ hf] at h
            simp at h
      have h1 : (findEnter (.computedMemberExpression i o e) parent st).found = false := by
        cases hf : (findEnter (.computedMemberExpression i o e) parent st).found with
        | false => rfl
        | true =>
            rw [findVisit_found_mono (.computedMemberExpression i o e) o _ hf] at h2
            simp at h2
      obtain ⟨ha1, hs1, hd1⟩ := findEnter_inert (.computedMemberExpression i o e) parent st h1
      obtain ⟨ha2, hs2, hd2⟩ := findVisit_inert (.computedMemberExpression i o e) o _ h2
      obtain ⟨ha3, hs3, hd3⟩ := findVisit_inert (.computedMemberExpression i o e) e _ h
      refine ⟨?_, ?_, ?_⟩
      · rw [(findLeave_parts _ _).1, ha3, ha2, ha1]
      · rw [(findLeave_parts _ _).2.1, hs3, hs2, hs1]
      · intro x hx
        exact hd1 x (hd2 x (hd3 x (findLeave_descr _ _ x hx)))
  case identifierExpression i name =>
      simp only [findVisit] at h ⊢
      rw [(findLeave_parts _ _).2.2] at h
      obtain ⟨ha1, hs1, hd1⟩ := findEnter_inert (.identifierExpression i name) parent st h
      refine ⟨?_, ?_, ?_⟩
      · rw [(findLeave_parts _ _).1, ha1]
      · rw [(findLeave_parts _ _).2.1, hs1]
      · intro x hx
        exact hd1 x (findLeave_descr _ _ x hx)
  case literalNumericExpression i v =>
      simp only [findVisit] at h ⊢
      rw [(findLeave_parts _ _).2.2] at h
      obtain ⟨ha1, hs1, hd1⟩ := findEnter_inert (.literalNumericExpression i v) parent st h
      refine ⟨?_, ?_, ?_⟩
      · rw [(findLeave_parts _ _).1, ha1]
      · rw [(findLeave_parts _ _).2.1, hs1]
      · intro x hx
        exact hd1 x (findLeave_descr _ _ x hx)
  case literalOther i =>
      simp only [findVisit] at h ⊢
      rw [(findLeave_parts _ _).2.2] at h
      obtain ⟨ha1, hs1, hd1⟩ := findEnter_inert (.literalOther i) parent st h
      refine ⟨?_, ?_, ?_⟩
      · rw [(findLeave_parts _ _).1, ha1]
      · rw [(findLeave_parts _ _).2.1, hs1]
      · intro x hx
        exact hd1 x (findLeave_descr _ _ x hx)
  case other i children =>
      simp only [findVisit] at h ⊢
      rw [(findLeave_parts _ _).2.2] at h
      have hE : (findEnter (.other i children) parent st).found = false := by
        cases hf : (findEnter (.other i children) parent st).found with
        | false => rfl
        | true =>
            rw [findVisitList_found_mono (.other i children) children _ hf] at h
            simp at h
      obtain ⟨ha1, hs1, hd1⟩ := findEnter_inert (.other i children) parent st hE
      obtain ⟨ha2, hs2, hd2⟩ := findVisitList_inert (.other i children) children _ h
      refine ⟨?_, ?_, ?_⟩
      · rw [(findLeave_parts _ _).1, ha2, ha1]
      · rw [(findLeave_parts _ _).2.1, hs2, hs1]
      · intro x hx
        exact hd1 x (hd2 x (findLeave_descr _ _ x hx))
  termination_by sizeOf node

theorem findVisitList_inert (parent : Node) (nodes : List Node) (st : FindSt)
    (h : (findVisitList parent nodes st).found = false) :
    (findVisitList parent nodes st).arrays = st.arrays ∧
      (findVisitList parent nodes st).seen = st.seen ∧
      ∀ x ∈ stateDescrs (findVisitList parent nodes st), x ∈ stateDescrs st := by
  cases nodes with
  | nil => exact ⟨rfl, rfl, fun x hx => hx⟩
  | cons n ns =>
      simp only [findVisitList] at h ⊢
      have h1 : (findVisit parent n st).found = false := by
        cases hf : (findVisit parent n st).found with
        | false => rfl
        | true =>
            rw [findVisitList_found_mono parent ns _ hf] at h
            simp at h
      obtain ⟨ha1, hs1, hd1⟩ := findVisit_inert parent n st h1
      obtain ⟨ha2, hs2, hd2⟩ := findVisitList_inert parent ns _ h
      exact ⟨by rw [ha2, ha1], by rw [hs2, hs1], fun x hx => hd1 x (hd2 x hx)⟩
  termination_by sizeOf nodes

theorem findVisitOpt_inert (parent : Node) (node : Option Node) (st : FindSt)
    (h : (findVisitOpt parent node st).found = false) :
    (findVisitOpt parent node st).arrays = st.arrays ∧
      (findVisitOpt parent node st).seen = st.seen ∧
      ∀ x ∈ stateDescrs (findVisitOpt parent node st), x ∈ stateDescrs st := by
  cases node with
  | none => exact ⟨rfl, rfl, fun x hx => hx⟩
  | some n => exact findVisit_inert parent n st h
  termination_by sizeOf node

theorem findVisitOptList_inert (parent : Node) (nodes : List (Option Node)) (st : FindSt)
    (h : (findVisitOptList parent nodes st).found = false) :
    (findVisitOptList parent nodes st).arrays = st.arrays ∧
      (findVisitOptList parent nodes st).seen = st.seen ∧
      ∀ x ∈ stateDescrs (findVisitOptList parent nodes st), x ∈ stateDescrs st := by
  cases nodes with
  | nil => exact ⟨rfl, rfl, fun x hx => hx⟩
  | cons e es =>
      simp only [findVisitOptList] at h ⊢
      have h1 : (findVisitOpt parent e st).found = false := by
        cases hf : (findVisitOpt parent e st).found with
        | false => rfl
        | true =>
            rw [findVisitOptList_found_mono parent es _ hf] at h
            simp at h
      obtain ⟨ha1, hs1, hd1⟩ := findVisitOpt_inert parent e st h1
      obtain ⟨ha2, hs2, hd2⟩ := findVisitOptList_inert parent es _ h
      exact ⟨by rw [ha2, ha1], by rw [hs2, hs1], fun x hx => hd1 x (hd2 x hx)⟩
  termination_by sizeOf nodes
end

theorem findArrays_ast (ps : PassState) : (findArrays ps).1.ast = ps.ast := rfl

theorem findArrays_flag (ps : PassState) :
    (findArrays ps).1.shouldRemoveArrays = ps.shouldRemoveArrays := rfl

theorem findArrays_seen_iff (ps : PassState) (i : Nat) :
    i ∈ (findArrays ps).1.seen ↔ i ∈ ps.seen ∨ i ∈ ladNodeIds ps.ast :=
  findVisit_seen ps.ast ps.ast _ i

theorem findArrays_found_src (ps : PassState) (h : (findArrays ps).2 = true) :
    ∃ i, i ∈ ladNodeIds ps.ast ∧ i ∉ ps.seen := by
  rcases findVisit_found_src ps.ast ps.ast _ h with h0 | hex
  · simp at h0
  · exact hex

theorem findArrays_found_of_unseen (ps : PassState) (i : Nat) (hl : i ∈ ladNodeIds ps.ast)
    (hu : i ∉ ps.seen) : (findArrays ps).2 = true :=
  findVisit_found_of_unseen ps.ast ps.ast _ i hl hu

theorem findArrays_inert (ps : PassState) (h : (findArrays ps).2 = false) :
    (findArrays ps).1.arrays = ps.arrays ∧ (findArrays ps).1.seen = ps.seen ∧
      ∀ x ∈ scopeDescrs (findArrays ps).1.root, x ∈ scopeDescrs ps.root := by
  obtain ⟨ha, hs, hd⟩ := findVisit_inert ps.ast ps.ast
    { arrays := ps.arrays, seen := ps.seen, found := false, cur := ps.root, ctx := [] } h
  refine ⟨ha, hs, ?_⟩
  intro x hx
  have hx' : x ∈ stateDescrs (findVisit ps.ast ps.ast
      { arrays := ps.arrays, seen := ps.seen, found := false, cur := ps.root, ctx := [] }) := by
    simp only [stateDescrs, List.mem_append]
    exact Or.inl hx
  have h2 := hd x hx'
  simpa [stateDescrs] using h2

theorem findArrays_lit (ps : PassState) (h : descrsLit ps.arrays) :
    descrsLit (findArrays ps).1.arrays := by
  intro d hd
  rcases findVisit_arrays_src ps.ast ps.ast _ d hd with hold | ⟨hl, _⟩
  · exact h d hold
  · exact hl

theorem findArrays_arrays_src (ps : PassState) (hroot : isDeclaratorKind ps.ast = false)
    (d : ArrayDescr) (hd : d ∈ (findArrays ps).1.arrays) :
    d ∈ ps.arrays ∨
      (elementsAllLiteralish d.elements = true ∧ d.parentId ∈ declParentIds ps.ast) := by
  rcases findVisit_arrays_src ps.ast ps.ast _ d hd with hold | ⟨hl, hloc⟩
  · exact Or.inl hold
  · rcases hloc with ⟨hk, _⟩ | hmem
    · rw [hroot] at hk
      simp at hk
    · exact Or.inr ⟨hl, hmem⟩

theorem count_if_split {i x : Nat} {bf bg bh : Bool} (hs : bf = (bg || bh))
    (hd : bg = true → bh = false) :
    List.count x (if bf = true then [i] else []) =
      List.count x (if bg = true then [i] else []) +
        List.count x (if bh = true then [i] else []) := by
  cases bg
  · cases bh
    · subst hs; simp
    · subst hs; simp
  · have hbh : bh = false := hd rfl
    subst hbh
    subst hs
    simp

mutual
theorem kindIds_count_split (f g h2 : Node → Bool)
    (hsplit : ∀ n, f n = (g n || h2 n)) (hdisj : ∀ n, g n = true → h2 n = false)
    (t : Node) (x : Nat) :
    (kindIds f t).count x = (kindIds g t).count x + (kindIds h2 t).count x := by
  cases t
  case block i statements =>
      simp only [kindIds, List.count_append]
      rw [kindIdsList_count_split f g h2 hsplit hdisj statements x,
        count_if_split (hsplit _) (hdisj _)]
      omega
  case functionBody i statements =>
      simp only [kindIds, List.count_append]
      rw [kindIdsList_count_split f g h2 hsplit hdisj statements x,
        count_if_split (hsplit _) (hdisj _)]
      omega
  case variableDeclarator i b init =>
      simp only [kindIds, List.count_append]
      rw [kindIds_count_split f g h2 hsplit hdisj b x,
        kindIdsOpt_count_split f g h2 hsplit hdisj init x,
        count_if_split (hsplit _) (hdisj _)]
      omega
  case bindingIdentifier i name =>
      simp only [kindIds]
      rw [count_if_split (hsplit _) (hdisj _)]
  case arrayExpression i elements =>
      simp only [kindIds, List.count_append]
      rw [kindIdsOptList_count_split f g h2 hsplit hdisj elements x,
        count_if_split (hsplit _) (hdisj _)]
      omega
  case computedMemberExpression i o e =>
      simp only [kindIds, List.count_append]
      rw [kindIds_count_split f g h2 hsplit hdisj o x,
        kindIds_count_split f g h2 hsplit hdisj e x,
        count_if_split (hsplit _) (hdisj _)]
      omega
  case identifierExpression i name =>
      simp only [kindIds]
      rw [count_if_split (hsplit _) (hdisj _)]
  case literalNumericExpression i v =>
      simp only [kindIds]
      rw [count_if_split (hsplit _) (hdisj _)]
  case literalOther i =>
      simp only [kindIds]
      rw [count_if_split (hsplit _) (hdisj _)]
  case other i children =>
      simp only [kindIds, List.count_append]
      rw [kindIdsList_count_split f g h2 hsplit hdisj children x,
        count_if_split (hsplit _) (hdisj _)]
      omega
  termination_by sizeOf t

theorem kindIdsList_count_split (f g h2 : Node → Bool)
    (hsplit : ∀ n, f n = (g n || h2 n)) (hdisj : ∀ n, g n = true → h2 n = false)
    (l : List Node) (x : Nat) :
    (kindIdsList f l).count x = (kindIdsList g l).count x + (kindIdsList h2 l).count x := by
  cases l with
  | nil => rfl
  | cons n ns =>
      simp only [kindIdsList, List.count_append]
      rw [kindIds_count_split f g h2 hsplit hdisj n x,
        kindIdsList_count_split f g h2 hsplit hdisj ns x]
      omega
  termination_by sizeOf l

theorem kindIdsOpt_count_split (f g h2 : Node → Bool)
    (hsplit : ∀ n, f n = (g n || h2 n)) (hdisj : ∀ n, g n = true → h2 n = false)
    (o : Option Node) (x : Nat) :
    (kindIdsOpt f o).count x = (kindIdsOpt g o).count x + (kindIdsOpt h2 o).count x := by
  cases o with
  | none => rfl
  | some n => exact kindIds_count_split f g h2 hsplit hdisj n x
  termination_by sizeOf o

theorem kindIdsOptList_count_split (f g h2 : Node → Bool)
    (hsplit : ∀ n, f n = (g n || h2 n)) (hdisj : ∀ n, g n = true → h2 n = false)
    (l : List (Option Node)) (x : Nat) :
    (kindIdsOptList f l).count x =
      (kindIdsOptList g l).count x + (kindIdsOptList h2 l).count x := by
  cases l with
  | nil => rfl
  | cons e es =>
      simp only [kindIdsOptList, List.count_append]
      rw [kindIdsOpt_count_split f g h2 hsplit hdisj e x,
        kindIdsOptList_count_split f g h2 hsplit hdisj es x]
      omega
  termination_by sizeOf l
end

theorem nonLit_split (n : Node) : nonLitKind n = (arrKind n || nonLitNonArrKind n) := by
  cases n <;> rfl

theorem arr_disj (n : Node) : arrKind n = true → nonLitNonArrKind n = false := by
  cases n <;> intro h <;> first | rfl | simp [arrKind] at h

theorem one_le_count_of_mem {l : List Nat} {a : Nat} (h : a ∈ l) : 1 ≤ l.count a := by
  induction l with
  | nil => simp at h
  | cons x xs ih =>
      rcases List.mem_cons.mp h with h | h
      · subst h
        simp [List.count_cons]
      · have := ih h
        simp [List.count_cons]
        omega

theorem not_arr_of_nonLitNonArr (t : Node) (hnd : (nonLitIds t).Nodup) (p : Nat)
    (h1 : p ∈ nonLitNonArrayIds t) (h2 : p ∈ arrayExprIds t) : False := by
  rw [nonLitNonArrayIds_eq_kindIds] at h1
  rw [arrayExprIds_eq_kindIds] at h2
  have hc := kindIds_count_split nonLitKind arrKind nonLitNonArrKind nonLit_split arr_disj t p
  have hc1 := one_le_count_of_mem h2
  have hc2 := one_le_count_of_mem h1
  have hn : (kindIds nonLitKind t).count p ≤ 1 := by
    rw [← nonLitIds_eq_kindIds]
    exact List.nodup_iff_count_le_one.mp hnd p
  omega

theorem eq_of_mem_if_singleton {x i : Nat} {b : Bool}
    (hx : x ∈ if b = true then [i] else ([] : List Nat)) : x = i := by
  by_cases hb : b = true
  · rw [if_pos hb] at hx
    exact List.mem_singleton.mp hx
  · rw [if_neg hb] at hx
    exact absurd hx (List.not_mem_nil x)

mutual
theorem declParentIds_sub (t : Node) (hnd : noDeclInArrayElems t = true) (p : Nat)
    (hp : p ∈ declParentIds t) : p ∈ kindIds nonLitNonArrKind t := by
  cases t
  case block i statements =>
      simp only [declParentIds, List.mem_append] at hp
      simp only [noDeclInArrayElems] at hnd
      simp only [kindIds, List.mem_append]
      rcases hp with hp | hp
      · left
        have hpi := eq_of_mem_if_singleton hp
        subst hpi
        simp [nonLitNonArrKind, isLiteralExprType]
      · exact Or.inr (declParentIdsList_sub statements hnd p hp)
  case functionBody i statements =>
      simp only [declParentIds, List.mem_append] at hp
      simp only [noDeclInArrayElems] at hnd
      simp only [kindIds, List.mem_append]
      rcases hp with hp | hp
      · left
        have hpi := eq_of_mem_if_singleton hp
        subst hpi
        simp [nonLitNonArrKind, isLiteralExprType]
      · exact Or.inr (declParentIdsList_sub statements hnd p hp)
  case variableDeclarator i b init =>
      simp only [declParentIds, List.mem_append] at hp
      simp only [noDeclInArrayElems, Bool.and_eq_true] at hnd
      simp only [kindIds, List.mem_append]
      rcases hp with (hp | hp) | hp
      · left; left
        have hpi := eq_of_mem_if_singleton hp
        subst hpi
        simp [nonLitNonArrKind, isLiteralExprType]
      · exact Or.inl (Or.inr (declParentIds_sub b hnd.1 p hp))
      · exact Or.inr (declParentIdsOpt_sub init hnd.2 p hp)
  case bindingIdentifier i name => simp [declParentIds] at hp
  case arrayExpression i elements =>
      simp only [declParentIds, List.mem_append] at hp
      simp only [noDeclInArrayElems, Bool.and_eq_true] at hnd
      obtain ⟨hall, hrec⟩ := hnd
      simp only [kindIds, List.mem_append]
      rcases hp with hp | hp
      · exfalso
        by_cases hc : (elements.any (fun e => match e with
            | some c => isDeclaratorKind c
            | none => false)) = true
        · rcases List.any_eq_true.mp hc with ⟨e, he, hpe⟩
          cases e with
          | none => simp at hpe
          | some c =>
              have hlam := List.all_eq_true.mp hall (some c) he
              have hpe' : isDeclaratorKind c = true := hpe
              cases c <;> simp [isDeclaratorKind] at hpe'
              simpa using hlam
        · rw [if_neg hc] at hp
          simp at hp
      · exact Or.inr (declParentIdsOptList_sub elements hrec p hp)
  case computedMemberExpression i o e =>
      simp only [declParentIds, List.mem_append] at hp
      simp only [noDeclInArrayElems, Bool.and_eq_true] at hnd
      simp only [kindIds, List.mem_append]
      rcases hp with (hp | hp) | hp
      · left; left
        have hpi := eq_of_mem_if_singleton hp
        subst hpi
        simp [nonLitNonArrKind, isLiteralExprType]
      · exact Or.inl (Or.inr (declParentIds_sub o hnd.1 p hp))
      · exact Or.inr (declParentIds_sub e hnd.2 p hp)
  case identifierExpression i name => simp [declParentIds] at hp
  case literalNumericExpression i v => simp [declParentIds] at hp
  case literalOther i => simp [declParentIds] at hp
  case other i children =>
      simp only [declParentIds, List.mem_append] at hp
      simp only [noDeclInArrayElems] at hnd
      simp only [kindIds, List.mem_append]
      rcases hp with hp | hp
      · left
        have hpi := eq_of_mem_if_singleton hp
        subst hpi
        simp [nonLitNonArrKind, isLiteralExprType]
      · exact Or.inr (declParentIdsList_sub children hnd p hp)
  termination_by sizeOf t

theorem declParentIdsList_sub (l : List Node) (hnd : noDeclInArrayElemsList l = true) (p : Nat)
    (hp : p ∈ declParentIdsList l) : p ∈ kindIdsList nonLitNonArrKind l := by
  cases l with
  | nil => simp [declParentIdsList] at hp
  | cons n ns =>
      simp only [declParentIdsList, List.mem_append] at hp
      simp only [noDeclInArrayElemsList, Bool.and_eq_true] at hnd
      simp only [kindIdsList, List.mem_append]
      rcases hp with hp | hp
      · exact Or.inl (declParentIds_sub n hnd.1 p hp)
      · exact Or.inr (declParentIdsList_sub ns hnd.2 p hp)
  termination_by sizeOf l

theorem declParentIdsOpt_sub (o : Option Node) (hnd : noDeclInArrayElemsOpt o = true) (p : Nat)
    (hp : p ∈ declParentIdsOpt o) : p ∈ kindIdsOpt nonLitNonArrKind o := by
  cases o with
  | none => simp [declParentIdsOpt] at hp
  | some n => exact declParentIds_sub n hnd p hp
  termination_by sizeOf o

theorem declParentIdsOptList_sub (l : List (Option Node))
    (hnd : noDeclInArrayElemsOptList l = true) (p : Nat)
    (hp : p ∈ declParentIdsOptList l) : p ∈ kindIdsOptList nonLitNonArrKind l := by
  cases l with
  | nil => simp [declParentIdsOptList] at hp
  | cons e es =>
      simp only [declParentIdsOptList, List.mem_append] at hp
      simp only [noDeclInArrayElemsOptList, Bool.and_eq_true] at hnd
      simp only [kindIdsOptList, List.mem_append]
      rcases hp with hp | hp
      · exact Or.inl (declParentIdsOpt_sub e hnd.1 p hp)
      · exact Or.inr (declParentIdsOptList_sub es hnd.2 p hp)
  termination_by sizeOf l
end

theorem declParent_not_arr (t : Node) (hnodup : (nonLitIds t).Nodup)
    (hnd : noDeclInArrayElems t = true) (p : Nat) (hp : p ∈ declParentIds t) :
    p ∉ arrayExprIds t := by
  intro harr
  exact not_arr_of_nonLitNonArr t hnodup p
    (by rw [nonLitNonArrayIds_eq_kindIds]; exact declParentIds_sub t hnd p hp) harr

theorem unpack_declIds (stack : List ScopeTree) (t : Node) (arrays : List ArrayDescr)
    (hlit : descrsLit arrays) :
    List.Sublist (declNodeIds (unpackVisit stack t arrays).1) (declNodeIds t) := by
  rw [declNodeIds_eq_kindIds, declNodeIds_eq_kindIds]
  exact unpackVisit_kindIds isDeclaratorKind (fun _ _ _ => rfl) (fun _ _ _ => rfl)
    (fun _ _ _ _ _ => rfl) (fun _ _ _ => rfl) (fun _ _ _ _ _ => rfl) (fun _ _ _ => rfl)
    (fun t ht => by cases t <;> first | rfl | simp [isLiteralExprType] at ht)
    stack t arrays hlit

theorem unpack_arrIds (stack : List ScopeTree) (t : Node) (arrays : List ArrayDescr)
    (hlit : descrsLit arrays) :
    List.Sublist (arrayExprIds (unpackVisit stack t arrays).1) (arrayExprIds t) := by
  rw [arrayExprIds_eq_kindIds, arrayExprIds_eq_kindIds]
  exact unpackVisit_kindIds arrKind (fun _ _ _ => rfl) (fun _ _ _ => rfl)
    (fun _ _ _ _ _ => rfl) (fun _ _ _ => rfl) (fun _ _ _ _ _ => rfl) (fun _ _ _ => rfl)
    (fun t ht => by cases t <;> first | rfl | simp [isLiteralExprType] at ht)
    stack t arrays hlit

theorem unpack_nonLitIds (stack : List ScopeTree) (t : Node) (arrays : List ArrayDescr)
    (hlit : descrsLit arrays) :
    List.Sublist (nonLitIds (unpackVisit stack t arrays).1) (nonLitIds t) := by
  rw [nonLitIds_eq_kindIds, nonLitIds_eq_kindIds]
  exact unpackVisit_kindIds nonLitKind (fun _ _ _ => rfl) (fun _ _ _ => rfl)
    (fun _ _ _ _ _ => rfl) (fun _ _ _ => rfl) (fun _ _ _ _ _ => rfl) (fun _ _ _ => rfl)
    (fun t ht => by simp [nonLitKind, ht]) stack t arrays hlit

theorem passInv_findArrays (ps : PassState) (h : passInv ps) : passInv (findArrays ps).1 := by
  obtain ⟨hnodup, hnd, hroot, hdescr⟩ := h
  refine ⟨hnodup, hnd, hroot, ?_⟩
  intro d hd
  rcases findArrays_arrays_src ps hroot d hd with hold | ⟨hl, hpmem⟩
  · exact hdescr d hold
  · exact ⟨hl, declParent_not_arr ps.ast hnodup hnd d.parentId hpmem⟩

theorem unpack_lit (ps : PassState) (hlit : descrsLit ps.arrays) :
    descrsLit (unpackArrays ps).arrays :=
  descrsLit_of_core _ _ (unpackVisit_core [ps.root] ps.ast ps.arrays) hlit

theorem passInv_unpack (ps : PassState) (h : passInv ps) : passInv (unpackArrays ps) := by
  obtain ⟨hnodup, hnd, hroot, hdescr⟩ := h
  have hlit : descrsLit ps.arrays := fun d hd => (hdescr d hd).1
  refine ⟨?_, ?_, ?_, ?_⟩
  · exact List.Nodup.sublist (unpack_nonLitIds [ps.root] ps.ast ps.arrays hlit) hnodup
  · exact unpackVisit_noDecl [ps.root] ps.ast ps.arrays hlit hnd
  · exact unpackVisit_nondecl [ps.root] ps.ast ps.arrays hlit hroot
  · intro d' hd'
    rcases core_mem ps.arrays _ (unpackVisit_core [ps.root] ps.ast ps.arrays) d' hd' with
      ⟨d, hdm, _, hpar, hels⟩
    obtain ⟨hl, hpn⟩ := hdescr d hdm
    refine ⟨by rw [← hels]; exact hl, ?_⟩
    rw [← hpar]
    intro hmem
    exact hpn ((unpack_arrIds [ps.root] ps.ast ps.arrays hlit).subset hmem)

theorem executeLoop_exit : ∀ (fuel : Nat) (ps s : PassState), executeLoop fuel ps = some s →
    passInv ps → ∃ q, passInv q ∧ (findArrays q).2 = false ∧ s = (findArrays q).1 := by
  intro fuel
  induction fuel with
  | zero =>
      intro ps s h _
      simp [executeLoop] at h
  | succ n ih =>
      intro ps s h hinv
      simp only [executeLoop] at h
      by_cases hf : (findArrays ps).2 = true
      · rw [if_pos hf] at h
        exact ih _ s h (passInv_unpack _ (passInv_findArrays ps hinv))
      · rw [if_neg hf] at h
        exact ⟨ps, hinv, by simpa using hf, (Option.some.inj h).symm⟩

theorem filter_measure_lt {l₂ l₁ s₂ s₁ : List Nat} {i0 : Nat}
    (hsub : List.Sublist l₂ l₁) (hmono : ∀ a, a ∈ s₁ → a ∈ s₂)
    (hd : i0 ∈ l₁) (hs1 : i0 ∉ s₁) (hs2 : i0 ∈ s₂) :
    (l₂.filter (fun i => !s₂.contains i)).length <
      (l₁.filter (fun i => !s₁.contains i)).length := by
  have hAB : List.Sublist (l₂.filter (fun i => !s₂.contains i))
      (l₁.filter (fun i => !s₂.contains i)) := List.Sublist.filter _ hsub
  have hBC : List.Sublist (l₁.filter (fun i => !s₂.contains i))
      (l₁.filter (fun i => !s₁.contains i)) := by
    refine filter_mono_pred _ _ ?_ l₁
    intro a ha
    rw [Bool.not_eq_true'] at ha ⊢
    cases hc2 : s₁.contains a with
    | false => rfl
    | true =>
        have hmem : a ∈ s₂ := hmono a ((contains_iff_mem _ _).mp hc2)
        rw [(contains_iff_mem _ _).mpr hmem] at ha
        simp at ha
  have hmemC : i0 ∈ l₁.filter (fun i => !s₁.contains i) := by
    refine List.mem_filter.mpr ⟨hd, ?_⟩
    rw [Bool.not_eq_true']
    cases hcc : s₁.contains i0 with
    | false => rfl
    | true => exact absurd ((contains_iff_mem _ _).mp hcc) hs1
  have hnot : i0 ∉ l₂.filter (fun i => !s₂.contains i) := by
    intro hmem
    have h2 := (List.mem_filter.mp hmem).2
    rw [Bool.not_eq_true'] at h2
    rw [(contains_iff_mem _ _).mpr hs2] at h2
    simp at h2
  exact length_lt_of_sublist_missing (hAB.trans hBC) hmemC hnot

theorem round_measure_lt (ps : PassState) (hlit : descrsLit ps.arrays)
    (hf : (findArrays ps).2 = true) :
    unseenDeclCount (unpackArrays (findArrays ps).1) < unseenDeclCount ps := by
  obtain ⟨i0, hlad, hunseen⟩ := findArrays_found_src ps hf
  have hi0d : i0 ∈ declNodeIds ps.ast := by
    rw [declNodeIds_eq_kindIds]
    exact kindIds_mono isLiteralArrayDeclaration isDeclaratorKind isLAD_decl ps.ast i0 hlad
  have hi0s : i0 ∈ (unpackArrays (findArrays ps).1).seen :=
    (findArrays_seen_iff ps i0).mpr (Or.inr hlad)
  have hlit2 : descrsLit (findArrays ps).1.arrays := findArrays_lit ps hlit
  have hsub : List.Sublist (declNodeIds (unpackArrays (findArrays ps).1).ast)
      (declNodeIds ps.ast) :=
    unpack_declIds [(findArrays ps).1.root] (findArrays ps).1.ast (findArrays ps).1.arrays hlit2
  have hmono : ∀ a, a ∈ ps.seen → a ∈ (unpackArrays (findArrays ps).1).seen :=
    fun a ha => (findArrays_seen_iff ps a).mpr (Or.inl ha)
  exact filter_measure_lt hsub hmono hi0d hunseen hi0s

theorem executeLoop_isSome : ∀ (fuel : Nat) (ps : PassState), descrsLit ps.arrays →
    unseenDeclCount ps < fuel → (executeLoop fuel ps).isSome = true := by
  intro fuel
  induction fuel with
  | zero =>
      intro ps _ h
      exact absurd h (Nat.not_lt_zero _)
  | succ n ih =>
      intro ps hlit hm
      simp only [executeLoop]
      by_cases hf : (findArrays ps).2 = true
      · rw [if_pos hf]
        refine ih _ (unpack_lit _ (findArrays_lit ps hlit)) ?_
        have := round_measure_lt ps hlit hf
        omega
      · rw [if_neg hf]
        rfl

theorem execute_isSome (ps : PassState) (hlit : descrsLit ps.arrays) :
    (execute ps).isSome = true := by
  unfold execute
  have hS : (executeLoop ((declNodeIds ps.ast).length + 1) ps).isSome = true := by
    refine executeLoop_isSome _ ps hlit ?_
    have := List.length_filter_le (fun i => !ps.seen.contains i) (declNodeIds ps.ast)
    unfold unseenDeclCount
    omega
  cases hE : executeLoop ((declNodeIds ps.ast).length + 1) ps with
  | none =>
      rw [hE] at hS
      simp at hS
  | some s => rfl

/-- C3: for every finite input tree the fixpoint loop of the array-unpacking
pass (repeat discovery, then rewrite, until a discovery round finds nothing
new) terminates — `execute`, run on the proven-sufficient round budget of one
more than the tree's declarator count, always returns a result — and it
terminates for the reason the specification gives: every non-terminal
discovery round leaves the tree unchanged, only grows the seen set, and puts
into it at least one declarator node of the tree that was not seen before,
so the seen set strictly increases inside a bound fixed by the finite node
count. -/
theorem C3_fixpoint_terminates (ast : Node) (rm : Bool) :
    (execute (arrayUnpackerInit ast rm)).isSome = true ∧
    ∀ ps : PassState, (findArrays ps).2 = true →
      (findArrays ps).1.ast = ps.ast ∧
      (∀ i ∈ ps.seen, i ∈ (findArrays ps).1.seen) ∧
      ∃ i, i ∈ declNodeIds ps.ast ∧ i ∉ ps.seen ∧ i ∈ (findArrays ps).1.seen := by
  constructor
  · exact execute_isSome _ (fun d hd => absurd hd (List.not_mem_nil d))
  · intro ps hf
    refine ⟨findArrays_ast ps, fun i hi => (findArrays_seen_iff ps i).mpr (Or.inl hi), ?_⟩
    obtain ⟨i0, hlad, hunseen⟩ := findArrays_found_src ps hf
    refine ⟨i0, ?_, hunseen, (findArrays_seen_iff ps i0).mpr (Or.inr hlad)⟩
    rw [declNodeIds_eq_kindIds]
    exact kindIds_mono isLiteralArrayDeclaration isDeclaratorKind isLAD_decl ps.ast i0 hlad

/-- Witness for C3 at the concrete block program `{ const a = [7]; a[0]; }`:
the pass completes, and the first discovery round — which is non-terminal —
satisfies the per-round strict-growth clause. -/
theorem C3_fixpoint_terminates_witness :
    (execute (arrayUnpackerInit exBlock true)).isSome = true ∧
    ((findArrays (arrayUnpackerInit exBlock true)).1.ast =
        (arrayUnpackerInit exBlock true).ast ∧
      (∀ i ∈ (arrayUnpackerInit exBlock true).seen,
        i ∈ (findArrays (arrayUnpackerInit exBlock true)).1.seen) ∧
      ∃ i, i ∈ declNodeIds (arrayUnpackerInit exBlock true).ast ∧
        i ∉ (arrayUnpackerInit exBlock true).seen ∧
        i ∈ (findArrays (arrayUnpackerInit exBlock true)).1.seen) :=
  ⟨(C3_fixpoint_terminates exBlock true).1,
   (C3_fixpoint_terminates exBlock true).2 (arrayUnpackerInit exBlock true) rfl⟩

/-- C5: a completed pass run is a fixpoint.  If `execute`, started on a
parser-shaped tree (pairwise-distinct non-literal node ids, no declarator
directly in an array element slot, a non-declarator root), returns the state
`ps'`, then running the pass again on `ps'` makes zero further discoveries
(the next discovery round's `foundArrays` flag stays down) and zero further
tree mutations (the second run returns a state with the identical tree). -/
theorem C5_idempotent (ast : Node) (rm : Bool) (ps' : PassState)
    (hnodup : (nonLitIds ast).Nodup)
    (hnd : noDeclInArrayElems ast = true)
    (hroot : isDeclaratorKind ast = false)
    (hex : execute (arrayUnpackerInit ast rm) = some ps') :
    (findArrays ps').2 = false ∧
      ∃ ps'', execute ps' = some ps'' ∧ ps''.ast = ps'.ast := by
  have hinv0 : passInv (arrayUnpackerInit ast rm) :=
    ⟨hnodup, hnd, hroot, fun d hd => absurd hd (List.not_mem_nil d)⟩
  unfold execute at hex
  cases hE : executeLoop ((declNodeIds (arrayUnpackerInit ast rm).ast).length + 1)
      (arrayUnpackerInit ast rm) with
  | none =>
      rw [hE] at hex
      simp at hex
  | some s =>
      rw [hE] at hex
      have hex2 : (if s.shouldRemoveArrays = true then removeArraysPass s else s) = ps' :=
        Option.some.inj hex
      obtain ⟨q, hq, hqf, hsq⟩ := executeLoop_exit _ _ s hE hinv0
      obtain ⟨hqnodup, hqnd, hqroot, hqdescr⟩ := hq
      have hsast : s.ast = q.ast := by rw [hsq]; rfl
      have hsarr : s.arrays = q.arrays := by rw [hsq]; exact (findArrays_inert q hqf).1
      have hsseen : s.seen = q.seen := by rw [hsq]; exact (findArrays_inert q hqf).2.1
      have hLADq : ∀ i ∈ ladNodeIds q.ast, i ∈ q.seen := by
        intro i hi
        by_contra hni
        rw [findArrays_found_of_unseen q i hi hni] at hqf
        simp at hqf
      by_cases hrm : s.shouldRemoveArrays = true
      · have hps' : ps' = removeArraysPass s := by
          rw [if_pos hrm] at hex2
          exact hex2.symm
        have hast' : ps'.ast = removeArraysScope s.arrays s.root s.ast := by rw [hps']; rfl
        have harr' : ps'.arrays = s.arrays := by rw [hps']; rfl
        have hseen' : ps'.seen = s.seen := by rw [hps']; rfl
        have hroot' : ps'.root = s.root := by rw [hps']; rfl
        have hflag' : ps'.shouldRemoveArrays = true := by rw [hps']; exact hrm
        have hfold : ps'.ast = (scopeDescrs s.root).foldl (applyRemoval s.arrays) s.ast := by
          rw [hast', removeArraysScope_eq_foldl]
        have hinvS : ∀ d ∈ s.arrays, d.parentId ∉ arrayExprIds s.ast := by
          intro d hd
          rw [hsarr] at hd
          rw [hsast]
          exact (hqdescr d hd).2
        have hLADs : ∀ i ∈ ladNodeIds s.ast, i ∈ s.seen := by
          rw [hsast, hsseen]
          exact hLADq
        have hLADps' : ∀ i ∈ ladNodeIds ps'.ast, i ∈ ps'.seen := by
          intro i hi
          rw [hfold] at hi
          rw [hseen']
          exact hLADs i (foldl_removal_lads s.arrays _ s.ast i hinvS hi)
        have hc1 : (findArrays ps').2 = false := by
          cases hff : (findArrays ps').2 with
          | false => rfl
          | true =>
              obtain ⟨i, hi, hni⟩ := findArrays_found_src ps' hff
              exact absurd (hLADps' i hi) hni
        have hrun : executeLoop ((declNodeIds ps'.ast).length + 1) ps' =
            some (findArrays ps').1 := by
          simp only [executeLoop]
          rw [if_neg (by simp [hc1])]
        refine ⟨hc1, removeArraysPass (findArrays ps').1, ?_, ?_⟩
        · unfold execute
          rw [hrun]
          have hfl2 : (findArrays ps').1.shouldRemoveArrays = true := by
            rw [findArrays_flag, hflag']
          show some (if (findArrays ps').1.shouldRemoveArrays = true then
              removeArraysPass (findArrays ps').1 else (findArrays ps').1) =
            some (removeArraysPass (findArrays ps').1)
          rw [if_pos hfl2]
        · obtain ⟨h2arr, h2seen, h2desc⟩ := findArrays_inert ps' hc1
          show removeArraysScope (findArrays ps').1.arrays (findArrays ps').1.root
              (findArrays ps').1.ast = ps'.ast
          rw [removeArraysScope_eq_foldl, h2arr, harr', findArrays_ast]
          have hsubset : ∀ x ∈ scopeDescrs (findArrays ps').1.root, x ∈ scopeDescrs s.root := by
            intro x hx
            have := h2desc x hx
            rw [hroot'] at this
            exact this
          rw [hfold]
          exact foldl_applyRemoval_subset s.arrays _ _ s.ast hsubset
      · have hps' : ps' = s := by
          rw [if_neg hrm] at hex2
          exact hex2.symm
        have hLADps' : ∀ i ∈ ladNodeIds ps'.ast, i ∈ ps'.seen := by
          rw [hps', hsast, hsseen]
          exact hLADq
        have hc1 : (findArrays ps').2 = false := by
          cases hff : (findArrays ps').2 with
          | false => rfl
          | true =>
              obtain ⟨i, hi, hni⟩ := findArrays_found_src ps' hff
              exact absurd (hLADps' i hi) hni
        have hrun : executeLoop ((declNodeIds ps'.ast).length + 1) ps' =
            some (findArrays ps').1 := by
          simp only [executeLoop]
          rw [if_neg (by simp [hc1])]
        refine ⟨hc1, (findArrays ps').1, ?_, findArrays_ast ps'⟩
        unfold execute
        rw [hrun]
        have hfl2 : (findArrays ps').1.shouldRemoveArrays = false := by
          rw [findArrays_flag, hps']
          simpa using hrm
        show some (if (findArrays ps').1.shouldRemoveArrays = true then
            removeArraysPass (findArrays ps').1 else (findArrays ps').1) =
          some ((findArrays ps').1)
        rw [if_neg (by simp [hfl2])]

/-- Witness for C5 at the aliasing example `const a = [42]; a[0]; a[0];` with
cleanup enabled: the state after one full run is a fixpoint of the pass. -/
theorem C5_idempotent_witness :
    (findArrays exRun1).2 = false ∧
      ∃ ps'', execute exRun1 = some ps'' ∧ ps''.ast = exRun1.ast :=
  C5_idempotent exAlias true exRun1 (by decide) (by decide) (by decide) (by rfl)
